import Mathlib

/-!
Verification development for the hm-proj graph-coloring solver.

The Rust source is shallowly embedded as executable Lean definitions:

- machine integers (usize) become Nat; the constant usize_max stands for
  usize::MAX on a 64-bit target;
- Vec indexing that can panic is modeled by vec_get / vec_set returning
  Res.panic out of bounds; in small pure helpers whose callers guarantee
  bounds (degree counts, filters over adjacency rows) plain List.getD is
  used instead;
- assert_eq! failures and Option::unwrap on None become Res.panic;
- while loops take an explicit fuel argument; Res.out means the fuel ran
  out (it is not a behavior of the program, only of the embedding);
- the thread-local random generator becomes an explicit stream
  rng : Nat -> Nat together with a cursor k that advances by one per draw;
  SliceRandom::choose l picks the element at index rng k mod l.length and
  gen_range(1..=ub) yields 1 + rng k mod ub, so quantifying over all
  streams covers every sequence of choices the program can make;
- the float draw guarding mutation (rand <= mutation_probability) is
  modeled by an abstract predicate mutation_trigger on the drawn value,
  and the float expression floor(population_size * ratio) feeding select
  becomes an abstract Nat parameter named limit;
- HashSet is modeled as a first-insertion-ordered duplicate-free list;
  BinaryHeap is modeled as a list whose peek recomputes the greatest
  element under the derived lexicographic order on (usize, Vec<usize>).
-/

/-- Outcome of running embedded Rust code: a value, a panic, or fuel
exhaustion of the embedding. -/
inductive Res (α : Type) where
  | ok : α → Res α
  | panic : Res α
  | out : Res α
deriving DecidableEq

/-- Sequencing of embedded computations: panics and fuel exhaustion
propagate. -/
def Res.bind {α β : Type} : Res α → (α → Res β) → Res β
  | .ok a, f => f a
  | .panic, _ => .panic
  | .out, _ => .out

/-- Rust usize::MAX on a 64-bit target. -/
def usize_max : ℕ := 18446744073709551615

/-- Vec indexing v[i]: panics out of bounds. -/
def vec_get {α : Type} (l : List α) (i : ℕ) : Res α :=
  match l.get? i with
  | some a => .ok a
  | none => .panic

/-- Vec index assignment v[i] = a: panics out of bounds. -/
def vec_set {α : Type} (l : List α) (i : ℕ) (a : α) : Res (List α) :=
  if i < l.length then .ok (l.set i a) else .panic

/-- Option::unwrap: panics on None. -/
def opt_unwrap {α : Type} : Option α → Res α
  | some a => .ok a
  | none => .panic

/-- Iterator::enumerate starting at index k. -/
def enum_from {α : Type} (k : ℕ) : List α → List (ℕ × α)
  | [] => []
  | a :: l => (k, a) :: enum_from (k + 1) l

/-- SliceRandom::choose: None on an empty slice, otherwise the element at
a stream-chosen index. -/
def rchoose {α : Type} (l : List α) (r : ℕ) : Option α :=
  l.get? (r % l.length)

/-- Vec::resize(n, pad): truncate or pad to length n. -/
def list_resize {α : Type} (l : List α) (n : ℕ) (pad : α) : List α :=
  l.take n ++ List.replicate (n - l.length) pad

/-- HashSet::insert on the insertion-ordered list model. -/
def insert_unique (l : List ℕ) (x : ℕ) : List ℕ :=
  if l.contains x then l else l ++ [x]

/-- Stable insertion into a sorted list: the new element goes in front of
the first entry it compares le to, so earlier elements win ties. -/
def List.stable_insert {α : Type} (le : α → α → Bool) (a : α) : List α → List α
  | [] => [a]
  | b :: rest => if le a b then a :: b :: rest else b :: List.stable_insert le a rest

/-- Stable sort by a boolean comparator, the behavior of Rust's
slice::sort_by (a stable sort); structural insertion sort so that runs
evaluate definitionally. -/
def List.stable_sort {α : Type} : List α → (α → α → Bool) → List α
  | [], _ => []
  | a :: rest, le => List.stable_insert le a (List.stable_sort rest le)

/-- Rust Ord for Vec<usize>: lexicographic. -/
def list_nat_cmp : List ℕ → List ℕ → Ordering
  | [], [] => .eq
  | [], _ :: _ => .lt
  | _ :: _, [] => .gt
  | x :: xs, y :: ys =>
    match compare x y with
    | .eq => list_nat_cmp xs ys
    | o => o

/-- Rust Ord for the Solution pair (usize, Vec<usize>): lexicographic. -/
def sol_cmp (a b : ℕ × List ℕ) : Ordering :=
  match compare a.1 b.1 with
  | .eq => list_nat_cmp a.2 b.2
  | o => o

/-- Boolean less-or-equal induced by sol_cmp, used for Vec::sort. -/
def sol_le (a b : ℕ × List ℕ) : Bool :=
  match sol_cmp a b with
  | .gt => false
  | _ => true

/-- Graph as adjacency lists (src/graph/adj_list.rs). -/
structure AdjList where
  num_vertices : ℕ
  adj_list : List (List ℕ)
deriving DecidableEq

/-- AdjList::new. -/
def AdjList.new (num_vertices : ℕ) : AdjList :=
  ⟨num_vertices, List.replicate num_vertices []⟩

/-- AdjList::get_degree_in_list: count of the neighbors of i lying in
list; 0 when i is out of range. -/
def get_degree_in_list (g : AdjList) (i : ℕ) (list : List ℕ) : ℕ :=
  if i < g.num_vertices then
    ((g.adj_list.getD i []).filter (fun x => list.contains x)).length
  else 0

/-- Graph as a dense boolean matrix (src/graph/mod.rs), used by the
genetic algorithm and path relinking. -/
structure Graph where
  num_vertices : ℕ
  adjacency_matrix : List (List Bool)
deriving DecidableEq

/-- Graph::new: an all-false n by n matrix. -/
def Graph.new (num_vertices : ℕ) : Graph :=
  ⟨num_vertices, List.replicate num_vertices (List.replicate num_vertices false)⟩

/-- Matrix entry read, false out of bounds. -/
def mat_get (g : Graph) (u v : ℕ) : Bool :=
  (g.adjacency_matrix.getD u []).getD v false

/-- Matrix entry write. -/
def mat_set (m : List (List Bool)) (i j : ℕ) (b : Bool) : List (List Bool) :=
  m.set i ((m.getD i []).set j b)

/-- Graph::add_edge: sets both (from,to) and (to,from) when both ends are
in range, silently ignores the call otherwise. -/
def Graph.add_edge (g : Graph) (from_ to_ : ℕ) : Graph :=
  if from_ < g.num_vertices ∧ to_ < g.num_vertices then
    { g with adjacency_matrix := mat_set (mat_set g.adjacency_matrix from_ to_ true) to_ from_ true }
  else g

/-- Graph built by Graph::new followed by a sequence of add_edge calls. -/
def apply_edges (g : Graph) (calls : List (ℕ × ℕ)) : Graph :=
  calls.foldl (fun acc c => acc.add_edge c.1 c.2) g

/-- Graph::get_neighbors: indices of the true entries of row i, empty out
of range. -/
def Graph.get_neighbors (g : Graph) (i : ℕ) : List ℕ :=
  if i < g.num_vertices then
    ((enum_from 0 (g.adjacency_matrix.getD i [])).filter (fun p => p.2)).map (fun p => p.1)
  else []

/-- Validity of node's color against its adjacency-list neighborhood
(src/algorithms/mod.rs is_valid_color_assignment). -/
def is_valid_color_assignment (g : AdjList) (solution : List ℕ) (node : ℕ) : Bool :=
  !((g.adj_list.getD node []).any (fun x => solution.getD node 0 == solution.getD x 0))

/-- Number of distinct values of a solution vector, via HashSet collect
(count_colors in src/algorithms/mod.rs and src/algorithms/genetic.rs,
identical bodies). -/
def count_colors (solution : List ℕ) : ℕ :=
  solution.dedup.length

/-- Validity of a whole coloring (src/algorithms/mod.rs
is_coloring_valid). -/
def is_coloring_valid (g : AdjList) (coloring : List ℕ) : Bool :=
  (List.range g.num_vertices).all (fun x => is_valid_color_assignment g coloring x)

/-- Validity of node's color against its matrix neighborhood
(src/algorithms/genetic.rs valid_color_assignment). -/
def valid_color_assignment (g : Graph) (solution : List ℕ) (node : ℕ) : Bool :=
  !((g.get_neighbors node).any (fun x => solution.getD node 0 == solution.getD x 0))

/-- Whole-coloring validity in the matrix representation, the conjunction
the genetic tests check vertex by vertex. -/
def genetic_coloring_valid (g : Graph) (coloring : List ℕ) : Bool :=
  (List.range g.num_vertices).all (fun x => valid_color_assignment g coloring x)

/-- Well-formedness of an adjacency-list graph as built by the loader:
row count equals the vertex count, the vertex count fits comfortably in
usize, entries are in range, multiplicities are symmetric, and there are
no self-loops. -/
def AdjList.wb (g : AdjList) : Bool :=
  (g.adj_list.length == g.num_vertices) &&
  (decide (g.num_vertices < 4294967296)) &&
  (g.adj_list.all (fun l => l.all (fun v => v < g.num_vertices))) &&
  ((List.range g.num_vertices).all (fun u => (List.range g.num_vertices).all (fun v =>
    (g.adj_list.getD u []).count v == (g.adj_list.getD v []).count u))) &&
  ((List.range g.num_vertices).all (fun v => !((g.adj_list.getD v []).contains v)))

/-- Well-formedness of a matrix graph: square shape, symmetry, and an
all-false diagonal. -/
def Graph.wb (g : Graph) : Bool :=
  (g.adjacency_matrix.length == g.num_vertices) &&
  (g.adjacency_matrix.all (fun row => row.length == g.num_vertices)) &&
  ((List.range g.num_vertices).all (fun u => (List.range g.num_vertices).all (fun v =>
    mat_get g u v == mat_get g v u))) &&
  ((List.range g.num_vertices).all (fun v => mat_get g v v == false))

/-- get_n_largest_degree (src/algorithms/grasp.rs): at most n indices of
the highest-degree vertices of subset, degrees counted within list when
given (otherwise within subset), descending stable sort. -/
def get_n_largest_degree (n : ℕ) (graph : AdjList) (subset : List ℕ)
    (list : Option (List ℕ)) : List ℕ :=
  let list := match list with
    | some l => l
    | none => subset
  let vertex_set := List.range graph.num_vertices
  let degrees := vertex_set.map (fun vertex => (vertex, get_degree_in_list graph vertex list))
  let degrees := degrees.filter (fun x => subset.contains x.1)
  let degrees := degrees.stable_sort (fun lhs rhs => rhs.2 ≤ lhs.2)
  (degrees.take n).map (fun p => p.1)

/-- count_remaining_edges (src/algorithms/grasp.rs): the double loop over
positions i < j < list.len() testing graph.adj_list()[i].contains(&j);
note it consults positions, not the list entries. -/
def count_remaining_edges (graph : AdjList) (list : List ℕ) : ℕ :=
  ((List.range list.length).map (fun i =>
    ((List.range' (i + 1) (list.length - (i + 1))).filter (fun j =>
      (graph.adj_list.getD i []).contains j)).length)).sum

/-- Induced-edge count the spec and the doc comment of
count_remaining_edges describe: edges of graph with both endpoints in
list. Modelled from the spec for comparison with count_remaining_edges. -/
def induced_edge_count (graph : AdjList) (list : List ℕ) : ℕ :=
  ((List.range list.length).map (fun i =>
    ((List.range' (i + 1) (list.length - (i + 1))).filter (fun j =>
      (graph.adj_list.getD (list.getD i 0) []).contains (list.getD j 0))).length)).sum

/-- Inner while of assign_color: grow one color class from the admissible
set, panicking when the restricted candidate list is empty. -/
def acl_loop (graph : AdjList) (color_list_size : ℕ) (rng : ℕ → ℕ) :
    ℕ → List ℕ → List ℕ → List ℕ → ℕ → Res (List ℕ × ℕ)
  | 0, _, _, _, _ => .out
  | fuel + 1, admissible_uncolored, inadmissible_uncolored, current_color_class, k =>
    if admissible_uncolored.isEmpty then .ok (current_color_class, k)
    else
      let candidate_list :=
        if inadmissible_uncolored.isEmpty then
          get_n_largest_degree color_list_size graph admissible_uncolored none
        else
          get_n_largest_degree color_list_size graph admissible_uncolored (some inadmissible_uncolored)
      match rchoose candidate_list (rng k) with
      | none => .panic
      | some vertex =>
        let neighbors := graph.adj_list.getD vertex []
        acl_loop graph color_list_size rng fuel
          (admissible_uncolored.filter (fun node => !(node == vertex) && !(neighbors.contains node)))
          (inadmissible_uncolored ++ neighbors)
          (current_color_class ++ [vertex]) (k + 1)

/-- assign_color (src/algorithms/grasp.rs): one greedy attempt at class
number num_color_classes, kept only when it leaves fewer remaining edges
than the best attempt so far. -/
def assign_color (vertex_set : List ℕ) (color_list_size : ℕ) (graph : AdjList)
    (min_num_edges_remaining : ℕ) (class_list : List (List ℕ))
    (num_color_classes : ℕ) (rng : ℕ → ℕ) (k fuel : ℕ) :
    Res (ℕ × List (List ℕ) × ℕ) :=
  Res.bind (acl_loop graph color_list_size rng fuel vertex_set [] [] k) (fun cc =>
    let current_color_class := cc.1
    let remaining_vertices := vertex_set.filter (fun vertex => !(current_color_class.contains vertex))
    let remaining_edges := count_remaining_edges graph remaining_vertices
    if remaining_edges < min_num_edges_remaining then
      Res.bind (vec_set class_list (num_color_classes - 1) current_color_class) (fun cl =>
        .ok (remaining_edges, cl, cc.2))
    else .ok (min_num_edges_remaining, class_list, cc.2))

/-- The for loop running assign_color color_iterations times on a fixed
uncolored vertex set. -/
def color_iters (graph : AdjList) (color_list_size : ℕ) (rng : ℕ → ℕ)
    (vertex_set : List ℕ) (num_color_classes fuel : ℕ) :
    ℕ → ℕ × List (List ℕ) × ℕ → Res (ℕ × List (List ℕ) × ℕ)
  | 0, st => .ok st
  | ci + 1, st =>
    Res.bind (assign_color vertex_set color_list_size graph st.1 st.2.1 num_color_classes rng st.2.2 fuel)
      (color_iters graph color_list_size rng vertex_set num_color_classes fuel ci)

/-- Construction while loop of one grasp attempt: pick classes until the
uncolored vertex set is empty. -/
def construct_loop (graph : AdjList) (color_iterations color_list_size : ℕ) (rng : ℕ → ℕ) :
    ℕ → List ℕ → List (List ℕ) → ℕ → ℕ → Res (ℕ × List (List ℕ) × ℕ)
  | 0, _, _, _, _ => .out
  | fuel + 1, vertex_set, class_list, num_color_classes, k =>
    if vertex_set.isEmpty then .ok (num_color_classes, class_list, k)
    else
      let nc := num_color_classes + 1
      Res.bind (color_iters graph color_list_size rng vertex_set nc (fuel + 1)
          color_iterations (usize_max, class_list, k)) (fun st =>
        Res.bind (vec_get st.2.1 (nc - 1)) (fun kept =>
          construct_loop graph color_iterations color_list_size rng fuel
            (vertex_set.filter (fun vertex => !(kept.contains vertex)))
            st.2.1 nc st.2.2))

/-- Assignment of the vertices of one class into the coloring vector,
with the assert_eq!(coloring[*vertex], 0) consistency check. -/
def set_class_vertices (i : ℕ) : List ℕ → List ℕ → Res (List ℕ)
  | [], coloring => .ok coloring
  | vertex :: rest, coloring =>
    if vertex < coloring.length then
      if coloring.getD vertex 0 = 0 then
        set_class_vertices i rest (coloring.set vertex (i + 1))
      else .panic
    else .panic

/-- Walk over the enumerated class list building the coloring. -/
def gcfcl_go : List (ℕ × List ℕ) → List ℕ → Res (List ℕ)
  | [], coloring => .ok coloring
  | (i, cls) :: rest, coloring =>
    Res.bind (set_class_vertices i cls coloring) (gcfcl_go rest)

/-- get_coloring_from_class_list (src/algorithms/grasp.rs): class at
index i colors its vertices i+1; vertices in no class stay 0; a doubly
assigned vertex trips the assert. -/
def get_coloring_from_class_list (num_vertices : ℕ) (class_list : List (List ℕ)) :
    Res (List ℕ) :=
  gcfcl_go (enum_from 0 class_list) (List.replicate num_vertices 0)

/-- count_forbidden_per_vertex (src/algorithms/grasp.rs): neighbors of
vertex sharing its color, counted with multiplicity. -/
def count_forbidden_per_vertex (graph : AdjList) (coloring : List ℕ) (vertex : ℕ) : ℕ :=
  ((graph.adj_list.getD vertex []).filter (fun x =>
    coloring.getD x 0 == coloring.getD vertex 0)).length

/-- Inner loop of get_forbidden_vertices over one adjacency row. -/
def gf_inner (coloring : List ℕ) (i : ℕ) : List ℕ → ℕ × List ℕ → ℕ × List ℕ
  | [], cs => cs
  | j :: rest, cs =>
    if coloring.getD i 0 = coloring.getD j 0 then
      gf_inner coloring i rest (cs.1 + 1, insert_unique (insert_unique cs.2 i) j)
    else gf_inner coloring i rest cs

/-- Outer loop of get_forbidden_vertices over the enumerated adjacency
rows. -/
def gf_outer (coloring : List ℕ) : List (ℕ × List ℕ) → ℕ × List ℕ → ℕ × List ℕ
  | [], cs => cs
  | (i, v) :: rest, cs => gf_outer coloring rest (gf_inner coloring i v cs)

/-- get_forbidden_vertices (src/algorithms/grasp.rs): the halved directed
conflict count plus the set of conflict endpoints. -/
def get_forbidden_vertices (graph : AdjList) (class_list : List (List ℕ)) :
    Res (ℕ × List ℕ) :=
  Res.bind (get_coloring_from_class_list graph.num_vertices class_list) (fun coloring =>
    let cs := gf_outer coloring (enum_from 0 graph.adj_list) (0, [])
    .ok (cs.1 / 2, cs.2))

/-- The for loop of local_search trying every color 1..=len for vertex,
keeping the strictly best conflict count (ties keep the earlier). -/
def ls_best (graph : AdjList) (coloring : List ℕ) (vertex : ℕ) :
    List ℕ → ℕ × ℕ → ℕ × ℕ
  | [], bb => bb
  | i :: rest, bb =>
    let new_count := count_forbidden_per_vertex graph (coloring.set vertex i) vertex
    if new_count < bb.1 then ls_best graph coloring vertex rest (new_count, i)
    else ls_best graph coloring vertex rest bb

/-- The class-list update of an adopted recoloring: remove vertex from
its original class, push it onto the best class. -/
def ls_move (class_list : List (List ℕ)) (vertex original_color best_color : ℕ) :
    Res (List (List ℕ)) :=
  Res.bind (vec_get class_list (original_color - 1)) (fun oc_class =>
  Res.bind (opt_unwrap (oc_class.findIdx? (fun x => x == vertex))) (fun idx =>
  Res.bind (vec_set class_list (original_color - 1) (oc_class.eraseIdx idx)) (fun cl1 =>
  Res.bind (vec_get cl1 (best_color - 1)) (fun bc_class =>
  vec_set cl1 (best_color - 1) (bc_class ++ [vertex])))))

/-- Main while loop of local_search. -/
def ls_loop (graph : AdjList) (rng : ℕ → ℕ) :
    ℕ → ℕ → List ℕ → List (List ℕ) → ℕ → ℕ → ℕ → Res (ℕ × List (List ℕ) × ℕ)
  | 0, _, _, _, _, _, _ => .out
  | fuel + 1, forbidden_count, forbidden_vertices, class_list, no_improvement_ceil, no_improvement, k =>
    if forbidden_count > 0 ∧ no_improvement < no_improvement_ceil then
      match rchoose forbidden_vertices (rng k) with
      | none => .panic
      | some vertex =>
        Res.bind (get_coloring_from_class_list graph.num_vertices class_list) (fun coloring =>
          let original_count := count_forbidden_per_vertex graph coloring vertex
          let original_color := coloring.getD vertex 0
          let bb := ls_best graph coloring vertex (List.range' 1 class_list.length)
            (original_count, original_color)
          if bb.1 < original_count then
            Res.bind (ls_move class_list vertex original_color bb.2) (fun cl2 =>
              Res.bind (get_forbidden_vertices graph cl2) (fun fcs =>
                ls_loop graph rng fuel fcs.1 fcs.2 cl2 no_improvement_ceil 0 (k + 1)))
          else
            ls_loop graph rng fuel forbidden_count forbidden_vertices class_list
              no_improvement_ceil (no_improvement + 1) (k + 1))
    else .ok (forbidden_count, class_list, k)

/-- local_search (src/algorithms/grasp.rs): returns the final forbidden
count together with the (mutated) class list and the advanced stream
cursor. -/
def local_search (graph : AdjList) (class_list : List (List ℕ)) (rng : ℕ → ℕ)
    (k fuel : ℕ) : Res (ℕ × List (List ℕ) × ℕ) :=
  Res.bind (get_forbidden_vertices graph class_list) (fun fcs =>
    ls_loop graph rng fuel fcs.1 fcs.2 class_list (2 * fcs.1) 0 k)

/-- Short-circuit evaluation of index == smallest_lengths[0] ||
index == smallest_lengths[1] || class.is_empty(); indexing
smallest_lengths panics when the entry does not exist. -/
def smallest_check (smallest_lengths : List ℕ) (index : ℕ) (cls : List ℕ) : Res Bool :=
  match smallest_lengths.get? 0 with
  | none => .panic
  | some s0 =>
    if index = s0 then .ok true
    else
      match smallest_lengths.get? 1 with
      | none => .panic
      | some s1 => .ok ((index == s1) || cls.isEmpty)

/-- The carry-over loop of improve_phase copying every class except the
two smallest and the empties. -/
def build_new_classes (smallest_lengths : List ℕ) :
    List (ℕ × List ℕ) → List (List ℕ) → Res (List (List ℕ))
  | [], acc => .ok acc
  | (index, cls) :: rest, acc =>
    Res.bind (smallest_check smallest_lengths index cls) (fun skip =>
      if skip then build_new_classes smallest_lengths rest acc
      else build_new_classes smallest_lengths rest (acc ++ [cls]))

/-- Merge while loop of improve_phase. -/
def improve_loop (graph : AdjList) (rng : ℕ → ℕ) :
    ℕ → ℕ → List (List ℕ) → ℕ → Res (ℕ × List (List ℕ) × ℕ)
  | 0, _, _, _ => .out
  | fuel + 1, num_classes, class_list, k =>
    let lenghts := ((enum_from 0 class_list).map (fun p => (p.1, p.2.length))).take num_classes
    let lenghts := lenghts.stable_sort (fun lhs rhs => rhs.2 ≤ lhs.2)
    let smallest_lengths := (lenghts.reverse.take 2).map (fun p => p.1)
    let combined_class := smallest_lengths.foldl (fun acc index => acc ++ class_list.getD index []) []
    Res.bind (build_new_classes smallest_lengths (enum_from 0 class_list) [combined_class])
      (fun new_classes =>
        Res.bind (local_search graph new_classes rng k (fuel + 1)) (fun lsr =>
          if lsr.1 = 0 then improve_loop graph rng fuel lsr.2.1.length lsr.2.1 lsr.2.2
          else .ok (num_classes, class_list, lsr.2.2)))

/-- improve_phase (src/algorithms/grasp.rs): run the merge loop, then
resize the class list back to num_vertices entries. -/
def improve_phase (graph : AdjList) (num_classes : ℕ) (class_list : List (List ℕ))
    (rng : ℕ → ℕ) (k fuel : ℕ) : Res (ℕ × List (List ℕ) × ℕ) :=
  Res.bind (improve_loop graph rng fuel num_classes class_list k) (fun r =>
    .ok (r.1, list_resize r.2.1 graph.num_vertices [], r.2.2))

/-- One closure body of the parallel map in grasp: construct, improve,
and read off the coloring. -/
def grasp_attempt (graph : AdjList) (color_iterations color_list_size : ℕ)
    (rng : ℕ → ℕ) (fuel : ℕ) : Res (ℕ × List ℕ) :=
  let max_colors := graph.num_vertices
  Res.bind (construct_loop graph color_iterations color_list_size rng fuel
      (List.range max_colors) (List.replicate max_colors []) 0 0) (fun st =>
    Res.bind (improve_phase graph st.1 st.2.1 rng st.2.2 fuel) (fun st2 =>
      Res.bind (get_coloring_from_class_list max_colors st2.2.1) (fun coloring =>
        .ok (st2.1, coloring))))

/-- The parallel map over attempts, each with its own stream; a panic in
any attempt propagates. -/
def attempts_map (graph : AdjList) (color_iterations color_list_size : ℕ)
    (rngs : ℕ → ℕ → ℕ) (fuel : ℕ) : List ℕ → Res (List (ℕ × List ℕ))
  | [] => .ok []
  | i :: rest =>
    Res.bind (grasp_attempt graph color_iterations color_list_size (rngs i) fuel) (fun s =>
      Res.bind (attempts_map graph color_iterations color_list_size rngs fuel rest) (fun l =>
        .ok (s :: l)))

/-- BinaryHeap::peek on the list model: the greatest element under
sol_cmp (the earliest among equals). -/
def heap_peek : List (ℕ × List ℕ) → Option (ℕ × List ℕ)
  | [] => none
  | s :: rest =>
    match heap_peek rest with
    | none => some s
    | some m => if sol_cmp s m = .lt then some m else some s

/-- BinaryHeap::pop removal: drop the first occurrence of the popped
element. -/
def heap_remove : List (ℕ × List ℕ) → ℕ × List ℕ → List (ℕ × List ℕ)
  | [], _ => []
  | s :: rest, m => if s = m then rest else s :: heap_remove rest m

/-- Sequential fold of the attempt results into the bounded heap
(src/algorithms/grasp.rs lines 108-115). -/
def heap_fold (num_solutions : ℕ) : List (ℕ × List ℕ) → List (ℕ × List ℕ) → Res (List (ℕ × List ℕ))
  | [], solutions => .ok solutions
  | s :: rest, solutions =>
    if solutions.length < num_solutions then heap_fold num_solutions rest (s :: solutions)
    else
      match heap_peek solutions with
      | none => .panic
      | some m =>
        if s.1 < m.1 then heap_fold num_solutions rest (s :: heap_remove solutions m)
        else heap_fold num_solutions rest solutions

/-- grasp (src/algorithms/grasp.rs): run the attempts and fold them into
the bounded heap. -/
def grasp (graph : AdjList) (grasp_iterations color_iterations color_list_size : ℕ)
    (num_solutions : ℕ) (rngs : ℕ → ℕ → ℕ) (fuel : ℕ) : Res (List (ℕ × List ℕ)) :=
  Res.bind (attempts_map graph color_iterations color_list_size rngs fuel
      (List.range grasp_iterations)) (fun all =>
    heap_fold num_solutions all [])

/-- grasp_wrapper (src/algorithms/grasp.rs): grasp with num_solutions =
1, popping the single solution (unwrap panics on an empty heap). -/
def grasp_wrapper (graph : AdjList) (grasp_iterations color_iterations color_list_size : ℕ)
    (rngs : ℕ → ℕ → ℕ) (fuel : ℕ) : Res (ℕ × List ℕ) :=
  Res.bind (grasp graph grasp_iterations color_iterations color_list_size 1 rngs fuel)
    (fun solutions =>
      match heap_peek solutions with
      | none => .panic
      | some m => .ok m)

/-- coloring_upper_bound (src/algorithms/genetic.rs): one plus the
largest neighborhood size. -/
def coloring_upper_bound (g : Graph) : ℕ :=
  (List.range g.num_vertices).foldl (fun colors i =>
    if (g.get_neighbors i).length + 1 > colors then (g.get_neighbors i).length + 1
    else colors) 0

/-- Re-roll of one vertex: keep sampling 1..=upper_bound until
valid_color_assignment accepts; the first sample has already been
written. -/
def reroll (g : Graph) (upper_bound i : ℕ) (rng : ℕ → ℕ) :
    ℕ → List ℕ → ℕ → Res (List ℕ × ℕ)
  | 0, _, _ => .out
  | fuel + 1, individual, k =>
    if valid_color_assignment g individual i then .ok (individual, k)
    else reroll g upper_bound i rng fuel (individual.set i (1 + rng k % upper_bound)) (k + 1)

/-- Vertex-by-vertex body of generate_individual; gen_range(1..=0)
panics when upper_bound is 0. -/
def gen_loop (g : Graph) (upper_bound : ℕ) (rng : ℕ → ℕ) (fuel : ℕ) :
    List ℕ → List ℕ → ℕ → Res (List ℕ × ℕ)
  | [], individual, k => .ok (individual, k)
  | i :: rest, individual, k =>
    if upper_bound = 0 then .panic
    else
      Res.bind (reroll g upper_bound i rng fuel (individual.set i (1 + rng k % upper_bound)) (k + 1))
        (fun p => gen_loop g upper_bound rng fuel rest p.1 p.2)

/-- generate_individual (src/algorithms/genetic.rs): the vector starts
as vec![1; n] and every vertex is sampled in index order. -/
def generate_individual (g : Graph) (upper_bound : ℕ) (rng : ℕ → ℕ)
    (fuel k : ℕ) : Res (List ℕ × ℕ) :=
  gen_loop g upper_bound rng fuel (List.range g.num_vertices)
    (List.replicate g.num_vertices 1) k

/-- Modelled from the spec: the initialization rule as the spec words it,
with each vertex re-rolled until it conflicts with none of its
already-colored neighbors, earlier indices only. Used solely to compare
against generate_individual. -/
def spec_valid_against_earlier (g : Graph) (solution : List ℕ) (node : ℕ) : Bool :=
  !(((g.get_neighbors node).filter (fun x => x < node)).any
    (fun x => solution.getD node 0 == solution.getD x 0))

/-- Modelled from the spec: re-roll accepting exactly when no
smaller-index neighbor shares the sampled color. -/
def spec_reroll (g : Graph) (upper_bound i : ℕ) (rng : ℕ → ℕ) :
    ℕ → List ℕ → ℕ → Res (List ℕ × ℕ)
  | 0, _, _ => .out
  | fuel + 1, individual, k =>
    if spec_valid_against_earlier g individual i then .ok (individual, k)
    else spec_reroll g upper_bound i rng fuel (individual.set i (1 + rng k % upper_bound)) (k + 1)

/-- Modelled from the spec: generate_individual with the earlier-indices
acceptance rule. -/
def spec_gen_loop (g : Graph) (upper_bound : ℕ) (rng : ℕ → ℕ) (fuel : ℕ) :
    List ℕ → List ℕ → ℕ → Res (List ℕ × ℕ)
  | [], individual, k => .ok (individual, k)
  | i :: rest, individual, k =>
    if upper_bound = 0 then .panic
    else
      Res.bind (spec_reroll g upper_bound i rng fuel
          (individual.set i (1 + rng k % upper_bound)) (k + 1))
        (fun p => spec_gen_loop g upper_bound rng fuel rest p.1 p.2)

/-- Modelled from the spec: whole spec-side individual generation. -/
def spec_generate_individual (g : Graph) (upper_bound : ℕ) (rng : ℕ → ℕ)
    (fuel k : ℕ) : Res (List ℕ × ℕ) :=
  spec_gen_loop g upper_bound rng fuel (List.range g.num_vertices)
    (List.replicate g.num_vertices 1) k

/-- Vertex loop of mutate: a stream draw decides mutation (the float
comparison is abstracted into mutation_trigger), then the vertex is
re-rolled as in generation but against the full neighborhood. -/
def mutate_loop (g : Graph) (upper_bound : ℕ) (mutation_trigger : ℕ → Bool)
    (rng : ℕ → ℕ) (fuel : ℕ) : List ℕ → List ℕ → ℕ → Res (List ℕ × ℕ)
  | [], individual, k => .ok (individual, k)
  | i :: rest, individual, k =>
    if mutation_trigger (rng k) then
      if upper_bound = 0 then .panic
      else
        Res.bind (reroll g upper_bound i rng fuel
            (individual.set i (1 + rng (k + 1) % upper_bound)) (k + 2))
          (fun p => mutate_loop g upper_bound mutation_trigger rng fuel rest p.1 p.2)
    else mutate_loop g upper_bound mutation_trigger rng fuel rest individual (k + 1)

/-- mutate (src/algorithms/genetic.rs). -/
def mutate (g : Graph) (individual : List ℕ) (upper_bound : ℕ)
    (mutation_trigger : ℕ → Bool) (rng : ℕ → ℕ) (k fuel : ℕ) : Res (List ℕ × ℕ) :=
  mutate_loop g upper_bound mutation_trigger rng fuel (List.range g.num_vertices) individual k

/-- select (src/algorithms/genetic.rs): keep the first limit + 1 colors
of the sorted population and choose two distinct parents;
choose_multiple yields fewer than two elements from a shorter slice and
the p[0] / p[1] indexing then panics. -/
def select (population : List (ℕ × List ℕ)) (limit : ℕ) (rng : ℕ → ℕ) (k : ℕ) :
    Res ((List ℕ × List ℕ) × ℕ) :=
  let colors := (population.map (fun p => p.2)).take (limit + 1)
  let m := colors.length
  if 2 ≤ m then
    let i1 := rng k % m
    let j := rng (k + 1) % (m - 1)
    let i2 := if j < i1 then j else j + 1
    .ok ((colors.getD i1 [], colors.getD i2 []), k + 2)
  else .panic

/-- Left-to-right repair of one vertex of the offspring: try colors 1, 2,
3, ... until valid_color_assignment accepts. -/
def repair_loop (g : Graph) (i : ℕ) : ℕ → List ℕ → ℕ → Res (List ℕ)
  | 0, _, _ => .out
  | fuel + 1, offspring, start_color =>
    if valid_color_assignment g offspring i then .ok offspring
    else repair_loop g i fuel (offspring.set i start_color) (start_color + 1)

/-- Repair sweep of crossover over all vertices in index order. -/
def crossover_repair (g : Graph) (fuel : ℕ) : List ℕ → List ℕ → Res (List ℕ)
  | [], offspring => .ok offspring
  | i :: rest, offspring =>
    Res.bind (repair_loop g i fuel offspring 1) (crossover_repair g fuel rest)

/-- crossover (src/algorithms/genetic.rs): one-point recombination at a
stream-chosen cut, then the sequential repair sweep; the slice copies
panic when the parents are too short and gen_range(0..0) panics on an
empty graph. -/
def crossover (g : Graph) (p1 p2 : List ℕ) (rng : ℕ → ℕ) (k fuel : ℕ) :
    Res (List ℕ × ℕ) :=
  let n := g.num_vertices
  if n = 0 then .panic
  else
    let pos := rng k % n
    if pos + 1 ≤ p1.length ∧ p2.length = n then
      Res.bind (crossover_repair g fuel (List.range n) (p1.take (pos + 1) ++ p2.drop (pos + 1)))
        (fun offspring => .ok (offspring, k + 1))
    else .panic

/-- replace (src/algorithms/genetic.rs): truncate the population. -/
def replace (population : List (ℕ × List ℕ)) (population_size : ℕ) : List (ℕ × List ℕ) :=
  population.take population_size

/-- Initial-population loop of genetic. -/
def init_population (g : Graph) (upper_bound : ℕ) (rng : ℕ → ℕ) (fuel : ℕ) :
    ℕ → List (ℕ × List ℕ) → ℕ → Res (List (ℕ × List ℕ) × ℕ)
  | 0, population, k => .ok (population, k)
  | s + 1, population, k =>
    Res.bind (generate_individual g upper_bound rng fuel k) (fun p =>
      init_population g upper_bound rng fuel s (population ++ [(count_colors p.1, p.1)]) p.2)

/-- Offspring loop of one generation: select, crossover, mutate, push;
note select sees the population as it grows. -/
def offspring_loop (g : Graph) (upper_bound : ℕ) (mutation_trigger : ℕ → Bool)
    (limit : ℕ) (rng : ℕ → ℕ) (fuel : ℕ) :
    ℕ → List (ℕ × List ℕ) → ℕ → Res (List (ℕ × List ℕ) × ℕ)
  | 0, population, k => .ok (population, k)
  | s + 1, population, k =>
    Res.bind (select population limit rng k) (fun pp =>
      Res.bind (crossover g pp.1.1 pp.1.2 rng pp.2 fuel) (fun oc =>
        Res.bind (mutate g oc.1 upper_bound mutation_trigger rng oc.2 fuel) (fun om =>
          offspring_loop g upper_bound mutation_trigger limit rng fuel s
            (population ++ [(count_colors om.1, om.1)]) om.2)))

/-- Generation loop of genetic: breed, sort, truncate, and track the
best (population[0] indexing panics on an empty population). -/
def generation_loop (g : Graph) (upper_bound : ℕ) (mutation_trigger : ℕ → Bool)
    (limit offsprings_per_generation population_size : ℕ) (rng : ℕ → ℕ) (fuel : ℕ) :
    ℕ → List (ℕ × List ℕ) → (ℕ × List ℕ) → ℕ → Res ((ℕ × List ℕ) × ℕ)
  | 0, _, best, k => .ok (best, k)
  | s + 1, population, best, k =>
    Res.bind (offspring_loop g upper_bound mutation_trigger limit rng fuel
        offsprings_per_generation population k) (fun po =>
      let truncated := replace (po.1.stable_sort sol_le) population_size
      Res.bind (vec_get truncated 0) (fun current_best =>
        generation_loop g upper_bound mutation_trigger limit offsprings_per_generation
          population_size rng fuel s truncated
          (if current_best.1 < best.1 then current_best else best) po.2))

/-- genetic (src/algorithms/genetic.rs): the full algorithm; the initial
best is num_vertices colors with the coloring 1..=num_vertices. -/
def genetic (g : Graph) (generations population_size offsprings_per_generation : ℕ)
    (mutation_trigger : ℕ → Bool) (limit : ℕ) (rng : ℕ → ℕ) (fuel : ℕ) :
    Res (ℕ × List ℕ) :=
  let best := g.num_vertices
  let colors := List.range' 1 best
  let upper_bound := coloring_upper_bound g
  Res.bind (init_population g upper_bound rng fuel population_size [] 0) (fun ip =>
    Res.bind (generation_loop g upper_bound mutation_trigger limit
        offsprings_per_generation population_size rng fuel generations
        (ip.1.stable_sort sol_le) (best, colors) ip.2) (fun r =>
      .ok r.1))

/-- simmetric_difference (src/algorithms/grasp_pr.rs): positions where
the two vectors differ, empty when the lengths differ. -/
def simmetric_difference (lhs rhs : List ℕ) : List ℕ :=
  if lhs.length ≠ rhs.length then []
  else (List.range lhs.length).filter (fun i => !(lhs.getD i 0 == rhs.getD i 0))

/-- Conflict count of one vertex in the matrix representation, the
reading of count_forbidden_per_vertex used by grasp_path_relinking
(which passes the matrix Graph). -/
def count_forbidden_per_vertex_m (g : Graph) (coloring : List ℕ) (vertex : ℕ) : ℕ :=
  ((g.get_neighbors vertex).filter (fun x =>
    coloring.getD x 0 == coloring.getD vertex 0)).length

/-- Per-guide walk of grasp_path_relinking (src/algorithms/grasp_pr.rs
lines 28-52) over the reversed difference list (difference.pop() takes
from the back); the guide coloring read at line 25 is never refreshed,
so every tentative step starts from it. -/
def pr_walk_rev (g : Graph) (best_coloring coloring : List ℕ) :
    List ℕ → ℕ × List (List ℕ) → ℕ × List (List ℕ) →
    Res ((ℕ × List (List ℕ)) × (ℕ × List (List ℕ)))
  | [], solution, best_solution => .ok (solution, best_solution)
  | vertex :: rest, solution, best_solution =>
    let original_color := coloring.getD vertex 0
    let new_coloring := coloring.set vertex (best_coloring.getD vertex 0)
    if count_forbidden_per_vertex_m g new_coloring vertex > 0 then
      pr_walk_rev g best_coloring coloring rest solution best_solution
    else
      let colors := count_colors new_coloring
      if colors < best_solution.1 then
        Res.bind (ls_move solution.2 vertex original_color (best_coloring.getD vertex 0))
          (fun cl2 => pr_walk_rev g best_coloring coloring rest (colors, cl2) (colors, cl2))
      else pr_walk_rev g best_coloring coloring rest solution best_solution

/-- Whole per-guide walk in source order. -/
def pr_walk (g : Graph) (best_coloring coloring : List ℕ) (difference : List ℕ)
    (solution best_solution : ℕ × List (List ℕ)) :
    Res ((ℕ × List (List ℕ)) × (ℕ × List (List ℕ))) :=
  pr_walk_rev g best_coloring coloring difference.reverse solution best_solution

/-- Pool loop of grasp_path_relinking: pop guides from the back of the
pool and walk each; best_coloring is fixed for the whole loop (it is
only written before the loop). -/
def pr_pool_rev (g : Graph) (num_vertices : ℕ) (best_coloring : List ℕ) :
    List (ℕ × List (List ℕ)) → ℕ × List (List ℕ) → Res (ℕ × List (List ℕ))
  | [], best_solution => .ok best_solution
  | solution :: rest, best_solution =>
    Res.bind (get_coloring_from_class_list num_vertices solution.2) (fun coloring =>
      let difference := simmetric_difference best_coloring coloring
      Res.bind (pr_walk g best_coloring coloring difference solution best_solution) (fun r =>
        pr_pool_rev g num_vertices best_coloring rest r.2))

/-- Modelled from the spec: the number of distinct positive color ids of
a coloring (the reserved id 0 is not counted). Used solely to compare
against count_colors. -/
def distinct_positive_ids (solution : List ℕ) : ℕ :=
  (solution.filter (fun x => !(x == 0))).dedup.length

/-- Class list that is a partition of the vertices 0..n-1: its
concatenation is a permutation of the range. -/
def class_partition (class_list : List (List ℕ)) (n : ℕ) : Prop :=
  class_list.flatten.Perm (List.range n)

/-- Every class of the list is an independent set of the graph. -/
def classes_independent (g : AdjList) (class_list : List (List ℕ)) : Prop :=
  ∀ c ∈ class_list, ∀ u ∈ c, ∀ v ∈ c, ¬ (g.adj_list.getD u []).contains v

/-- Shape of a class list as construction leaves it: the first
num_classes classes are nonempty, the rest are empty padding. -/
def construction_shape (class_list : List (List ℕ)) (num_classes : ℕ) : Prop :=
  num_classes ≤ class_list.length ∧
  (∀ i < num_classes, class_list.getD i [] ≠ []) ∧
  (∀ i, num_classes ≤ i → class_list.getD i [] = [])

/-- Directed conflict count of a coloring: the sum over the adjacency
rows of the per-vertex forbidden counts (what the double loop of
get_forbidden_vertices accumulates before halving). -/
def dir_conflicts (g : AdjList) (col : List ℕ) : ℕ :=
  ∑ i ∈ Finset.range g.adj_list.length, count_forbidden_per_vertex g col i

/-- Three-vertex graph with the single edge (0,1), the failing input of
count_remaining_edges. -/
def g3cex : AdjList := ⟨3, [[1], [0], []]⟩

/-- Two-vertex adjacency-list graph with one edge. -/
def k2adj : AdjList := ⟨2, [[1], [0]]⟩

/-- Edgeless adjacency-list graphs on one and two vertices. -/
def e1adj : AdjList := ⟨1, [[]]⟩

/-- Edgeless adjacency-list graph on two vertices. -/
def e2adj : AdjList := ⟨2, [[], []]⟩

/-- Two-vertex matrix graph with one edge. -/
def k2mat : Graph := ⟨2, [[false, true], [true, false]]⟩

/-- Edgeless matrix graph on two vertices. -/
def e2mat : Graph := ⟨2, [[false, false], [false, false]]⟩

/-- Constant-zero random stream. -/
def rzero : ℕ → ℕ := fun _ => 0

/-- Claim C4 as stated: for every well-formed graph and every
construction-shaped partition class list (graphs with no edges
included), the merge loop of improve_phase terminates, meaning some fuel
makes it yield something other than fuel exhaustion. -/
def c4_claim : Prop :=
  ∀ (g : AdjList), g.wb = true →
    ∀ (num_classes : ℕ) (class_list : List (List ℕ)),
      class_partition class_list g.num_vertices →
      classes_independent g class_list →
      construction_shape class_list num_classes →
      ∀ (rng : ℕ → ℕ) (k : ℕ),
        ∃ fuel, improve_phase g num_classes class_list rng k fuel ≠ Res.out

/-! ### Lemmas and claim theorems -/

theorem List.stable_insert_perm {α : Type} (le : α → α → Bool) (a : α) :
    ∀ l : List α, (List.stable_insert le a l).Perm (a :: l) := by
  intro l
  induction l with
  | nil => exact List.Perm.refl _
  | cons b rest ih =>
    rw [List.stable_insert]
    by_cases hc : le a b
    · rw [if_pos hc]
    · rw [if_neg hc]
      exact (ih.cons b).trans (List.Perm.swap a b rest)

theorem List.stable_sort_perm {α : Type} (l : List α) (le : α → α → Bool) :
    (l.stable_sort le).Perm l := by
  induction l with
  | nil => exact List.Perm.refl _
  | cons a rest ih =>
    rw [List.stable_sort]
    exact (List.stable_insert_perm le a _).trans (ih.cons a)

theorem List.length_stable_sort {α : Type} (l : List α) (le : α → α → Bool) :
    (l.stable_sort le).length = l.length :=
  (List.stable_sort_perm l le).length_eq

theorem List.stable_sort_singleton {α : Type} (a : α) (le : α → α → Bool) :
    ([a]).stable_sort le = [a] := rfl


theorem res_bind_ok {α β : Type} {x : Res α} {f : α → Res β} {b : β}
    (h : Res.bind x f = .ok b) : ∃ a, x = .ok a ∧ f a = .ok b := by
  cases x with
  | ok a => exact ⟨a, rfl, h⟩
  | panic => simp [Res.bind] at h
  | out => simp [Res.bind] at h

theorem res_bind_eq_ok {α β : Type} {x : Res α} {f : α → Res β} {b : β} :
    Res.bind x f = .ok b ↔ ∃ a, x = .ok a ∧ f a = .ok b := by
  constructor
  · exact res_bind_ok
  · rintro ⟨a, hx, hf⟩
    rw [hx]
    exact hf

theorem res_bind_ne_out {α β : Type} {x : Res α} {f : α → Res β}
    (hx : x ≠ .out) (hf : ∀ a, x = .ok a → f a ≠ .out) : Res.bind x f ≠ .out := by
  cases x with
  | ok a => exact hf a rfl
  | panic => simp [Res.bind]
  | out => exact absurd rfl hx

theorem getD_set {α : Type} (l : List α) (i j : ℕ) (a d : α) :
    (l.set i a).getD j d = if i = j ∧ i < l.length then a else l.getD j d := by
  simp only [List.getD_eq_getElem?_getD, List.getElem?_set]
  by_cases hij : i = j
  · subst hij
    by_cases hlen : i < l.length
    · simp [hlen]
    · simp [hlen, List.getElem?_eq_none (Nat.le_of_not_lt hlen)]
  · simp [hij]

theorem getD_set_ne {α : Type} (l : List α) (i j : ℕ) (a d : α) (h : i ≠ j) :
    (l.set i a).getD j d = l.getD j d := by
  rw [getD_set]
  simp [h]

theorem getD_set_self {α : Type} (l : List α) (i : ℕ) (a d : α) (h : i < l.length) :
    (l.set i a).getD i d = a := by
  rw [getD_set]
  simp [h]

theorem getD_replicate_zero (n v : ℕ) : (List.replicate n (0 : ℕ)).getD v 0 = 0 := by
  simp only [List.getD_eq_getElem?_getD, List.getElem?_replicate]
  split <;> simp

theorem enum_from_get? {α : Type} (l : List α) (k j : ℕ) :
    (enum_from k l).get? j = (l.get? j).map (fun a => (k + j, a)) := by
  induction l generalizing k j with
  | nil => simp [enum_from]
  | cons a rest ih =>
    cases j with
    | zero => simp [enum_from]
    | succ j =>
      simp only [enum_from, List.get?_cons_succ, ih (k + 1) j]
      cases rest.get? j <;> simp [Nat.add_assoc, Nat.add_comm 1 j]

theorem enum_from_length {α : Type} (l : List α) (k : ℕ) :
    (enum_from k l).length = l.length := by
  induction l generalizing k with
  | nil => rfl
  | cons a rest ih => simp [enum_from, ih]

theorem enum_from_mem {α : Type} {l : List α} {k : ℕ} {p : ℕ × α}
    (h : p ∈ enum_from k l) : ∃ j, l.get? j = some p.2 ∧ p.1 = k + j := by
  induction l generalizing k with
  | nil => simp [enum_from] at h
  | cons a rest ih =>
    simp only [enum_from, List.mem_cons] at h
    rcases h with h | h
    · exact ⟨0, by simp [h], by simp [h]⟩
    · obtain ⟨j, hj, hk⟩ := ih h
      exact ⟨j + 1, by simpa using hj, by omega⟩

theorem enum_from_map_snd {α : Type} (l : List α) (k : ℕ) :
    (enum_from k l).map Prod.snd = l := by
  induction l generalizing k with
  | nil => rfl
  | cons a rest ih => simp [enum_from, ih]

theorem vec_get_ok {α : Type} {l : List α} {i : ℕ} {a : α} :
    vec_get l i = .ok a ↔ l.get? i = some a := by
  unfold vec_get
  cases h : l.get? i <;> simp

theorem vec_set_ok {α : Type} {l : List α} {i : ℕ} {a : α} (h : i < l.length) :
    vec_set l i a = .ok (l.set i a) := by
  simp [vec_set, h]

theorem vec_set_eq_ok {α : Type} {l l2 : List α} {i : ℕ} {a : α}
    (h : vec_set l i a = .ok l2) : i < l.length ∧ l2 = l.set i a := by
  unfold vec_set at h
  by_cases hi : i < l.length
  · simp [hi] at h
    exact ⟨hi, h.symm⟩
  · simp [hi] at h

/-- C2: count_remaining_edges does not compute the induced edge count
claimed by the spec and by its own doc comment: on the graph with the
single edge (0,1) and the vertex list [1,2] it reports 1 edge although
the subgraph induced by [1,2] has none, because the implementation
indexes the adjacency structure with loop positions instead of list
entries. -/
theorem c2_count_remaining_edges_ignores_list_entries :
    count_remaining_edges g3cex [1, 2] = 1 ∧ induced_edge_count g3cex [1, 2] = 0 := by
  constructor <;> rfl

/-- C9 counterexample: count_colors counts the reserved id 0 as a color,
so on the vector [0, 1] it returns 2 while the number of distinct
positive ids used is 1. -/
theorem c9_counterexample_zero_counted :
    count_colors [0, 1] = 2 ∧ distinct_positive_ids [0, 1] = 1 := by
  constructor <;> rfl

/-- C7 counterexample: on the two-vertex one-edge graph the code rejects
color 1 for vertex 0 although vertex 0 has no neighbor of smaller index
(the placeholder color 1 of the not-yet-processed vertex 1 causes the
rejection), so generate_individual and the spec-modelled earlier-only
variant return different individuals from the same stream. -/
theorem c7_counterexample_rejects_without_earlier_neighbor :
    valid_color_assignment k2mat [1, 1] 0 = false ∧
    (k2mat.get_neighbors 0).filter (fun x => decide (x < 0)) = [] ∧
    generate_individual k2mat 2 (fun k => k) 10 0 = .ok ([2, 1], 3) ∧
    spec_generate_individual k2mat 2 (fun k => k) 10 0 = .ok ([1, 2], 2) := by
  refine ⟨rfl, rfl, rfl, rfl⟩

/-- C3 counterexample: a guide whose difference list is fully consumed
but whose coloring is not driven to the best coloring: on the edgeless
two-vertex graph with best coloring [1,1] and guide coloring [1,2] the
single differing position is rejected (its color count is not an
improvement), the walk returns ok, and the guide still decodes to
[1,2]. -/
theorem c3_counterexample_guide_left_unequal :
    pr_walk e2mat [1, 1] [1, 2] (simmetric_difference [1, 1] [1, 2])
      (2, [[0], [1]]) (1, [[0, 1]]) = .ok ((2, [[0], [1]]), (1, [[0, 1]])) ∧
    get_coloring_from_class_list 2 [[0], [1]] = .ok [1, 2] ∧
    [1, 2] ≠ [1, 1] := by
  refine ⟨rfl, rfl, by decide⟩

/-- C8 counterexample: an in-range add_edge(0,0) call on the one-vertex
graph records a self-loop, so the diagonal does not remain false. -/
theorem c8_counterexample_self_loop_recorded :
    mat_get ((Graph.new 1).add_edge 0 0) 0 0 = true := by
  rfl

theorem mat_set_getD (m : List (List Bool)) (i j u v : ℕ) (b : Bool)
    (hi : i < m.length) (hj : j < (m.getD i []).length) :
    ((mat_set m i j b).getD u []).getD v false =
      if i = u ∧ j = v then b else (m.getD u []).getD v false := by
  unfold mat_set
  by_cases hiu : i = u
  · subst hiu
    rw [getD_set_self _ _ _ _ hi, getD_set]
    by_cases hjv : j = v
    · rw [if_pos ⟨hjv, hj⟩, if_pos ⟨rfl, hjv⟩]
    · rw [if_neg (fun h => hjv h.1), if_neg (fun h => hjv h.2)]
  · rw [getD_set_ne _ _ _ _ _ hiu]
    rw [if_neg (fun h => hiu h.1)]

theorem mat_set_square (m : List (List Bool)) (i j : ℕ) (b : Bool) (n : ℕ)
    (hlen : m.length = n) (hrows : ∀ row ∈ m, row.length = n) :
    (mat_set m i j b).length = n ∧ ∀ row ∈ mat_set m i j b, row.length = n := by
  unfold mat_set
  by_cases hi : i < m.length
  · refine ⟨by simpa using hlen, ?_⟩
    intro row hrow
    rcases List.mem_or_eq_of_mem_set hrow with h | h
    · exact hrows row h
    · subst h
      have hmem : m.getD i [] ∈ m := by
        rw [List.getD_eq_getElem?_getD, List.getElem?_eq_getElem hi]
        exact List.getElem_mem hi
      simpa using hrows _ hmem
  · rw [List.set_eq_of_length_le (Nat.le_of_not_lt hi)]
    exact ⟨hlen, hrows⟩

theorem getD_mem {α : Type} (l : List α) (i : ℕ) (d : α) (h : i < l.length) :
    l.getD i d ∈ l := by
  rw [List.getD_eq_getElem?_getD, List.getElem?_eq_getElem h]
  exact List.getElem_mem h

theorem add_edge_num_vertices (g : Graph) (x y : ℕ) :
    (g.add_edge x y).num_vertices = g.num_vertices := by
  unfold Graph.add_edge
  split <;> rfl

theorem add_edge_getD (g : Graph) (x y u v : ℕ)
    (hlen : g.adjacency_matrix.length = g.num_vertices)
    (hrows : ∀ row ∈ g.adjacency_matrix, row.length = g.num_vertices) :
    mat_get (g.add_edge x y) u v =
      if (x < g.num_vertices ∧ y < g.num_vertices) ∧ ((u = x ∧ v = y) ∨ (u = y ∧ v = x))
      then true else mat_get g u v := by
  unfold Graph.add_edge
  by_cases hg : x < g.num_vertices ∧ y < g.num_vertices
  · rw [if_pos hg]
    obtain ⟨sq1len, sq1rows⟩ := mat_set_square g.adjacency_matrix x y true g.num_vertices hlen hrows
    have hylen : y < (mat_set g.adjacency_matrix x y true).length := by
      rw [sq1len]
      exact hg.2
    have hrow : x < ((mat_set g.adjacency_matrix x y true).getD y []).length := by
      rw [sq1rows _ (getD_mem _ _ _ hylen)]
      exact hg.1
    simp only [mat_get]
    rw [mat_set_getD _ _ _ _ _ _ hylen hrow]
    by_cases h1 : y = u ∧ x = v
    · rw [if_pos h1, if_pos ⟨hg, Or.inr ⟨h1.1.symm, h1.2.symm⟩⟩]
    · rw [if_neg h1]
      have hxlen : x < g.adjacency_matrix.length := by
        rw [hlen]
        exact hg.1
      have hyrow : y < (g.adjacency_matrix.getD x []).length := by
        rw [hrows _ (getD_mem _ _ _ hxlen)]
        exact hg.2
      rw [mat_set_getD _ _ _ _ _ _ hxlen hyrow]
      by_cases h2 : x = u ∧ y = v
      · rw [if_pos h2, if_pos ⟨hg, Or.inl ⟨h2.1.symm, h2.2.symm⟩⟩]
      · rw [if_neg h2, if_neg (fun hc => hc.2.elim
          (fun h => h2 ⟨h.1.symm, h.2.symm⟩) (fun h => h1 ⟨h.1.symm, h.2.symm⟩))]
  · rw [if_neg hg, if_neg (fun hc => hg hc.1)]

theorem add_edge_square (g : Graph) (x y : ℕ)
    (hlen : g.adjacency_matrix.length = g.num_vertices)
    (hrows : ∀ row ∈ g.adjacency_matrix, row.length = g.num_vertices) :
    (g.add_edge x y).adjacency_matrix.length = g.num_vertices ∧
    ∀ row ∈ (g.add_edge x y).adjacency_matrix, row.length = g.num_vertices := by
  unfold Graph.add_edge
  split
  · obtain ⟨l1, r1⟩ := mat_set_square g.adjacency_matrix x y true g.num_vertices hlen hrows
    exact mat_set_square _ y x true g.num_vertices l1 r1
  · exact ⟨hlen, hrows⟩

theorem apply_edges_square (calls : List (ℕ × ℕ)) :
    ∀ (g : Graph), g.adjacency_matrix.length = g.num_vertices →
    (∀ row ∈ g.adjacency_matrix, row.length = g.num_vertices) →
    (apply_edges g calls).num_vertices = g.num_vertices ∧
    (apply_edges g calls).adjacency_matrix.length = g.num_vertices ∧
    (∀ row ∈ (apply_edges g calls).adjacency_matrix, row.length = g.num_vertices) := by
  induction calls with
  | nil => exact fun g hl hr => ⟨rfl, hl, hr⟩
  | cons c rest ih =>
    intro g hl hr
    obtain ⟨l1, r1⟩ := add_edge_square g c.1 c.2 hl hr
    have hnv := add_edge_num_vertices g c.1 c.2
    obtain ⟨a, b, d⟩ := ih (g.add_edge c.1 c.2) (by rw [l1, hnv]) (by rw [hnv]; exact r1)
    exact ⟨by rw [show apply_edges g (c :: rest) = apply_edges (g.add_edge c.1 c.2) rest from rfl, a, hnv],
      by rw [show apply_edges g (c :: rest) = apply_edges (g.add_edge c.1 c.2) rest from rfl, b, hnv],
      by rw [show apply_edges g (c :: rest) = apply_edges (g.add_edge c.1 c.2) rest from rfl]
         intro row hrow
         rw [d row hrow, hnv]⟩

theorem apply_edges_symm (calls : List (ℕ × ℕ)) :
    ∀ (g : Graph), g.adjacency_matrix.length = g.num_vertices →
    (∀ row ∈ g.adjacency_matrix, row.length = g.num_vertices) →
    (∀ u v, mat_get g u v = mat_get g v u) →
    ∀ u v, mat_get (apply_edges g calls) u v = mat_get (apply_edges g calls) v u := by
  induction calls with
  | nil => exact fun g _ _ hs => hs
  | cons c rest ih =>
    intro g hl hr hs u v
    obtain ⟨l1, r1⟩ := add_edge_square g c.1 c.2 hl hr
    have hnv := add_edge_num_vertices g c.1 c.2
    refine ih (g.add_edge c.1 c.2) (by rw [l1, hnv]) (by rw [hnv]; exact r1) ?_ u v
    intro a b
    rw [add_edge_getD g c.1 c.2 a b hl hr, add_edge_getD g c.1 c.2 b a hl hr]
    by_cases hcond : (c.1 < g.num_vertices ∧ c.2 < g.num_vertices) ∧
        ((a = c.1 ∧ b = c.2) ∨ (a = c.2 ∧ b = c.1))
    · rw [if_pos hcond, if_pos ⟨hcond.1, hcond.2.elim
        (fun h => Or.inr ⟨h.2, h.1⟩) (fun h => Or.inl ⟨h.2, h.1⟩)⟩]
    · rw [if_neg hcond, if_neg (fun hc => hcond ⟨hc.1, hc.2.elim
        (fun h => Or.inr ⟨h.2, h.1⟩) (fun h => Or.inl ⟨h.2, h.1⟩)⟩)]
      exact hs a b

theorem apply_edges_diag (calls : List (ℕ × ℕ)) :
    ∀ (g : Graph), g.adjacency_matrix.length = g.num_vertices →
    (∀ row ∈ g.adjacency_matrix, row.length = g.num_vertices) →
    (∀ u, mat_get g u u = false) →
    (∀ c ∈ calls, c.1 < g.num_vertices → c.2 < g.num_vertices → c.1 ≠ c.2) →
    ∀ u, mat_get (apply_edges g calls) u u = false := by
  induction calls with
  | nil => exact fun g _ _ hd _ => hd
  | cons c rest ih =>
    intro g hl hr hd hc u
    obtain ⟨l1, r1⟩ := add_edge_square g c.1 c.2 hl hr
    have hnv := add_edge_num_vertices g c.1 c.2
    refine ih (g.add_edge c.1 c.2) (by rw [l1, hnv]) (by rw [hnv]; exact r1) ?_ ?_ u
    · intro a
      rw [add_edge_getD g c.1 c.2 a a hl hr]
      rw [if_neg, hd a]
      rintro ⟨hg, h | h⟩
      · exact hc c (List.mem_cons_self c rest) hg.1 hg.2 (h.1.symm.trans h.2)
      · exact hc c (List.mem_cons_self c rest) hg.1 hg.2 (h.2.symm.trans h.1)
    · intro d hd1 h1 h2
      rw [hnv] at h1 h2
      exact hc d (List.mem_cons_of_mem c hd1) h1 h2

theorem mat_get_new (n u v : ℕ) : mat_get (Graph.new n) u v = false := by
  simp only [mat_get, Graph.new, List.getD_eq_getElem?_getD, List.getElem?_replicate]
  by_cases hu : u < n
  · simp only [hu, if_true, Option.getD_some]
    by_cases hv : v < n <;> simp [hv]
  · simp [hu]

/-- C8 amended: for every Graph::new and any add_edge sequence the
adjacency matrix stays symmetric; the diagonal stays false provided no
call has equal in-range endpoints (an in-range add_edge(u,u) records a
self-loop instead of being rejected). -/
theorem c8_add_edge_symmetry_and_guarded_diagonal (n : ℕ) (calls : List (ℕ × ℕ)) :
    (∀ u v, mat_get (apply_edges (Graph.new n) calls) u v
      = mat_get (apply_edges (Graph.new n) calls) v u) ∧
    ((∀ c ∈ calls, c.1 < n → c.2 < n → c.1 ≠ c.2) →
      ∀ u, mat_get (apply_edges (Graph.new n) calls) u u = false) := by
  have hl : (Graph.new n).adjacency_matrix.length = (Graph.new n).num_vertices := by
    simp [Graph.new]
  have hr : ∀ row ∈ (Graph.new n).adjacency_matrix, row.length = (Graph.new n).num_vertices := by
    intro row hrow
    simp only [Graph.new] at hrow
    rw [List.eq_of_mem_replicate hrow]
    simp [Graph.new]
  constructor
  · exact apply_edges_symm calls (Graph.new n) hl hr (fun u v => by rw [mat_get_new, mat_get_new])
  · intro hcalls
    exact apply_edges_diag calls (Graph.new n) hl hr (fun u => mat_get_new n u u) hcalls

/-- C8 witness: the amended theorem applied to the two-vertex graph with
the single call add_edge(0,1). -/
theorem c8_witness_eval :
    mat_get (apply_edges (Graph.new 2) [(0, 1)]) 0 1
      = mat_get (apply_edges (Graph.new 2) [(0, 1)]) 1 0 ∧
    mat_get (apply_edges (Graph.new 2) [(0, 1)]) 0 0 = false :=
  ⟨(c8_add_edge_symmetry_and_guarded_diagonal 2 [(0, 1)]).1 0 1,
   (c8_add_edge_symmetry_and_guarded_diagonal 2 [(0, 1)]).2 (by decide) 0⟩

theorem enum_from_mem_of_get? {α : Type} {l : List α} {j : ℕ} {a : α} (k : ℕ)
    (h : l.get? j = some a) : (k + j, a) ∈ enum_from k l := by
  induction l generalizing k j with
  | nil => simp at h
  | cons b rest ih =>
    cases j with
    | zero =>
      simp only [List.get?_cons_zero, Option.some.injEq] at h
      simp [enum_from, h]
    | succ j =>
      simp only [List.get?_cons_succ] at h
      have := ih (k + 1) h
      simp only [enum_from, List.mem_cons]
      right
      have harith : k + 1 + j = k + (j + 1) := by omega
      rwa [harith] at this

theorem mem_get_neighbors {g : Graph} {i j : ℕ} :
    j ∈ g.get_neighbors i ↔
      i < g.num_vertices ∧ (g.adjacency_matrix.getD i []).get? j = some true := by
  unfold Graph.get_neighbors
  by_cases hi : i < g.num_vertices
  · simp only [hi, if_true, List.mem_map, List.mem_filter, true_and]
    constructor
    · rintro ⟨p, ⟨hpm, hps⟩, hpf⟩
      obtain ⟨j0, hg, hk⟩ := enum_from_mem hpm
      have hj : j0 = j := by omega
      subst hj
      rw [hps] at hg
      exact hg
    · intro hg
      refine ⟨(j, true), ⟨?_, rfl⟩, rfl⟩
      have := enum_from_mem_of_get? 0 hg
      simpa using this
  · simp [hi]

theorem wb_graph_parts {g : Graph} (h : g.wb = true) :
    g.adjacency_matrix.length = g.num_vertices ∧
    (∀ row ∈ g.adjacency_matrix, row.length = g.num_vertices) ∧
    (∀ u v, mat_get g u v = mat_get g v u) ∧
    (∀ v, mat_get g v v = false) := by
  unfold Graph.wb at h
  simp only [Bool.and_eq_true, beq_iff_eq, List.all_eq_true, List.mem_range] at h
  obtain ⟨⟨⟨hlen, hrows⟩, hsym⟩, hdiag⟩ := h
  have hoob : ∀ u v, ¬ (u < g.num_vertices ∧ v < g.num_vertices) → mat_get g u v = false := by
    intro u v huv
    unfold mat_get
    by_cases hu : u < g.num_vertices
    · have hv : ¬ v < g.num_vertices := fun hv => huv ⟨hu, hv⟩
      have hrl : (g.adjacency_matrix.getD u []).length = g.num_vertices := by
        refine hrows _ (getD_mem _ _ _ ?_)
        rw [hlen]
        exact hu
      rw [List.getD_eq_getElem?_getD, List.getElem?_eq_none]
      · rfl
      · rw [hrl]
        exact Nat.le_of_not_lt hv
    · rw [List.getD_eq_getElem?_getD (l := g.adjacency_matrix), List.getElem?_eq_none]
      · rfl
      · rw [hlen]
        exact Nat.le_of_not_lt hu
  refine ⟨hlen, hrows, ?_, ?_⟩
  · intro u v
    by_cases hu : u < g.num_vertices
    · by_cases hv : v < g.num_vertices
      · exact hsym u hu v hv
      · rw [hoob u v (fun hc => hv hc.2), hoob v u (fun hc => hv hc.1)]
    · rw [hoob u v (fun hc => hu hc.1), hoob v u (fun hc => hu hc.2)]
  · intro v
    by_cases hv : v < g.num_vertices
    · exact hdiag v hv
    · exact hoob v v (fun hc => hv hc.1)

theorem wb_mem_get_neighbors {g : Graph} (hwb : g.wb = true) (i j : ℕ) :
    j ∈ g.get_neighbors i ↔
      i < g.num_vertices ∧ j < g.num_vertices ∧ mat_get g i j = true := by
  obtain ⟨hlen, hrows, _, _⟩ := wb_graph_parts hwb
  rw [mem_get_neighbors]
  by_cases hi : i < g.num_vertices
  · have hrl : (g.adjacency_matrix.getD i []).length = g.num_vertices := by
      refine hrows _ (getD_mem _ _ _ ?_)
      rw [hlen]
      exact hi
    simp only [hi, true_and]
    constructor
    · intro hg
      have hj : j < g.num_vertices := by
        rw [← hrl]
        exact List.get?_eq_some.mp hg |>.1
      refine ⟨hj, ?_⟩
      unfold mat_get
      rw [List.getD_eq_getElem?_getD, ← List.get?_eq_getElem?, hg]
      rfl
    · rintro ⟨hj, hm⟩
      unfold mat_get at hm
      rw [List.getD_eq_getElem?_getD, ← List.get?_eq_getElem?] at hm
      cases hg : (g.adjacency_matrix.getD i []).get? j with
      | none =>
        rw [hg] at hm
        simp at hm
      | some b =>
        rw [hg] at hm
        simp only [Option.getD_some] at hm
        rw [hm]
  · simp [hi]

theorem wb_neighbors_symm {g : Graph} (hwb : g.wb = true) {i j : ℕ}
    (h : j ∈ g.get_neighbors i) : i ∈ g.get_neighbors j := by
  obtain ⟨_, _, hsym, _⟩ := wb_graph_parts hwb
  rw [wb_mem_get_neighbors hwb] at h ⊢
  exact ⟨h.2.1, h.1, by rw [hsym]; exact h.2.2⟩

theorem wb_not_self_neighbor {g : Graph} (hwb : g.wb = true) (i : ℕ) :
    i ∉ g.get_neighbors i := by
  obtain ⟨_, _, _, hdiag⟩ := wb_graph_parts hwb
  rw [wb_mem_get_neighbors hwb]
  rintro ⟨_, _, hm⟩
  rw [hdiag i] at hm
  exact Bool.false_ne_true hm

theorem valid_color_assignment_false_iff (g : Graph) (w : List ℕ) (i : ℕ) :
    valid_color_assignment g w i = false ↔
      ∃ j ∈ g.get_neighbors i, w.getD i 0 = w.getD j 0 := by
  unfold valid_color_assignment
  rw [Bool.not_eq_false', List.any_eq_true]
  simp only [beq_iff_eq]

/-- C7 amended: during generate_individual every vertex after the one
being processed still holds the initial placeholder color 1, and under
that state a sampled color for vertex i is rejected exactly when it
matches the color of a smaller-index neighbor, or it equals 1 and i has
some larger-index neighbor (whose placeholder it collides with). -/
theorem c7_rejection_characterization (g : Graph) (hwb : g.wb = true)
    (w : List ℕ) (i : ℕ)
    (hplace : ∀ j, i < j → j < g.num_vertices → w.getD j 0 = 1) :
    valid_color_assignment g w i = false ↔
      ((∃ j ∈ g.get_neighbors i, j < i ∧ w.getD j 0 = w.getD i 0) ∨
       (w.getD i 0 = 1 ∧ ∃ j ∈ g.get_neighbors i, i < j)) := by
  rw [valid_color_assignment_false_iff]
  constructor
  · rintro ⟨j, hj, heq⟩
    have hji : j ≠ i := fun h => wb_not_self_neighbor hwb i (h ▸ hj)
    rcases Nat.lt_or_ge j i with hlt | hge
    · exact Or.inl ⟨j, hj, hlt, heq.symm⟩
    · have hgt : i < j := Nat.lt_of_le_of_ne hge (fun h => hji h.symm)
      have hjn : j < g.num_vertices := ((wb_mem_get_neighbors hwb i j).mp hj).2.1
      right
      refine ⟨?_, j, hj, hgt⟩
      rw [heq, hplace j hgt hjn]
  · rintro (⟨j, hj, _, heq⟩ | ⟨h1, j, hj, hgt⟩)
    · exact ⟨j, hj, heq.symm⟩
    · have hjn : j < g.num_vertices := ((wb_mem_get_neighbors hwb i j).mp hj).2.1
      exact ⟨j, hj, by rw [h1, hplace j hgt hjn]⟩

/-- C7 witness: the amended characterization applied to the two-vertex
one-edge graph with the working vector [1,1] at vertex 0. -/
theorem c7_witness_eval : valid_color_assignment k2mat [1, 1] 0 = false :=
  (c7_rejection_characterization k2mat (by decide) [1, 1] 0
    (fun j h1 h2 => by
      have h2b : j < 2 := h2
      have hj : j = 1 := by omega
      subst hj
      rfl)).mpr
    (Or.inr ⟨rfl, 1, by decide, Nat.zero_lt_one⟩)

theorem acl_loop_mono (graph : AdjList) (cls : ℕ) (rng : ℕ → ℕ) :
    ∀ f f', f ≤ f' → ∀ a i c k, acl_loop graph cls rng f a i c k ≠ .out →
      acl_loop graph cls rng f' a i c k = acl_loop graph cls rng f a i c k := by
  intro f
  induction f with
  | zero => exact fun f' _ a i c k h => absurd rfl h
  | succ f ih =>
    intro f' hf a i c k h
    obtain ⟨f'', rfl⟩ : ∃ f'', f' = f'' + 1 := ⟨f' - 1, by omega⟩
    by_cases he : a.isEmpty
    · simp only [acl_loop, he, if_true]
    · simp only [acl_loop, he, if_false] at h ⊢
      cases hrc : rchoose (if List.isEmpty i then get_n_largest_degree cls graph a none
          else get_n_largest_degree cls graph a (some i)) (rng k) with
      | none => simp [hrc]
      | some vertex =>
        simp only [hrc] at h ⊢
        exact ih f'' (by omega) _ _ _ _ h

theorem assign_color_mono (vs : List ℕ) (cls : ℕ) (graph : AdjList) (mn : ℕ)
    (cl : List (List ℕ)) (nc : ℕ) (rng : ℕ → ℕ) (k : ℕ) (f f' : ℕ) (hf : f ≤ f')
    (h : assign_color vs cls graph mn cl nc rng k f ≠ .out) :
    assign_color vs cls graph mn cl nc rng k f' = assign_color vs cls graph mn cl nc rng k f := by
  unfold assign_color at h ⊢
  have hne : acl_loop graph cls rng f vs [] [] k ≠ .out := by
    intro hout
    rw [hout] at h
    exact h rfl
  rw [acl_loop_mono graph cls rng f f' hf _ _ _ _ hne]

theorem color_iters_mono (graph : AdjList) (cls : ℕ) (rng : ℕ → ℕ) (vs : List ℕ)
    (nc : ℕ) : ∀ ci st (f f' : ℕ), f ≤ f' →
    color_iters graph cls rng vs nc f ci st ≠ .out →
    color_iters graph cls rng vs nc f' ci st = color_iters graph cls rng vs nc f ci st := by
  intro ci
  induction ci with
  | zero => intro st f f' _ _; rfl
  | succ ci ih =>
    intro st f f' hf h
    unfold color_iters at h ⊢
    have hne : assign_color vs cls graph st.1 st.2.1 nc rng st.2.2 f ≠ .out := by
      intro hout
      rw [hout] at h
      exact h rfl
    rw [assign_color_mono vs cls graph st.1 st.2.1 nc rng st.2.2 f f' hf hne]
    cases hac : assign_color vs cls graph st.1 st.2.1 nc rng st.2.2 f with
    | ok st2 =>
      rw [hac] at h
      exact ih st2 f f' hf h
    | panic => rfl
    | out => exact absurd hac hne

theorem construct_loop_mono (graph : AdjList) (ci cls : ℕ) (rng : ℕ → ℕ) :
    ∀ f f', f ≤ f' → ∀ vs cl nc k,
      construct_loop graph ci cls rng f vs cl nc k ≠ .out →
      construct_loop graph ci cls rng f' vs cl nc k = construct_loop graph ci cls rng f vs cl nc k := by
  intro f
  induction f with
  | zero => exact fun f' _ vs cl nc k h => absurd rfl h
  | succ f ih =>
    intro f' hf vs cl nc k h
    obtain ⟨f'', rfl⟩ : ∃ f'', f' = f'' + 1 := ⟨f' - 1, by omega⟩
    by_cases he : vs.isEmpty
    · simp only [construct_loop, he, if_true]
    · simp only [construct_loop, he, if_false] at h ⊢
      have hne : color_iters graph cls rng vs (nc + 1) (f + 1) ci (usize_max, cl, k) ≠ .out := by
        intro hout
        rw [hout] at h
        exact h rfl
      rw [color_iters_mono graph cls rng vs (nc + 1) ci (usize_max, cl, k) (f + 1) (f'' + 1)
        (by omega) hne]
      cases hci : color_iters graph cls rng vs (nc + 1) (f + 1) ci (usize_max, cl, k) with
      | ok st =>
        rw [hci] at h
        simp only [Res.bind] at h ⊢
        cases hvg : vec_get st.2.1 (nc + 1 - 1) with
        | ok kept =>
          rw [hvg] at h
          exact ih f'' (by omega) _ _ _ _ h
        | panic => rfl
        | out => rfl
      | panic => rfl
      | out => exact absurd hci hne

theorem ls_loop_mono (graph : AdjList) (rng : ℕ → ℕ) :
    ∀ f f', f ≤ f' → ∀ fc fv cl ceil ni k,
      ls_loop graph rng f fc fv cl ceil ni k ≠ .out →
      ls_loop graph rng f' fc fv cl ceil ni k = ls_loop graph rng f fc fv cl ceil ni k := by
  intro f
  induction f with
  | zero => exact fun f' _ fc fv cl ceil ni k h => absurd rfl h
  | succ f ih =>
    intro f' hf fc fv cl ceil ni k h
    obtain ⟨f'', rfl⟩ : ∃ f'', f' = f'' + 1 := ⟨f' - 1, by omega⟩
    by_cases hcond : fc > 0 ∧ ni < ceil
    · simp only [ls_loop, if_pos hcond] at h ⊢
      cases hrc : rchoose fv (rng k) with
      | none => simp [hrc]
      | some vertex =>
        simp only [hrc] at h ⊢
        cases hgc : get_coloring_from_class_list graph.num_vertices cl with
        | ok coloring =>
          simp only [hgc, Res.bind] at h ⊢
          by_cases himp : (ls_best graph coloring vertex (List.range' 1 cl.length)
              (count_forbidden_per_vertex graph coloring vertex, coloring.getD vertex 0)).1 <
              count_forbidden_per_vertex graph coloring vertex
          · simp only [if_pos himp] at h ⊢
            cases hmv : ls_move cl vertex (coloring.getD vertex 0)
                (ls_best graph coloring vertex (List.range' 1 cl.length)
                  (count_forbidden_per_vertex graph coloring vertex, coloring.getD vertex 0)).2 with
            | ok cl2 =>
              simp only [hmv, Res.bind] at h ⊢
              cases hfv : get_forbidden_vertices graph cl2 with
              | ok fcs =>
                simp only [hfv, Res.bind] at h ⊢
                exact ih f'' (by omega) _ _ _ _ _ _ h
              | panic => simp [hfv, Res.bind]
              | out => simp only [hfv, Res.bind] at h; exact absurd rfl h
            | panic => simp [hmv, Res.bind]
            | out => simp only [hmv, Res.bind] at h; exact absurd rfl h
          · simp only [if_neg himp] at h ⊢
            exact ih f'' (by omega) _ _ _ _ _ _ h
        | panic => simp [hgc, Res.bind]
        | out => simp only [hgc, Res.bind] at h; exact absurd rfl h
    · simp only [ls_loop, if_neg hcond]

theorem local_search_mono (graph : AdjList) (cl : List (List ℕ)) (rng : ℕ → ℕ)
    (k : ℕ) (f f' : ℕ) (hf : f ≤ f') (h : local_search graph cl rng k f ≠ .out) :
    local_search graph cl rng k f' = local_search graph cl rng k f := by
  unfold local_search at h ⊢
  cases hfv : get_forbidden_vertices graph cl with
  | ok fcs =>
    simp only [hfv, Res.bind] at h ⊢
    exact ls_loop_mono graph rng f f' hf _ _ _ _ _ _ h
  | panic => rfl
  | out => simp only [hfv, Res.bind] at h; exact absurd rfl h

theorem improve_loop_mono (graph : AdjList) (rng : ℕ → ℕ) :
    ∀ f f', f ≤ f' → ∀ nc cl k,
      improve_loop graph rng f nc cl k ≠ .out →
      improve_loop graph rng f' nc cl k = improve_loop graph rng f nc cl k := by
  intro f
  induction f with
  | zero => exact fun f' _ nc cl k h => absurd rfl h
  | succ f ih =>
    intro f' hf nc cl k h
    obtain ⟨f'', rfl⟩ : ∃ f'', f' = f'' + 1 := ⟨f' - 1, by omega⟩
    simp only [improve_loop] at h ⊢
    cases hbn : build_new_classes
        (List.map (fun p => p.1) (List.take 2 (List.reverse
          (List.stable_sort (List.take nc (List.map (fun p => (p.1, p.2.length)) (enum_from 0 cl)))
            fun lhs rhs => decide (rhs.2 ≤ lhs.2)))))
        (enum_from 0 cl)
        [List.foldl (fun acc index => acc ++ cl.getD index []) []
          (List.map (fun p => p.1) (List.take 2 (List.reverse
            (List.stable_sort (List.take nc (List.map (fun p => (p.1, p.2.length)) (enum_from 0 cl)))
              fun lhs rhs => decide (rhs.2 ≤ lhs.2)))))] with
    | ok new_classes =>
      simp only [hbn, Res.bind] at h ⊢
      have hne : local_search graph new_classes rng k (f + 1) ≠ .out := by
        intro hout
        rw [hout] at h
        exact h rfl
      rw [local_search_mono graph new_classes rng k (f + 1) (f'' + 1) (by omega) hne]
      cases hls : local_search graph new_classes rng k (f + 1) with
      | ok lsr =>
        rw [hls] at h
        simp only [Res.bind] at h ⊢
        by_cases hz : lsr.1 = 0
        · simp only [if_pos hz] at h ⊢
          exact ih f'' (by omega) _ _ _ h
        · simp only [if_neg hz]
      | panic => rfl
      | out => exact absurd hls hne
    | panic => simp [hbn, Res.bind]
    | out => simp only [hbn, Res.bind] at h; exact absurd rfl h

theorem improve_phase_mono (graph : AdjList) (nc : ℕ) (cl : List (List ℕ))
    (rng : ℕ → ℕ) (k : ℕ) (f f' : ℕ) (hf : f ≤ f')
    (h : improve_phase graph nc cl rng k f ≠ .out) :
    improve_phase graph nc cl rng k f' = improve_phase graph nc cl rng k f := by
  unfold improve_phase at h ⊢
  have hne : improve_loop graph rng f nc cl k ≠ .out := by
    intro hout
    rw [hout] at h
    exact h rfl
  rw [improve_loop_mono graph rng f f' hf nc cl k hne]

theorem grasp_attempt_mono (graph : AdjList) (ci cls : ℕ) (rng : ℕ → ℕ)
    (f f' : ℕ) (hf : f ≤ f') (h : grasp_attempt graph ci cls rng f ≠ .out) :
    grasp_attempt graph ci cls rng f' = grasp_attempt graph ci cls rng f := by
  unfold grasp_attempt at h ⊢
  dsimp only at h ⊢
  have hne : construct_loop graph ci cls rng f (List.range graph.num_vertices)
      (List.replicate graph.num_vertices []) 0 0 ≠ .out := by
    intro hout
    rw [hout] at h
    exact h rfl
  rw [construct_loop_mono graph ci cls rng f f' hf _ _ _ _ hne]
  cases hc : construct_loop graph ci cls rng f (List.range graph.num_vertices)
      (List.replicate graph.num_vertices []) 0 0 with
  | ok st =>
    rw [hc] at h
    simp only [Res.bind] at h ⊢
    have hne2 : improve_phase graph st.1 st.2.1 rng st.2.2 f ≠ .out := by
      intro hout
      rw [hout] at h
      exact h rfl
    rw [improve_phase_mono graph st.1 st.2.1 rng st.2.2 f f' hf hne2]
  | panic => rfl
  | out => exact absurd hc hne

theorem attempts_map_mono (graph : AdjList) (ci cls : ℕ) (rngs : ℕ → ℕ → ℕ) :
    ∀ idxs (f f' : ℕ), f ≤ f' →
    attempts_map graph ci cls rngs f idxs ≠ .out →
    attempts_map graph ci cls rngs f' idxs = attempts_map graph ci cls rngs f idxs := by
  intro idxs
  induction idxs with
  | nil => intro f f' _ _; rfl
  | cons i rest ih =>
    intro f f' hf h
    unfold attempts_map at h ⊢
    have hne : grasp_attempt graph ci cls (rngs i) f ≠ .out := by
      intro hout
      rw [hout] at h
      exact h rfl
    rw [grasp_attempt_mono graph ci cls (rngs i) f f' hf hne]
    cases hg : grasp_attempt graph ci cls (rngs i) f with
    | ok s =>
      rw [hg] at h
      simp only [Res.bind] at h ⊢
      have hne2 : attempts_map graph ci cls rngs f rest ≠ .out := by
        intro hout
        rw [hout] at h
        exact h rfl
      rw [ih f f' hf hne2]
    | panic => rfl
    | out => exact absurd hg hne

theorem grasp_wrapper_mono (graph : AdjList) (gi ci cls : ℕ) (rngs : ℕ → ℕ → ℕ)
    (f f' : ℕ) (hf : f ≤ f') (h : grasp_wrapper graph gi ci cls rngs f ≠ .out) :
    grasp_wrapper graph gi ci cls rngs f' = grasp_wrapper graph gi ci cls rngs f := by
  unfold grasp_wrapper grasp at h ⊢
  have hne : attempts_map graph ci cls rngs f (List.range gi) ≠ .out := by
    intro hout
    rw [hout] at h
    exact h rfl
  rw [attempts_map_mono graph ci cls rngs (List.range gi) f f' hf hne]

theorem get_n_largest_degree_subset (n : ℕ) (graph : AdjList) (subset : List ℕ)
    (list : Option (List ℕ)) :
    ∀ x ∈ get_n_largest_degree n graph subset list, x ∈ subset := by
  intro x hx
  unfold get_n_largest_degree at hx
  simp only [List.mem_map] at hx
  obtain ⟨p, hp, hpx⟩ := hx
  have hp2 := List.mem_of_mem_take hp
  have hp3 := (List.stable_sort_perm _ _).mem_iff.mp hp2
  simp only [List.mem_filter, List.mem_map] at hp3
  obtain ⟨_, hcont⟩ := hp3
  rw [← hpx]
  exact List.mem_of_elem_eq_true hcont

theorem get_n_largest_degree_ne_nil (n : ℕ) (graph : AdjList) (subset : List ℕ)
    (list : Option (List ℕ)) (hn : 1 ≤ n) (hne : subset ≠ [])
    (hb : ∀ v ∈ subset, v < graph.num_vertices) :
    get_n_largest_degree n graph subset list ≠ [] := by
  unfold get_n_largest_degree
  intro hcon
  obtain ⟨v, hv⟩ := List.exists_mem_of_ne_nil subset hne
  set lst := match list with
    | some l => l
    | none => subset with hlst
  have hfil : (v, get_degree_in_list graph v lst) ∈
      ((List.range graph.num_vertices).map
        (fun vertex => (vertex, get_degree_in_list graph vertex lst))).filter
        (fun x => subset.contains x.1) := by
    rw [List.mem_filter]
    constructor
    · simp only [List.mem_map, List.mem_range]
      exact ⟨v, hb v hv, rfl⟩
    · exact List.elem_eq_true_of_mem hv
  have hms := (List.stable_sort_perm
    (((List.range graph.num_vertices).map
      (fun vertex => (vertex, get_degree_in_list graph vertex lst))).filter
      (fun x => subset.contains x.1)) (fun lhs rhs => decide (rhs.2 ≤ lhs.2))).symm.mem_iff.mp hfil
  have hpos := List.length_pos.mpr (List.ne_nil_of_mem hms)
  have hlen := congrArg List.length hcon
  rw [List.length_map, List.length_take] at hlen
  simp only [List.length_nil] at hlen
  omega

theorem rchoose_ne_nil {α : Type} {l : List α} (h : l ≠ []) (r : ℕ) :
    ∃ a, rchoose l r = some a ∧ a ∈ l := by
  unfold rchoose
  have hpos : 0 < l.length := List.length_pos.mpr h
  have hlt : r % l.length < l.length := Nat.mod_lt r hpos
  cases hg : l.get? (r % l.length) with
  | none =>
    rw [List.get?_eq_none] at hg
    omega
  | some a => exact ⟨a, rfl, List.get?_mem hg⟩

theorem acl_loop_edgeless (g : AdjList) (hg : ∀ i, g.adj_list.getD i [] = [])
    (cls : ℕ) (hcls : 1 ≤ cls) (rng : ℕ → ℕ) :
    ∀ (fuel : ℕ) (a : List ℕ), a.Nodup → (∀ v ∈ a, v < g.num_vertices) →
    a.length < fuel → ∀ i c k,
    ∃ cc, acl_loop g cls rng fuel a i c k = .ok (cc, k + a.length) ∧ cc.Perm (c ++ a) := by
  intro fuel
  induction fuel with
  | zero => omega
  | succ fuel ih =>
    intro a hnd hb hlt i c k
    by_cases he : a.isEmpty
    · rw [List.isEmpty_iff] at he
      subst he
      exact ⟨c, by simp [acl_loop], by simp⟩
    · have hane : a ≠ [] := by
        intro hc
        rw [hc] at he
        exact he rfl
      simp only [acl_loop, he, if_false]
      set cand := if List.isEmpty i then get_n_largest_degree cls g a none
        else get_n_largest_degree cls g a (some i) with hcand
      have hcand_ne : cand ≠ [] := by
        rw [hcand]
        split
        · exact get_n_largest_degree_ne_nil cls g a none hcls hane hb
        · exact get_n_largest_degree_ne_nil cls g a (some i) hcls hane hb
      obtain ⟨vertex, hrc, hvc⟩ := rchoose_ne_nil hcand_ne (rng k)
      have hva : vertex ∈ a := by
        rw [hcand] at hvc
        revert hvc
        split
        · exact fun hvc => get_n_largest_degree_subset cls g a none vertex hvc
        · exact fun hvc => get_n_largest_degree_subset cls g a (some i) vertex hvc
      rw [hrc]
      dsimp only
      rw [hg vertex]
      have hfe : a.filter (fun node => !(node == vertex) && !(List.contains [] node)) =
          a.erase vertex := by
        rw [hnd.erase_eq_filter]
        exact (List.filter_congr (fun x _ => by simp [List.contains, bne])).symm
      rw [hfe]
      have hlen : (a.erase vertex).length = a.length - 1 := List.length_erase_of_mem hva
      have hpos : 1 ≤ a.length := List.length_pos.mpr hane
      obtain ⟨cc, hacl, hperm⟩ := ih (a.erase vertex) (hnd.erase vertex)
        (fun v hv => hb v (List.mem_of_mem_erase hv)) (by omega) (i ++ []) (c ++ [vertex]) (k + 1)
      refine ⟨cc, ?_, ?_⟩
      · rw [hacl]
        have harith : k + 1 + (a.erase vertex).length = k + a.length := by omega
        rw [harith]
        rfl
      · refine hperm.trans ?_
        have h1 : c ++ [vertex] ++ a.erase vertex = c ++ (vertex :: a.erase vertex) := by
          simp
        rw [h1]
        exact List.Perm.append_left c (List.perm_cons_erase hva).symm

theorem getD_replicate {α : Type} (n i : ℕ) (a : α) :
    (List.replicate n a).getD i a = a := by
  simp only [List.getD_eq_getElem?_getD, List.getElem?_replicate]
  split <;> simp

theorem count_remaining_edges_nil (g : AdjList) : count_remaining_edges g [] = 0 := by
  rfl

theorem assign_color_edgeless (g : AdjList) (hg : ∀ i, g.adj_list.getD i [] = [])
    (cls : ℕ) (hcls : 1 ≤ cls) (rng : ℕ → ℕ) (vs : List ℕ) (hnd : vs.Nodup)
    (hb : ∀ v ∈ vs, v < g.num_vertices) (k fuel : ℕ) (hfuel : vs.length < fuel)
    (cl : List (List ℕ)) (nc : ℕ) (hnc : nc - 1 < cl.length) (mn : ℕ) :
    ∃ cc, cc.Perm vs ∧
      assign_color vs cls g mn cl nc rng k fuel =
        (if 0 < mn then .ok (0, cl.set (nc - 1) cc, k + vs.length)
         else .ok (mn, cl, k + vs.length)) := by
  obtain ⟨cc, hacl, hperm⟩ := acl_loop_edgeless g hg cls hcls rng fuel vs hnd hb hfuel [] [] k
  have hperm2 : cc.Perm vs := by simpa using hperm
  refine ⟨cc, hperm2, ?_⟩
  unfold assign_color
  rw [hacl]
  simp only [Res.bind]
  have hrem : vs.filter (fun vertex => !(cc.contains vertex)) = [] := by
    refine List.filter_eq_nil_iff.mpr ?_
    intro v hv
    have hvcc : v ∈ cc := hperm2.mem_iff.mpr hv
    simp [hvcc]
  rw [hrem, count_remaining_edges_nil]
  by_cases hmn : 0 < mn
  · rw [if_pos hmn, if_pos hmn, vec_set_ok hnc]
  · have hz : mn = 0 := by omega
    subst hz
    rfl

theorem color_iters_edgeless_zero (g : AdjList) (hg : ∀ i, g.adj_list.getD i [] = [])
    (cls : ℕ) (hcls : 1 ≤ cls) (rng : ℕ → ℕ) (vs : List ℕ) (hnd : vs.Nodup)
    (hb : ∀ v ∈ vs, v < g.num_vertices) (nc fuel : ℕ) (hfuel : vs.length < fuel) :
    ∀ (ci : ℕ) (cl : List (List ℕ)), nc - 1 < cl.length → ∀ k,
      ∃ k2, color_iters g cls rng vs nc fuel ci (0, cl, k) = .ok (0, cl, k2) := by
  intro ci
  induction ci with
  | zero => exact fun cl _ k => ⟨k, rfl⟩
  | succ ci ih =>
    intro cl hnc k
    obtain ⟨cc, hperm, hac⟩ := assign_color_edgeless g hg cls hcls rng vs hnd hb k fuel hfuel cl nc hnc 0
    rw [if_neg (by omega)] at hac
    obtain ⟨k2, hrest⟩ := ih cl hnc (k + vs.length)
    refine ⟨k2, ?_⟩
    unfold color_iters
    rw [hac]
    simpa [Res.bind] using hrest

theorem color_iters_edgeless (g : AdjList) (hg : ∀ i, g.adj_list.getD i [] = [])
    (cls : ℕ) (hcls : 1 ≤ cls) (rng : ℕ → ℕ) (vs : List ℕ) (hnd : vs.Nodup)
    (hb : ∀ v ∈ vs, v < g.num_vertices) (nc fuel : ℕ) (hfuel : vs.length < fuel)
    (ci : ℕ) (hci : 1 ≤ ci) (cl : List (List ℕ)) (hnc : nc - 1 < cl.length) (k : ℕ) :
    ∃ cc k2, cc.Perm vs ∧
      color_iters g cls rng vs nc fuel ci (usize_max, cl, k) = .ok (0, cl.set (nc - 1) cc, k2) := by
  obtain ⟨ci0, rfl⟩ : ∃ ci0, ci = ci0 + 1 := ⟨ci - 1, by omega⟩
  obtain ⟨cc, hperm, hac⟩ := assign_color_edgeless g hg cls hcls rng vs hnd hb k fuel hfuel cl nc hnc usize_max
  rw [if_pos (by unfold usize_max; omega)] at hac
  have hnc2 : nc - 1 < (cl.set (nc - 1) cc).length := by
    rw [List.length_set]
    exact hnc
  obtain ⟨k2, hrest⟩ := color_iters_edgeless_zero g hg cls hcls rng vs hnd hb nc fuel hfuel
    ci0 (cl.set (nc - 1) cc) hnc2 (k + vs.length)
  refine ⟨cc, k2, hperm, ?_⟩
  unfold color_iters
  rw [hac]
  simpa [Res.bind] using hrest

theorem construct_loop_edgeless (g : AdjList) (hg : ∀ i, g.adj_list.getD i [] = [])
    (ci cls : ℕ) (hci : 1 ≤ ci) (hcls : 1 ≤ cls) (rng : ℕ → ℕ)
    (hn : 1 ≤ g.num_vertices) (fuel : ℕ) (hfuel : g.num_vertices + 1 ≤ fuel) :
    ∃ cc k2, cc.Perm (List.range g.num_vertices) ∧
      construct_loop g ci cls rng fuel (List.range g.num_vertices)
        (List.replicate g.num_vertices []) 0 0 =
        .ok (1, (List.replicate g.num_vertices []).set 0 cc, k2) := by
  obtain ⟨f, rfl⟩ : ∃ f, fuel = f + 1 := ⟨fuel - 1, by omega⟩
  have hne : ¬ (List.range g.num_vertices).isEmpty = true := by
    rw [List.isEmpty_iff]
    intro hc
    have := congrArg List.length hc
    simp at this
    omega
  obtain ⟨cc, k2, hperm, hcolor⟩ := color_iters_edgeless g hg cls hcls rng
    (List.range g.num_vertices) (List.nodup_range g.num_vertices) (fun v hv => List.mem_range.mp hv)
    1 (f + 1) (by simp; omega) ci hci (List.replicate g.num_vertices [])
    (by simp; omega) 0
  refine ⟨cc, k2, hperm, ?_⟩
  simp only [construct_loop, hne, if_false]
  rw [show (0 : ℕ) + 1 = 1 from rfl, hcolor]
  simp only [Res.bind]
  have hget : vec_get ((List.replicate g.num_vertices ([] : List ℕ)).set 0 cc) (1 - 1) = .ok cc := by
    rw [vec_get_ok]
    rw [List.get?_eq_getElem?, List.getElem?_set_self]
    rw [List.length_replicate]
    omega
  rw [hget]
  simp only [Res.bind]
  have hfil : (List.range g.num_vertices).filter (fun vertex => !(cc.contains vertex)) = [] := by
    refine List.filter_eq_nil_iff.mpr ?_
    intro v hv
    have hvcc : v ∈ cc := hperm.mem_iff.mpr hv
    simp [hvcc]
  rw [hfil]
  obtain ⟨f2, rfl⟩ : ∃ f2, f = f2 + 1 := ⟨f - 1, by omega⟩
  rfl


theorem build_new_classes_skip_first (c0 : List ℕ) (rest : List (ℕ × List ℕ))
    (acc : List (List ℕ)) :
    build_new_classes [0] ((0, c0) :: rest) acc = build_new_classes [0] rest acc := by
  rfl

theorem smallest_check_second_panic (i1 : ℕ) (hi : i1 ≠ 0) (c1 : List ℕ) :
    smallest_check [0] i1 c1 = .panic := by
  unfold smallest_check
  dsimp only [List.get?_cons_zero]
  rw [if_neg hi]
  rfl

theorem build_new_classes_panic (c0 c1 : List ℕ) (i1 : ℕ) (hi : i1 ≠ 0)
    (rest : List (ℕ × List ℕ)) (acc : List (List ℕ)) :
    build_new_classes [0] ((0, c0) :: (i1, c1) :: rest) acc = .panic := by
  rw [build_new_classes_skip_first]
  unfold build_new_classes
  rw [smallest_check_second_panic i1 hi c1]
  rfl

theorem improve_loop_panic_single (g : AdjList) (cl : List (List ℕ))
    (hlen : 2 ≤ cl.length) (rng : ℕ → ℕ) (k fuel : ℕ) (hfuel : 1 ≤ fuel) :
    improve_loop g rng fuel 1 cl k = .panic := by
  obtain ⟨f, rfl⟩ : ∃ f, fuel = f + 1 := ⟨fuel - 1, by omega⟩
  obtain ⟨c0, c1, rest, rfl⟩ : ∃ c0 c1 rest, cl = c0 :: c1 :: rest := by
    match cl, hlen with
    | c0 :: c1 :: rest, _ => exact ⟨c0, c1, rest, rfl⟩
  simp only [improve_loop, enum_from, List.map_cons, List.take_succ_cons, List.take_zero,
    List.stable_sort_singleton, List.reverse_singleton, List.take_cons, List.map_nil,
    List.take_nil]
  rw [build_new_classes_panic c0 c1 (0 + 1) (by omega)]
  rfl

theorem improve_phase_panic_single (g : AdjList) (cl : List (List ℕ))
    (hlen : 2 ≤ cl.length) (rng : ℕ → ℕ) (k fuel : ℕ) (hfuel : 1 ≤ fuel) :
    improve_phase g 1 cl rng k fuel = .panic := by
  unfold improve_phase
  rw [improve_loop_panic_single g cl hlen rng k fuel hfuel]
  rfl

theorem grasp_attempt_panic_edgeless (g : AdjList)
    (hshape : g.adj_list = List.replicate g.num_vertices [])
    (hn : 2 ≤ g.num_vertices) (ci cls : ℕ) (hci : 1 ≤ ci) (hcls : 1 ≤ cls)
    (rng : ℕ → ℕ) (fuel : ℕ) (hfuel : g.num_vertices + 1 ≤ fuel) :
    grasp_attempt g ci cls rng fuel = .panic := by
  have hg : ∀ i, g.adj_list.getD i [] = [] := by
    intro i
    rw [hshape]
    exact getD_replicate g.num_vertices i []
  obtain ⟨cc, k2, hperm, hcon⟩ := construct_loop_edgeless g hg ci cls hci hcls rng
    (by omega) fuel hfuel
  unfold grasp_attempt
  dsimp only
  rw [hcon]
  simp only [Res.bind]
  rw [improve_phase_panic_single g _ (by rw [List.length_set, List.length_replicate]; omega)
    rng k2 fuel (by omega)]

/-- C10: for every graph with at least two vertices and no edges (and
positive iteration parameters), construction places all vertices in one
class and the merge step of improve_phase reads the index of a second
smallest class that does not exist, so grasp_wrapper panics with an
index-out-of-bounds error instead of returning: no fuel makes it return
ok, and any sufficient fuel makes it panic. -/
theorem c10_improve_phase_panics_on_edgeless (g : AdjList)
    (hshape : g.adj_list = List.replicate g.num_vertices [])
    (hn : 2 ≤ g.num_vertices) (gi ci cls : ℕ) (hgi : 1 ≤ gi) (hci : 1 ≤ ci)
    (hcls : 1 ≤ cls) (rngs : ℕ → ℕ → ℕ) :
    (∀ fuel s, grasp_wrapper g gi ci cls rngs fuel ≠ .ok s) ∧
    (∀ fuel, g.num_vertices + 1 ≤ fuel → grasp_wrapper g gi ci cls rngs fuel = .panic) := by
  have hpanic : ∀ fuel, g.num_vertices + 1 ≤ fuel →
      grasp_wrapper g gi ci cls rngs fuel = .panic := by
    intro fuel hfuel
    obtain ⟨s, rfl⟩ : ∃ s, gi = s + 1 := ⟨gi - 1, by omega⟩
    unfold grasp_wrapper grasp
    rw [List.range_succ_eq_map]
    unfold attempts_map
    rw [grasp_attempt_panic_edgeless g hshape hn ci cls hci hcls (rngs 0) fuel hfuel]
    rfl
  refine ⟨?_, hpanic⟩
  intro fuel s hok
  have hne : grasp_wrapper g gi ci cls rngs fuel ≠ .out := by
    rw [hok]
    intro hc
    cases hc
  have hmono := grasp_wrapper_mono g gi ci cls rngs fuel (max fuel (g.num_vertices + 1))
    (Nat.le_max_left _ _) hne
  rw [hok] at hmono
  rw [hpanic (max fuel (g.num_vertices + 1)) (Nat.le_max_right _ _)] at hmono
  cases hmono

/-- C10 witness: on the concrete edgeless two-vertex graph with the
default-shaped parameters, grasp_wrapper panics at ample fuel and never
returns. -/
theorem c10_witness_eval :
    grasp_wrapper e2adj 1 1 1 (fun _ _ => 0) 3 = .panic ∧
    grasp_wrapper e2adj 1 1 1 (fun _ _ => 0) 100 ≠ .ok (1, [1, 1]) :=
  ⟨(c10_improve_phase_panics_on_edgeless e2adj rfl (by decide) 1 1 1 (by decide) (by decide)
      (by decide) (fun _ _ => 0)).2 3 (by decide),
   (c10_improve_phase_panics_on_edgeless e2adj rfl (by decide) 1 1 1 (by decide) (by decide)
      (by decide) (fun _ _ => 0)).1 100 (1, [1, 1])⟩

theorem sol_cmp_lt_le {a b : ℕ × List ℕ} (h : sol_cmp a b = .lt) : a.1 ≤ b.1 := by
  unfold sol_cmp at h
  cases hc : compare a.1 b.1 with
  | lt => exact Nat.le_of_lt (Nat.compare_eq_lt.mp hc)
  | eq => exact Nat.le_of_eq (Nat.compare_eq_eq.mp hc)
  | gt => rw [hc] at h; exact absurd h (by simp)

theorem sol_cmp_not_lt_le {a b : ℕ × List ℕ} (h : ¬ sol_cmp a b = .lt) : b.1 ≤ a.1 := by
  unfold sol_cmp at h
  cases hc : compare a.1 b.1 with
  | lt => rw [hc] at h; exact absurd rfl h
  | eq => exact Nat.le_of_eq (Nat.compare_eq_eq.mp hc).symm
  | gt => exact Nat.le_of_lt (Nat.compare_eq_gt.mp hc)

theorem heap_peek_eq_none {l : List (ℕ × List ℕ)} (h : heap_peek l = none) : l = [] := by
  cases l with
  | nil => rfl
  | cons s rest =>
    unfold heap_peek at h
    cases hp : heap_peek rest with
    | none => rw [hp] at h; exact absurd h (by simp)
    | some m =>
      rw [hp] at h
      by_cases hc : sol_cmp s m = .lt <;> simp [hc] at h

theorem heap_peek_spec : ∀ (l : List (ℕ × List ℕ)), l ≠ [] →
    ∃ m, heap_peek l = some m ∧ m ∈ l ∧ ∀ a ∈ l, a.1 ≤ m.1 := by
  intro l
  induction l with
  | nil => exact fun h => absurd rfl h
  | cons s rest ih =>
    intro _
    cases hp : heap_peek rest with
    | none =>
      have hrest := heap_peek_eq_none hp
      subst hrest
      refine ⟨s, by simp [heap_peek], List.mem_cons_self s [], ?_⟩
      intro a ha
      rw [List.mem_singleton] at ha
      exact Nat.le_of_eq (congrArg Prod.fst ha)
    | some m =>
      have hrest : rest ≠ [] := by
        intro hc
        rw [hc] at hp
        exact absurd hp (by simp [heap_peek])
      obtain ⟨m2, hm2, hmem, hbound⟩ := ih hrest
      rw [hp] at hm2
      injection hm2 with hm2
      subst hm2
      by_cases hc : sol_cmp s m = .lt
      · refine ⟨m, by simp [heap_peek, hp, hc], List.mem_cons_of_mem s hmem, ?_⟩
        intro a ha
        rcases List.mem_cons.mp ha with rfl | ha
        · exact sol_cmp_lt_le hc
        · exact hbound a ha
      · refine ⟨s, by simp [heap_peek, hp, hc], List.mem_cons_self s rest, ?_⟩
        intro a ha
        rcases List.mem_cons.mp ha with rfl | ha
        · exact Nat.le_refl _
        · exact Nat.le_trans (hbound a ha) (sol_cmp_not_lt_le hc)

theorem heap_remove_perm : ∀ {l : List (ℕ × List ℕ)} {m : ℕ × List ℕ}, m ∈ l →
    l.Perm (m :: heap_remove l m) := by
  intro l
  induction l with
  | nil => intro m h; simp at h
  | cons s rest ih =>
    intro m h
    unfold heap_remove
    by_cases hs : s = m
    · rw [if_pos hs, hs]
    · rw [if_neg hs]
      have hm : m ∈ rest := by
        rcases List.mem_cons.mp h with hc | hc
        · exact absurd hc.symm hs
        · exact hc
      exact ((ih hm).cons s).trans (List.Perm.swap m s (heap_remove rest m))

theorem heap_remove_sublist : ∀ (l : List (ℕ × List ℕ)) (m : ℕ × List ℕ),
    List.Sublist (heap_remove l m) l := by
  intro l m
  induction l with
  | nil => exact List.Sublist.refl []
  | cons s rest ih =>
    unfold heap_remove
    by_cases hs : s = m
    · rw [if_pos hs]
      exact List.sublist_cons_self s rest
    · rw [if_neg hs]
      exact ih.cons₂ s

theorem heap_remove_length {l : List (ℕ × List ℕ)} {m : ℕ × List ℕ} (h : m ∈ l) :
    (heap_remove l m).length + 1 = l.length := by
  have := (heap_remove_perm h).length_eq
  simpa using this.symm

theorem heap_fold_spec (ns : ℕ) (hns : 1 ≤ ns) :
    ∀ (rest processed h0 : List (ℕ × List ℕ)),
    (↑h0 : Multiset (ℕ × List ℕ)) ≤ ↑processed →
    h0.length = min ns processed.length →
    (∀ x ∈ h0, ∀ y ∈ (↑(processed.map Prod.fst) : Multiset ℕ) - ↑(h0.map Prod.fst), x.1 ≤ y) →
    ∃ h, heap_fold ns rest h0 = .ok h ∧
      h.length = min ns (processed ++ rest).length ∧
      (↑h : Multiset (ℕ × List ℕ)) ≤ ↑(processed ++ rest) ∧
      ∀ x ∈ h, ∀ y ∈ (↑((processed ++ rest).map Prod.fst) : Multiset ℕ) - ↑(h.map Prod.fst), x.1 ≤ y := by
  intro rest
  induction rest with
  | nil =>
    intro processed h0 hle hlen hsep
    exact ⟨h0, rfl, by simpa using hlen, by simpa using hle, by simpa using hsep⟩
  | cons s rest ih =>
    intro processed h0 hle hlen hsep
    have hassoc : processed ++ s :: rest = (processed ++ [s]) ++ rest := by simp
    have hU : (↑((processed ++ [s]).map Prod.fst) : Multiset ℕ) =
        ↑(processed.map Prod.fst) + {s.1} := by
      rw [List.map_append]
      rfl
    by_cases hlt : h0.length < ns
    · have hplen : processed.length = h0.length := by
        have hcard : (↑h0 : Multiset (ℕ × List ℕ)).card ≤ (↑processed : Multiset (ℕ × List ℕ)).card :=
          Multiset.card_le_card hle
        simp only [Multiset.coe_card] at hcard
        rcases Nat.le_total ns processed.length with hc | hc
        · rw [min_eq_left hc] at hlen
          omega
        · rw [min_eq_right hc] at hlen
          omega
      have heq : (↑h0 : Multiset (ℕ × List ℕ)) = ↑processed := by
        refine Multiset.eq_of_le_of_card_le hle ?_
        simp only [Multiset.coe_card]
        omega
      have hstep : heap_fold ns (s :: rest) h0 = heap_fold ns rest (s :: h0) := by
        simp [heap_fold, hlt]
      rw [hstep, hassoc]
      refine ih (processed ++ [s]) (s :: h0) ?_ ?_ ?_
      · show (↑(s :: h0) : Multiset (ℕ × List ℕ)) ≤ ↑(processed ++ [s])
        rw [← Multiset.cons_coe]
        rw [show (↑(processed ++ [s]) : Multiset (ℕ × List ℕ)) = ↑processed + {s} from rfl]
        rw [show (↑processed : Multiset (ℕ × List ℕ)) + {s} = s ::ₘ ↑processed by
          rw [← Multiset.singleton_add, add_comm]]
        exact Multiset.cons_le_cons s hle
      · have h1 : (s :: h0).length = h0.length + 1 := rfl
        have h2 : (processed ++ [s]).length = processed.length + 1 := by simp
        rw [h1, h2, hplen]
        exact (min_eq_right (by omega)).symm
      · intro x hx y hy
        exfalso
        have hAB : (↑((processed ++ [s]).map Prod.fst) : Multiset ℕ) =
            ↑((s :: h0).map Prod.fst) := by
          rw [← Multiset.map_coe, ← Multiset.map_coe]
          congr 1
          rw [Multiset.coe_eq_coe]
          exact (List.perm_append_singleton s processed).trans
            (((Multiset.coe_eq_coe.mp heq).symm).cons s)
        rw [hAB, tsub_self] at hy
        exact Multiset.not_mem_zero y hy
    · have hplen2 : ns ≤ processed.length := by
        rcases Nat.le_total ns processed.length with hc | hc
        · exact hc
        · rw [min_eq_right hc] at hlen
          omega
      have hfull : h0.length = ns := by
        rw [min_eq_left hplen2] at hlen
        exact hlen
      have hne : h0 ≠ [] := by
        intro hc
        rw [hc] at hfull
        simp at hfull
        omega
      obtain ⟨m, hpeek, hmem, hbound⟩ := heap_peek_spec h0 hne
      have hstep0 : heap_fold ns (s :: rest) h0 =
          (if s.1 < m.1 then heap_fold ns rest (s :: heap_remove h0 m)
           else heap_fold ns rest h0) := by
        simp [heap_fold, hlt, hpeek]
      have hm1B : ({m.1} : Multiset ℕ) ≤ ↑(h0.map Prod.fst) := by
        rw [Multiset.singleton_le]
        exact List.mem_map_of_mem Prod.fst hmem
      have hBA : (↑(h0.map Prod.fst) : Multiset ℕ) ≤ ↑(processed.map Prod.fst) := by
        rw [← Multiset.map_coe, ← Multiset.map_coe]
        exact Multiset.map_le_map hle
      have hpermB : (↑(h0.map Prod.fst) : Multiset ℕ) =
          {m.1} + ↑((heap_remove h0 m).map Prod.fst) := by
        have hp2 : (↑(h0.map Prod.fst) : Multiset ℕ) =
            ↑((m :: heap_remove h0 m).map Prod.fst) := by
          rw [Multiset.coe_eq_coe]
          exact (heap_remove_perm hmem).map Prod.fst
        rw [hp2, List.map_cons, ← Multiset.cons_coe, ← Multiset.singleton_add]
      by_cases hs : s.1 < m.1
      · rw [hstep0, if_pos hs, hassoc]
        have hsubE : (↑(heap_remove h0 m) : Multiset (ℕ × List ℕ)) ≤ ↑h0 := by
          rw [Multiset.coe_le]
          exact (heap_remove_sublist h0 m).subperm
        refine ih (processed ++ [s]) (s :: heap_remove h0 m) ?_ ?_ ?_
        · show (↑(s :: heap_remove h0 m) : Multiset (ℕ × List ℕ)) ≤ ↑(processed ++ [s])
          rw [← Multiset.cons_coe]
          rw [show (↑(processed ++ [s]) : Multiset (ℕ × List ℕ)) = ↑processed + {s} from rfl]
          rw [show (↑processed : Multiset (ℕ × List ℕ)) + {s} = s ::ₘ ↑processed by
            rw [← Multiset.singleton_add, add_comm]]
          exact Multiset.cons_le_cons s (le_trans hsubE hle)
        · have h1 : (s :: heap_remove h0 m).length = (heap_remove h0 m).length + 1 := rfl
          have h2 : (processed ++ [s]).length = processed.length + 1 := by simp
          rw [h1, h2, heap_remove_length hmem, hfull]
          exact (min_eq_left (by omega)).symm
        · intro x hx y hy
          have hH : (↑((s :: heap_remove h0 m).map Prod.fst) : Multiset ℕ) =
              {s.1} + ↑((heap_remove h0 m).map Prod.fst) := by
            rw [List.map_cons, ← Multiset.cons_coe, ← Multiset.singleton_add]
          rw [hU, hH] at hy
          have hEB : (↑((heap_remove h0 m).map Prod.fst) : Multiset ℕ) =
              ↑(h0.map Prod.fst) - {m.1} := by
            rw [hpermB, add_tsub_cancel_left]
          have hrw : (↑(processed.map Prod.fst) : Multiset ℕ) + {s.1} -
              ({s.1} + ↑((heap_remove h0 m).map Prod.fst)) =
              (↑(processed.map Prod.fst) - ↑(h0.map Prod.fst)) + {m.1} := by
            rw [add_comm ({s.1} : Multiset ℕ) (↑((heap_remove h0 m).map Prod.fst))]
            rw [add_tsub_add_eq_tsub_right]
            rw [hEB]
            exact tsub_tsub_assoc hBA hm1B
          rw [hrw, Multiset.mem_add] at hy
          rcases List.mem_cons.mp hx with rfl | hx2
          · rcases hy with hy3 | hy3
            · exact le_trans (le_of_lt hs) (hsep m hmem y hy3)
            · rw [Multiset.mem_singleton] at hy3
              subst hy3
              exact le_of_lt hs
          · have hxh0 : x ∈ h0 := (heap_remove_sublist h0 m).mem hx2
            rcases hy with hy3 | hy3
            · exact hsep x hxh0 y hy3
            · rw [Multiset.mem_singleton] at hy3
              subst hy3
              exact hbound x hxh0
      · rw [hstep0, if_neg hs, hassoc]
        refine ih (processed ++ [s]) h0 ?_ ?_ ?_
        · refine le_trans hle ?_
          rw [show (↑(processed ++ [s]) : Multiset (ℕ × List ℕ)) = ↑processed + {s} from rfl]
          exact Multiset.le_add_right _ _
        · have h2 : (processed ++ [s]).length = processed.length + 1 := by simp
          rw [h2, hfull]
          exact (min_eq_left (by omega)).symm
        · intro x hx y hy
          rw [hU, ← tsub_add_eq_add_tsub hBA, Multiset.mem_add] at hy
          rcases hy with hy3 | hy3
          · exact hsep x hx y hy3
          · rw [Multiset.mem_singleton] at hy3
            subst hy3
            exact le_trans (hbound x hx) (Nat.le_of_not_lt hs)

/-- C6: the sequential fold of attempt results into the bounded heap
pushes an incoming solution while fewer than num_solutions are held and
otherwise evicts the worst exactly when the incoming num_colors is
strictly smaller; consequently the final heap holds
min(num_solutions, attempts) solutions drawn from the attempts whose
num_colors values are pointwise no larger than every discarded value
(the smallest multiset of num_colors among the attempts). -/
theorem c6_heap_fold_keeps_smallest (all : List (ℕ × List ℕ)) (num_solutions : ℕ)
    (hns : 1 ≤ num_solutions) :
    (∀ (s : ℕ × List ℕ) rest hh, hh.length < num_solutions →
        heap_fold num_solutions (s :: rest) hh = heap_fold num_solutions rest (s :: hh)) ∧
    (∀ (s : ℕ × List ℕ) rest hh m, ¬ hh.length < num_solutions → heap_peek hh = some m →
        heap_fold num_solutions (s :: rest) hh =
          (if s.1 < m.1 then heap_fold num_solutions rest (s :: heap_remove hh m)
           else heap_fold num_solutions rest hh)) ∧
    ∃ h, heap_fold num_solutions all [] = .ok h ∧
      h.length = min num_solutions all.length ∧
      (↑h : Multiset (ℕ × List ℕ)) ≤ ↑all ∧
      ∀ x ∈ h, ∀ y ∈ (↑(all.map Prod.fst) : Multiset ℕ) - ↑(h.map Prod.fst), x.1 ≤ y := by
  refine ⟨?_, ?_, ?_⟩
  · intro s rest hh hlt
    simp [heap_fold, hlt]
  · intro s rest hh m hlt hpeek
    simp [heap_fold, hlt, hpeek]
  · have := heap_fold_spec num_solutions hns all [] []
      (le_refl _) (by simp) (by intro x hx; simp at hx)
    simpa using this

/-- C6 witness: the fold of the two attempts (3, [1]) and (2, [2]) into a
heap bounded by one solution. -/
theorem c6_witness_eval :
    ∃ h, heap_fold 1 [(3, [1]), (2, [2])] [] = .ok h ∧
      h.length = min 1 [(3, [1]), (2, [2])].length ∧
      (↑h : Multiset (ℕ × List ℕ)) ≤ ↑[(3, [1]), (2, [2])] ∧
      ∀ x ∈ h, ∀ y ∈ (↑([(3, [1]), (2, [2])].map Prod.fst) : Multiset ℕ) -
        ↑(h.map Prod.fst), x.1 ≤ y :=
  (c6_heap_fold_keeps_smallest [(3, [1]), (2, [2])] 1 (by decide)).2.2

theorem list_eq_of_getD {l1 l2 : List ℕ} (hlen : l1.length = l2.length)
    (h : ∀ i, i < l1.length → l1.getD i 0 = l2.getD i 0) : l1 = l2 := by
  refine List.ext_getElem hlen ?_
  intro i h1 h2
  have := h i h1
  rwa [List.getD_eq_getElem l1 0 h1, List.getD_eq_getElem l2 0 h2] at this

theorem findIdx_split {l : List ℕ} {v : ℕ} (h : v ∈ l) :
    ∃ l1 l2, l.findIdx? (fun x => x == v) = some l1.length ∧
      l = l1 ++ v :: l2 ∧ l.eraseIdx l1.length = l1 ++ l2 := by
  induction l with
  | nil => simp at h
  | cons a rest ih =>
    by_cases ha : a = v
    · subst ha
      exact ⟨[], rest, by simp [List.findIdx?_cons], rfl, rfl⟩
    · have hv : v ∈ rest := by
        rcases List.mem_cons.mp h with hc | hc
        · exact absurd hc.symm ha
        · exact hc
      obtain ⟨l1, l2, hfind, hsplit, herase⟩ := ih hv
      refine ⟨a :: l1, l2, ?_, by rw [List.cons_append, ← hsplit], ?_⟩
      · rw [List.findIdx?_cons]
        rw [if_neg (by simpa using ha)]
        rw [List.findIdx?_succ]
        rw [hfind]
        rfl
      · show (a :: rest).eraseIdx (l1.length + 1) = a :: (l1 ++ l2)
        rw [List.eraseIdx_cons_succ, herase]

theorem class_partition_parts {cl : List (List ℕ)} {n : ℕ} (h : class_partition cl n) :
    cl.flatten.Nodup ∧ (∀ c ∈ cl, ∀ v ∈ c, v < n) ∧ (∀ v, v < n → ∃ c ∈ cl, v ∈ c) := by
  unfold class_partition at h
  refine ⟨h.nodup_iff.mpr (List.nodup_range n), ?_, ?_⟩
  · intro c hc v hv
    have : v ∈ cl.flatten := List.mem_flatten.mpr ⟨c, hc, hv⟩
    have := h.mem_iff.mp this
    exact List.mem_range.mp this
  · intro v hv
    have : v ∈ cl.flatten := h.mem_iff.mpr (List.mem_range.mpr hv)
    exact List.mem_flatten.mp this

theorem partition_disjoint {cl : List (List ℕ)} {n : ℕ} (h : class_partition cl n)
    {i j v : ℕ} (hi : i < cl.length) (hj : j < cl.length)
    (hvi : v ∈ cl.getD i []) (hvj : v ∈ cl.getD j []) : i = j := by
  obtain ⟨hnd, _, _⟩ := class_partition_parts h
  rw [List.nodup_flatten] at hnd
  by_contra hne
  rcases Nat.lt_or_ge i j with hij | hij
  · have := (List.pairwise_iff_get.mp hnd.2) ⟨i, hi⟩ ⟨j, hj⟩ hij
    rw [List.get_eq_getElem, List.get_eq_getElem, ← List.getD_eq_getElem cl [] hi,
      ← List.getD_eq_getElem cl [] hj] at this
    exact this hvi hvj
  · have hij2 : j < i := by omega
    have := (List.pairwise_iff_get.mp hnd.2) ⟨j, hj⟩ ⟨i, hi⟩ hij2
    rw [List.get_eq_getElem, List.get_eq_getElem, ← List.getD_eq_getElem cl [] hj,
      ← List.getD_eq_getElem cl [] hi] at this
    exact this hvj hvi

theorem set_class_vertices_spec (i : ℕ) :
    ∀ (c : List ℕ) (col : List ℕ), (∀ v ∈ c, v < col.length) →
    (∀ v ∈ c, col.getD v 0 = 0) → c.Nodup →
    ∃ col2, set_class_vertices i c col = .ok col2 ∧ col2.length = col.length ∧
      (∀ v, v ∉ c → col2.getD v 0 = col.getD v 0) ∧
      (∀ v ∈ c, col2.getD v 0 = i + 1) := by
  intro c
  induction c with
  | nil => exact fun col _ _ _ => ⟨col, rfl, rfl, fun v _ => rfl, fun v hv => by simp at hv⟩
  | cons vertex rest ih =>
    intro col hb hz hnd
    have hvb : vertex < col.length := hb vertex (List.mem_cons_self _ _)
    have hvz : col.getD vertex 0 = 0 := hz vertex (List.mem_cons_self _ _)
    have hvnr : vertex ∉ rest := (List.nodup_cons.mp hnd).1
    obtain ⟨col2, hrun, hlen, hout, hin⟩ := ih (col.set vertex (i + 1))
      (fun v hv => by rw [List.length_set]; exact hb v (List.mem_cons_of_mem _ hv))
      (fun v hv => by
        rw [getD_set_ne _ _ _ _ _ (fun hc => hvnr (by rw [hc]; exact hv))]
        exact hz v (List.mem_cons_of_mem _ hv))
      (List.nodup_cons.mp hnd).2
    refine ⟨col2, ?_, by rw [hlen, List.length_set], ?_, ?_⟩
    · unfold set_class_vertices
      rw [if_pos hvb, if_pos hvz]
      exact hrun
    · intro v hv
      have hvne : v ≠ vertex := fun hc => hv (hc ▸ List.mem_cons_self _ _)
      have hvr : v ∉ rest := fun hc => hv (List.mem_cons_of_mem _ hc)
      rw [hout v hvr, getD_set_ne _ _ _ _ _ (fun hc => hvne hc.symm)]
    · intro v hv
      rcases List.mem_cons.mp hv with rfl | hv2
      · rw [hout v hvnr, getD_set_self _ _ _ _ hvb]
      · exact hin v hv2

theorem gcfcl_go_spec :
    ∀ (pairs : List (ℕ × List ℕ)) (col : List ℕ),
    (∀ p ∈ pairs, ∀ v ∈ p.2, v < col.length) →
    (∀ p ∈ pairs, ∀ v ∈ p.2, col.getD v 0 = 0) →
    ((pairs.map Prod.snd).flatten.Nodup) →
    ∃ col2, gcfcl_go pairs col = .ok col2 ∧ col2.length = col.length ∧
      (∀ v, (∀ p ∈ pairs, v ∉ p.2) → col2.getD v 0 = col.getD v 0) ∧
      (∀ p ∈ pairs, ∀ v ∈ p.2, col2.getD v 0 = p.1 + 1) := by
  intro pairs
  induction pairs with
  | nil => exact fun col _ _ _ => ⟨col, rfl, rfl, fun v _ => rfl, fun p hp => by simp at hp⟩
  | cons q rest ih =>
    intro col hb hz hnd
    rw [List.map_cons, List.flatten_cons, List.nodup_append] at hnd
    obtain ⟨hnd1, hnd2, hdisj⟩ := hnd
    obtain ⟨col1, hrun1, hlen1, hout1, hin1⟩ := set_class_vertices_spec q.1 q.2 col
      (hb q (List.mem_cons_self _ _)) (hz q (List.mem_cons_self _ _)) hnd1
    have hbr : ∀ p ∈ rest, ∀ v ∈ p.2, v < col1.length := by
      intro p hp v hv
      rw [hlen1]
      exact hb p (List.mem_cons_of_mem _ hp) v hv
    have hdisj2 : ∀ p ∈ rest, ∀ v ∈ p.2, v ∉ q.2 := by
      intro p hp v hv hvq
      exact hdisj hvq (List.mem_flatten.mpr ⟨p.2, List.mem_map_of_mem Prod.snd hp, hv⟩)
    have hzr : ∀ p ∈ rest, ∀ v ∈ p.2, col1.getD v 0 = 0 := by
      intro p hp v hv
      rw [hout1 v (hdisj2 p hp v hv)]
      exact hz p (List.mem_cons_of_mem _ hp) v hv
    obtain ⟨col2, hrun2, hlen2, hout2, hin2⟩ := ih col1 hbr hzr hnd2
    refine ⟨col2, ?_, by rw [hlen2, hlen1], ?_, ?_⟩
    · show Res.bind (set_class_vertices q.1 q.2 col) (gcfcl_go rest) = .ok col2
      rw [hrun1]
      exact hrun2
    · intro v hv
      rw [hout2 v (fun p hp => hv p (List.mem_cons_of_mem _ hp)),
        hout1 v (hv q (List.mem_cons_self _ _))]
    · intro p hp v hv
      rcases List.mem_cons.mp hp with rfl | hp2
      · have hnotr : ∀ p2 ∈ rest, v ∉ p2.2 := fun p2 hp2b hvp2 => (hdisj2 p2 hp2b v hvp2) hv
        rw [hout2 v hnotr]
        exact hin1 v hv
      · exact hin2 p hp2 v hv

theorem enum_from_pair_facts {cl : List (List ℕ)} {p : ℕ × List ℕ}
    (hp : p ∈ enum_from 0 cl) : p.1 < cl.length ∧ cl.getD p.1 [] = p.2 := by
  obtain ⟨j, hj, hk⟩ := enum_from_mem hp
  have hj2 : p.1 = j := by omega
  subst hj2
  have hlt : p.1 < cl.length := (List.get?_eq_some.mp hj).1
  refine ⟨hlt, ?_⟩
  rw [List.getD_eq_getElem?_getD, ← List.get?_eq_getElem?, hj]
  rfl

theorem enum_from_pair_of_lt {cl : List (List ℕ)} {i : ℕ} (hi : i < cl.length) :
    (i, cl.getD i []) ∈ enum_from 0 cl := by
  have hg : cl.get? i = some (cl.getD i []) := by
    rw [List.getD_eq_getElem?_getD, ← List.get?_eq_getElem?]
    cases hc : cl.get? i with
    | none =>
      rw [List.get?_eq_none] at hc
      omega
    | some c => rfl
  have := enum_from_mem_of_get? 0 hg
  simpa using this

theorem get_coloring_partition_spec {cl : List (List ℕ)} {n : ℕ}
    (h : class_partition cl n) :
    ∃ col, get_coloring_from_class_list n cl = .ok col ∧ col.length = n ∧
      (∀ i, i < cl.length → ∀ v ∈ cl.getD i [], col.getD v 0 = i + 1) ∧
      (∀ v, v < n → ∃ i, i < cl.length ∧ v ∈ cl.getD i []) := by
  obtain ⟨hnd, hb, hcov⟩ := class_partition_parts h
  have hsnd : ∀ p ∈ enum_from 0 cl, p.2 ∈ cl := by
    intro p hp
    rw [← enum_from_map_snd cl 0]
    exact List.mem_map_of_mem Prod.snd hp
  obtain ⟨col2, hrun, hlen, hout, hin⟩ := gcfcl_go_spec (enum_from 0 cl)
    (List.replicate n 0)
    (fun p hp v hv => by
      rw [List.length_replicate]
      exact hb p.2 (hsnd p hp) v hv)
    (fun p hp v hv => getD_replicate_zero n v)
    (by rw [enum_from_map_snd]; exact hnd)
  refine ⟨col2, hrun, by rw [hlen, List.length_replicate], ?_, ?_⟩
  · intro i hi v hv
    have hpair := enum_from_pair_of_lt hi
    have := hin (i, cl.getD i []) hpair v hv
    simpa using this
  · intro v hv
    obtain ⟨c, hc, hvc⟩ := hcov v hv
    obtain ⟨j, hj⟩ := List.mem_iff_get?.mp hc
    have hjl : j < cl.length := (List.get?_eq_some.mp hj).1
    refine ⟨j, hjl, ?_⟩
    have : cl.getD j [] = c := by
      rw [List.getD_eq_getElem?_getD, ← List.get?_eq_getElem?, hj]
      rfl
    rw [this]
    exact hvc

theorem coloring_class_iff {cl : List (List ℕ)} {n : ℕ} {col : List ℕ}
    (hpart : class_partition cl n)
    (hcol : get_coloring_from_class_list n cl = .ok col) :
    ∀ v, v < n → ∀ i, i < cl.length → (col.getD v 0 = i + 1 ↔ v ∈ cl.getD i []) := by
  obtain ⟨col2, hrun, hlen, hval, hcov⟩ := get_coloring_partition_spec hpart
  rw [hcol] at hrun
  injection hrun with hrun
  subst hrun
  intro v hv i hi
  constructor
  · intro hvi
    obtain ⟨j, hj, hvj⟩ := hcov v hv
    have := hval j hj v hvj
    rw [this] at hvi
    have : j = i := by omega
    subst this
    exact hvj
  · exact hval i hi v

theorem coloring_range {cl : List (List ℕ)} {n : ℕ} {col : List ℕ}
    (hpart : class_partition cl n)
    (hcol : get_coloring_from_class_list n cl = .ok col) :
    ∀ v, v < n → 1 ≤ col.getD v 0 ∧ col.getD v 0 ≤ cl.length := by
  obtain ⟨col2, hrun, hlen, hval, hcov⟩ := get_coloring_partition_spec hpart
  rw [hcol] at hrun
  injection hrun with hrun
  subst hrun
  intro v hv
  obtain ⟨j, hj, hvj⟩ := hcov v hv
  rw [hval j hj v hvj]
  omega

theorem coloring_length {cl : List (List ℕ)} {n : ℕ} {col : List ℕ}
    (hpart : class_partition cl n)
    (hcol : get_coloring_from_class_list n cl = .ok col) : col.length = n := by
  obtain ⟨col2, hrun, hlen, _, _⟩ := get_coloring_partition_spec hpart
  rw [hcol] at hrun
  injection hrun with hrun
  subst hrun
  exact hlen

theorem flatten_set_perm : ∀ (cl : List (List ℕ)) (i : ℕ) (c : List ℕ), i < cl.length →
    ((cl.set i c).flatten ++ cl.getD i []).Perm (c ++ cl.flatten) := by
  intro cl
  induction cl with
  | nil => intro i c h; simp at h
  | cons r rest ih =>
    intro i c hi
    cases i with
    | zero =>
      simp only [List.set_cons_zero, List.flatten_cons, List.getD_cons_zero]
      have h1 : (c ++ rest.flatten) ++ r = c ++ (rest.flatten ++ r) := by simp
      rw [h1]
      refine List.Perm.append_left c ?_
      exact List.perm_append_comm.trans (List.Perm.refl _)
    | succ i =>
      simp only [List.set_cons_succ, List.flatten_cons, List.getD_cons_succ]
      have hi2 : i < rest.length := by simpa using hi
      have h1 : (r ++ (rest.set i c).flatten) ++ rest.getD i [] =
          r ++ ((rest.set i c).flatten ++ rest.getD i []) := by simp
      rw [h1]
      refine ((ih i c hi2).append_left r).trans ?_
      have h2 : c ++ (r ++ rest.flatten) = (c ++ r) ++ rest.flatten := by simp
      have h3 : r ++ (c ++ rest.flatten) = (r ++ c) ++ rest.flatten := by simp
      rw [h2, h3]
      exact List.perm_append_comm.append_right rest.flatten

theorem partition_class_nodup {cl : List (List ℕ)} {n : ℕ} (h : class_partition cl n)
    {i : ℕ} (hi : i < cl.length) : (cl.getD i []).Nodup := by
  obtain ⟨hnd, _, _⟩ := class_partition_parts h
  rw [List.nodup_flatten] at hnd
  exact hnd.1 _ (getD_mem cl i [] hi)

theorem getD_eq_of_get? {cl : List (List ℕ)} {i : ℕ} {c : List ℕ}
    (h : cl.get? i = some c) : cl.getD i [] = c := by
  rw [List.getD_eq_getElem?_getD, ← List.get?_eq_getElem?, h]
  rfl

theorem get?_of_lt {cl : List (List ℕ)} {i : ℕ} (hi : i < cl.length) :
    cl.get? i = some (cl.getD i []) := by
  cases hc : cl.get? i with
  | none =>
    rw [List.get?_eq_none] at hc
    omega
  | some c => rw [getD_eq_of_get? hc]

theorem ls_move_spec {cl : List (List ℕ)} {n : ℕ} (hpart : class_partition cl n)
    {col : List ℕ} (hcol : get_coloring_from_class_list n cl = .ok col)
    {v : ℕ} (hv : v < n) {bc : ℕ} (hbc1 : 1 ≤ bc) (hbc2 : bc ≤ cl.length) :
    ∃ cl2, ls_move cl v (col.getD v 0) bc = .ok cl2 ∧
      cl2.length = cl.length ∧
      class_partition cl2 n ∧
      get_coloring_from_class_list n cl2 = .ok (col.set v bc) ∧
      (∀ j u, u ∈ cl2.getD j [] ↔ ((u = v ∧ j = bc - 1) ∨ (u ≠ v ∧ u ∈ cl.getD j []))) := by
  obtain ⟨col0, hrun0, hlen0, hval0, hcov0⟩ := get_coloring_partition_spec hpart
  rw [hcol] at hrun0
  injection hrun0 with hrun0
  subst hrun0
  obtain ⟨i, hi, hvi⟩ := hcov0 v hv
  have hoc : col.getD v 0 = i + 1 := hval0 i hi v hvi
  have hocm : col.getD v 0 - 1 = i := by omega
  have hci_nodup := partition_class_nodup hpart hi
  obtain ⟨l1, l2, hfind, hsplit, herase⟩ := findIdx_split hvi
  set ci := cl.getD i [] with hci
  set cl1 := cl.set i (l1 ++ l2) with hcl1
  have hbclen : bc - 1 < cl1.length := by
    rw [hcl1, List.length_set]
    omega
  set rb := cl1.getD (bc - 1) [] with hrb
  set cl2 := cl1.set (bc - 1) (rb ++ [v]) with hcl2
  have hrun : ls_move cl v (col.getD v 0) bc = .ok cl2 := by
    unfold ls_move
    rw [hocm]
    rw [show vec_get cl i = .ok ci from by rw [vec_get_ok]; exact get?_of_lt hi]
    simp only [Res.bind]
    rw [hci] at hfind hsplit herase ⊢
    rw [hfind]
    simp only [opt_unwrap, Res.bind]
    rw [vec_set_ok hi]
    simp only [Res.bind]
    rw [herase]
    rw [show vec_get (cl.set i (l1 ++ l2)) (bc - 1) =
      .ok ((cl.set i (l1 ++ l2)).getD (bc - 1) []) from by
        rw [vec_get_ok]
        refine get?_of_lt ?_
        rw [List.length_set]
        omega]
    simp only [Res.bind]
    rw [vec_set_ok (by rw [List.length_set]; omega)]
  have hvnl : v ∉ l1 ++ l2 := by
    intro hc
    have : ¬ (l1 ++ v :: l2).Nodup := by
      intro hnd
      rw [List.nodup_append] at hnd
      rcases List.mem_append.mp hc with hc1 | hc2
      · exact hnd.2.2 hc1 (List.mem_cons_self v l2)
      · exact (List.nodup_cons.mp hnd.2.1).1 hc2
    rw [← hsplit] at this
    exact this hci_nodup
  have hmem_ci : ∀ u, u ∈ l1 ++ l2 ↔ (u ≠ v ∧ u ∈ ci) := by
    intro u
    constructor
    · intro hu
      refine ⟨fun hc => hvnl (hc ▸ hu), ?_⟩
      rw [hsplit]
      rcases List.mem_append.mp hu with hc | hc
      · exact List.mem_append.mpr (Or.inl hc)
      · exact List.mem_append.mpr (Or.inr (List.mem_cons_of_mem v hc))
    · rintro ⟨hne, hu⟩
      rw [hsplit] at hu
      rcases List.mem_append.mp hu with hc | hc
      · exact List.mem_append.mpr (Or.inl hc)
      · rcases List.mem_cons.mp hc with hc2 | hc2
        · exact absurd hc2 hne
        · exact List.mem_append.mpr (Or.inr hc2)
  have hchar : ∀ j u, u ∈ cl2.getD j [] ↔
      ((u = v ∧ j = bc - 1) ∨ (u ≠ v ∧ u ∈ cl.getD j [])) := by
    intro j u
    by_cases hjlen : j < cl.length
    · by_cases hjb : j = bc - 1
      · subst hjb
        rw [hcl2, getD_set_self _ _ _ _ hbclen]
        rw [List.mem_append, List.mem_singleton]
        constructor
        · rintro (hu | rfl)
          · rw [hrb, hcl1] at hu
            by_cases hji : bc - 1 = i
            · rw [hji, getD_set_self _ _ _ _ (by omega)] at hu
              have := (hmem_ci u).mp hu
              exact Or.inr ⟨this.1, by rw [hji]; exact this.2⟩
            · rw [getD_set_ne _ _ _ _ _ (fun hc => hji hc.symm)] at hu
              right
              refine ⟨?_, hu⟩
              intro hc
              subst hc
              have hj2 : bc - 1 < cl.length := by omega
              exact hji (partition_disjoint hpart hj2 hi hu hvi)
          · exact Or.inl ⟨rfl, rfl⟩
        · rintro (⟨rfl, _⟩ | ⟨hne, hu⟩)
          · exact Or.inr rfl
          · left
            rw [hrb, hcl1]
            by_cases hji : bc - 1 = i
            · rw [hji, getD_set_self _ _ _ _ (by omega)]
              refine (hmem_ci u).mpr ⟨hne, ?_⟩
              rw [hci, ← hji]
              exact hu
            · rw [getD_set_ne _ _ _ _ _ (fun hc => hji hc.symm)]
              exact hu
      · rw [hcl2, getD_set_ne _ _ _ _ _ (fun hc => hjb hc.symm), hcl1]
        by_cases hji : j = i
        · subst hji
          rw [getD_set_self _ _ _ _ hjlen]
          rw [hmem_ci u]
          constructor
          · rintro ⟨hne, hu⟩
            exact Or.inr ⟨hne, hu⟩
          · rintro (⟨rfl, hc⟩ | ⟨hne, hu⟩)
            · exact absurd hc hjb
            · exact ⟨hne, hu⟩
        · rw [getD_set_ne _ _ _ _ _ (fun hc => hji hc.symm)]
          constructor
          · intro hu
            right
            refine ⟨?_, hu⟩
            intro hc
            subst hc
            exact hji (partition_disjoint hpart hjlen hi hu hvi)
          · rintro (⟨rfl, hc⟩ | ⟨hne, hu⟩)
            · exact absurd hc hjb
            · exact hu
    · have h2 : cl2.getD j [] = [] := by
        refine List.getD_eq_default _ _ ?_
        rw [hcl2, List.length_set, hcl1, List.length_set]
        omega
      have h3 : cl.getD j [] = [] := List.getD_eq_default _ _ (by omega)
      rw [h2, h3]
      simp only [List.not_mem_nil, false_iff, iff_false]
      rintro (⟨rfl, hc⟩ | ⟨hne, hc⟩)
      · omega
      · exact hc
  have hflat : (↑cl2.flatten : Multiset ℕ) = ↑cl.flatten := by
    have hp1 := flatten_set_perm cl i (l1 ++ l2) hi
    have hp2 := flatten_set_perm cl1 (bc - 1) (rb ++ [v]) hbclen
    have hm1 : (↑cl1.flatten : Multiset ℕ) + ↑ci = ↑(l1 ++ l2) + ↑cl.flatten := by
      have := Multiset.coe_eq_coe.mpr hp1
      rw [← hcl1, ← hci] at this
      exact this
    have hm2 : (↑cl2.flatten : Multiset ℕ) + ↑rb = (↑rb + {v}) + ↑cl1.flatten := by
      have h := Multiset.coe_eq_coe.mpr hp2
      rw [← hcl2, ← hrb] at h
      exact h
    have hperm_ci : ci.Perm ((l1 ++ l2) ++ [v]) := by
      rw [hsplit]
      have he : l1 ++ v :: l2 = l1 ++ ([v] ++ l2) := rfl
      rw [he]
      refine (List.Perm.append_left l1 List.perm_append_comm).trans ?_
      rw [List.append_assoc]
    have hci_eq : (↑ci : Multiset ℕ) = ↑(l1 ++ l2) + {v} := by
      have h := Multiset.coe_eq_coe.mpr hperm_ci
      exact h
    have hc1 : (↑cl1.flatten : Multiset ℕ) + {v} = ↑cl.flatten := by
      have h := hm1
      rw [hci_eq] at h
      have h5 : (↑cl1.flatten : Multiset ℕ) + (↑(l1 ++ l2) + {v}) =
          (↑cl1.flatten + {v}) + ↑(l1 ++ l2) := by
        rw [add_comm (↑(l1 ++ l2) : Multiset ℕ) ({v} : Multiset ℕ), ← add_assoc]
      have h7 : (↑(l1 ++ l2) : Multiset ℕ) + ↑cl.flatten = ↑cl.flatten + ↑(l1 ++ l2) :=
        add_comm _ _
      rw [h5, h7] at h
      exact add_right_cancel h
    have hc2 : (↑cl2.flatten : Multiset ℕ) = {v} + ↑cl1.flatten := by
      have h := hm2
      have h6 : ((↑rb : Multiset ℕ) + {v}) + ↑cl1.flatten =
          (({v} : Multiset ℕ) + ↑cl1.flatten) + ↑rb := by
        rw [add_assoc, add_comm]
      rw [h6] at h
      exact add_right_cancel h
    rw [hc2, add_comm]
    exact hc1
  have hpart2 : class_partition cl2 n := by
    unfold class_partition
    rw [← Multiset.coe_eq_coe]
    rw [hflat]
    rw [Multiset.coe_eq_coe]
    exact hpart
  obtain ⟨col2, hrun2, hlen2, hval2, hcov2⟩ := get_coloring_partition_spec hpart2
  have hcleq : cl2.length = cl.length := by
    rw [hcl2, List.length_set, hcl1, List.length_set]
  have hcol2 : col2 = col.set v bc := by
    refine list_eq_of_getD (by rw [hlen2, List.length_set, hlen0]) ?_
    intro u hu
    rw [hlen2] at hu
    by_cases huv : u = v
    · subst huv
      have hmem2 : u ∈ cl2.getD (bc - 1) [] := (hchar (bc - 1) u).mpr (Or.inl ⟨rfl, rfl⟩)
      have := hval2 (bc - 1) (by omega) u hmem2
      rw [this, getD_set_self _ _ _ _ (by omega)]
      omega
    · obtain ⟨j, hj, huj⟩ := hcov0 u hu
      have hmem2 : u ∈ cl2.getD j [] := (hchar j u).mpr (Or.inr ⟨huv, huj⟩)
      have := hval2 j (by omega) u hmem2
      rw [this, getD_set_ne _ _ _ _ _ (fun hc => huv hc.symm)]
      exact (hval0 j hj u huj).symm
  refine ⟨cl2, hrun, hcleq, hpart2, ?_, hchar⟩
  rw [hrun2, hcol2]

theorem wb_adj_parts {g : AdjList} (h : g.wb = true) :
    g.adj_list.length = g.num_vertices ∧
    (∀ u v, v ∈ g.adj_list.getD u [] → v < g.num_vertices) ∧
    (∀ u v, (g.adj_list.getD u []).count v = (g.adj_list.getD v []).count u) ∧
    (∀ v, v ∉ g.adj_list.getD v []) := by
  unfold AdjList.wb at h
  simp only [Bool.and_eq_true, beq_iff_eq, List.all_eq_true, List.mem_range,
    decide_eq_true_eq] at h
  obtain ⟨⟨⟨⟨hlen, _⟩, hent⟩, hsym⟩, hloop⟩ := h
  have hrow_oob : ∀ u, g.num_vertices ≤ u → g.adj_list.getD u [] = [] := by
    intro u hu
    exact List.getD_eq_default _ _ (by omega)
  have hent2 : ∀ u v, v ∈ g.adj_list.getD u [] → v < g.num_vertices := by
    intro u v hv
    by_cases hu : u < g.adj_list.length
    · exact hent _ (getD_mem _ _ _ hu) v hv
    · rw [List.getD_eq_default _ _ (Nat.le_of_not_lt hu)] at hv
      simp at hv
  refine ⟨hlen, hent2, ?_, ?_⟩
  · intro u v
    by_cases hu : u < g.num_vertices
    · by_cases hv : v < g.num_vertices
      · exact hsym u hu v hv
      · rw [List.count_eq_zero_of_not_mem (fun hc => hv (hent2 u v hc)),
          hrow_oob v (by omega), List.count_nil]
    · rw [hrow_oob u (by omega), List.count_nil,
        List.count_eq_zero_of_not_mem (fun hc => hu (hent2 v u hc))]
  · intro v
    by_cases hv : v < g.num_vertices
    · have := hloop v hv
      rw [Bool.not_eq_eq_eq_not] at this
      intro hc
      have hcon : (g.adj_list.getD v []).contains v = true := List.elem_eq_true_of_mem hc
      rw [hcon] at this
      simp at this
    · rw [hrow_oob v (by omega)]
      simp

theorem beq_nat_comm (a b : ℕ) : (a == b) = (b == a) := by
  by_cases h : a = b
  · rw [h]
  · rw [beq_eq_false_iff_ne.mpr h, beq_eq_false_iff_ne.mpr (fun hc => h hc.symm)]

theorem cfpv_eq_countP (g : AdjList) (col : List ℕ) (v : ℕ) :
    count_forbidden_per_vertex g col v =
      (g.adj_list.getD v []).countP (fun x => col.getD x 0 == col.getD v 0) := by
  unfold count_forbidden_per_vertex
  rw [List.countP_eq_length_filter]

theorem countP_group (l : List ℕ) (n : ℕ) (p : ℕ → Bool) (hb : ∀ x ∈ l, x < n) :
    l.countP p = ∑ i ∈ Finset.range n, (l.count i) * (if p i then 1 else 0) := by
  induction l with
  | nil => simp
  | cons x rest ih =>
    have hx : x < n := hb x (List.mem_cons_self _ _)
    have hrest := ih (fun a ha => hb a (List.mem_cons_of_mem _ ha))
    rw [List.countP_cons]
    have hcount : ∀ i, (x :: rest).count i = rest.count i + (if x = i then 1 else 0) := by
      intro i
      rw [List.count_cons]
      congr 1
      by_cases hxi : x = i <;> simp [hxi]
    have hsum : ∑ i ∈ Finset.range n, ((x :: rest).count i) * (if p i then 1 else 0) =
        ∑ i ∈ Finset.range n, ((rest.count i) * (if p i then 1 else 0) +
          (if x = i then 1 else 0) * (if p i then 1 else 0)) := by
      refine Finset.sum_congr rfl ?_
      intro i _
      rw [hcount i, Nat.add_mul]
    rw [hsum, Finset.sum_add_distrib, ← hrest]
    have hsingle : ∑ i ∈ Finset.range n, (if x = i then 1 else 0) * (if p i then 1 else 0) =
        if p x then 1 else 0 := by
      rw [Finset.sum_eq_single x]
      · simp
      · intro b _ hb2
        rw [if_neg (fun hc => hb2 hc.symm), Nat.zero_mul]
      · intro hc
        exact absurd (Finset.mem_range.mpr hx) hc
    rw [hsingle]

theorem countP_split_at (l : List ℕ) (v : ℕ) (p : ℕ → Bool) :
    l.countP p = (l.count v) * (if p v then 1 else 0) +
      (l.filter (fun j => !(j == v))).countP p := by
  induction l with
  | nil => simp
  | cons x rest ih =>
    by_cases hx : x = v
    · subst hx
      simp only [List.countP_cons, List.count_cons, List.filter_cons, beq_self_eq_true,
        Bool.not_true, Bool.false_eq_true, if_false, if_true]
      rw [ih]
      by_cases hp : p x <;> simp only [hp, if_true, if_false, Bool.false_eq_true] <;> omega
    · have hne : (x == v) = false := beq_eq_false_iff_ne.mpr hx
      have hne2 : (v == x) = false := beq_eq_false_iff_ne.mpr (fun hc => hx hc.symm)
      simp only [List.countP_cons, List.count_cons, List.filter_cons, hne, hne2,
        Bool.not_false, Bool.false_eq_true, if_false, if_true, Nat.add_zero, List.countP_cons]
      rw [ih]
      omega

theorem countP_congr_eq {l : List ℕ} {p q : ℕ → Bool} (h : ∀ a ∈ l, p a = q a) :
    l.countP p = l.countP q :=
  List.countP_congr (fun a ha => by rw [h a ha])

theorem cfpv_set_other (g : AdjList) (col : List ℕ) (v bc i : ℕ) (hvi : i ≠ v)
    (hv : v < col.length) :
    count_forbidden_per_vertex g (col.set v bc) i +
      (g.adj_list.getD i []).count v *
        (if col.getD i 0 == col.getD v 0 then 1 else 0) =
    count_forbidden_per_vertex g col i +
      (g.adj_list.getD i []).count v * (if col.getD i 0 == bc then 1 else 0) := by
  have hvi2 : v ≠ i := fun hc => hvi hc.symm
  rw [cfpv_eq_countP, cfpv_eq_countP]
  simp only [getD_set_ne col v i bc 0 hvi2]
  rw [countP_split_at (g.adj_list.getD i []) v
      (fun x => (col.set v bc).getD x 0 == col.getD i 0),
    countP_split_at (g.adj_list.getD i []) v (fun x => col.getD x 0 == col.getD i 0)]
  have hfilter :
      ((g.adj_list.getD i []).filter (fun j => !(j == v))).countP
        (fun x => (col.set v bc).getD x 0 == col.getD i 0) =
      ((g.adj_list.getD i []).filter (fun j => !(j == v))).countP
        (fun x => col.getD x 0 == col.getD i 0) := by
    refine countP_congr_eq ?_
    intro a ha
    have hav : a ≠ v := by
      have := (List.mem_filter.mp ha).2
      simpa using this
    rw [getD_set_ne col v a bc 0 (fun hc => hav hc.symm)]
  rw [hfilter]
  have hsv : ((col.set v bc).getD v 0 == col.getD i 0) = (bc == col.getD i 0) := by
    rw [getD_set_self col v bc 0 hv]
  simp only [hsv, beq_nat_comm bc (col.getD i 0),
    beq_nat_comm (col.getD v 0) (col.getD i 0)]
  ring

theorem cfpv_set_self (g : AdjList) (col : List ℕ) (v bc : ℕ)
    (hself : v ∉ g.adj_list.getD v []) (hv : v < col.length) :
    count_forbidden_per_vertex g (col.set v bc) v =
      (g.adj_list.getD v []).countP (fun j => col.getD j 0 == bc) := by
  rw [cfpv_eq_countP]
  refine countP_congr_eq ?_
  intro a ha
  have hav : a ≠ v := fun hc => hself (hc ▸ ha)
  rw [getD_set_ne col v a bc 0 (fun hc => hav hc.symm), getD_set_self col v bc 0 hv]

theorem cfpv_row_as_sum (g : AdjList) (col : List ℕ) (v c : ℕ) (hwb : g.wb = true) :
    (g.adj_list.getD v []).countP (fun j => col.getD j 0 == c) =
      ∑ i ∈ Finset.range g.adj_list.length,
        (g.adj_list.getD i []).count v * (if col.getD i 0 == c then 1 else 0) := by
  obtain ⟨hlen, hent, hsym, hloop⟩ := wb_adj_parts hwb
  rw [countP_group (g.adj_list.getD v []) g.adj_list.length _ ?hb]
  · refine Finset.sum_congr rfl ?_
    intro i _
    rw [hsym v i]
  case hb =>
    intro x hx
    rw [hlen]
    exact hent v x hx

theorem dir_conflicts_exchange (g : AdjList) (col : List ℕ) (v bc : ℕ)
    (hwb : g.wb = true) (hv : v < col.length) (hvn : v < g.adj_list.length) :
    dir_conflicts g (col.set v bc) + 2 * count_forbidden_per_vertex g col v =
      dir_conflicts g col + 2 * count_forbidden_per_vertex g (col.set v bc) v := by
  obtain ⟨hlen, hent, hsym, hloop⟩ := wb_adj_parts hwb
  have hmem : v ∈ Finset.range g.adj_list.length := Finset.mem_range.mpr hvn
  have hpt : ∀ i ∈ (Finset.range g.adj_list.length).erase v,
      count_forbidden_per_vertex g (col.set v bc) i +
        (g.adj_list.getD i []).count v *
          (if col.getD i 0 == col.getD v 0 then 1 else 0) =
      count_forbidden_per_vertex g col i +
        (g.adj_list.getD i []).count v * (if col.getD i 0 == bc then 1 else 0) := by
    intro i hi
    exact cfpv_set_other g col v bc i (Finset.mem_erase.mp hi).1 hv
  have hsum := Finset.sum_congr rfl hpt
  rw [Finset.sum_add_distrib, Finset.sum_add_distrib] at hsum
  have hzero : (g.adj_list.getD v []).count v = 0 := List.count_eq_zero.mpr (hloop v)
  have hrow : ∀ c : ℕ,
      ∑ i ∈ (Finset.range g.adj_list.length).erase v,
        (g.adj_list.getD i []).count v * (if col.getD i 0 == c then 1 else 0) =
      (g.adj_list.getD v []).countP (fun j => col.getD j 0 == c) := by
    intro c
    rw [cfpv_row_as_sum g col v c hwb, ← Finset.sum_erase_add _ _ hmem, hzero,
      Nat.zero_mul, Nat.add_zero]
  rw [hrow (col.getD v 0), hrow bc] at hsum
  have hdir1 : dir_conflicts g (col.set v bc) =
      ∑ i ∈ (Finset.range g.adj_list.length).erase v,
        count_forbidden_per_vertex g (col.set v bc) i +
        count_forbidden_per_vertex g (col.set v bc) v :=
    (Finset.sum_erase_add _ _ hmem).symm
  have hdir2 : dir_conflicts g col =
      ∑ i ∈ (Finset.range g.adj_list.length).erase v,
        count_forbidden_per_vertex g col i +
        count_forbidden_per_vertex g col v :=
    (Finset.sum_erase_add _ _ hmem).symm
  have hva : count_forbidden_per_vertex g (col.set v bc) v =
      (g.adj_list.getD v []).countP (fun j => col.getD j 0 == bc) :=
    cfpv_set_self g col v bc (hloop v) hv
  have hvb : count_forbidden_per_vertex g col v =
      (g.adj_list.getD v []).countP (fun x => col.getD x 0 == col.getD v 0) :=
    cfpv_eq_countP g col v
  rw [hdir1, hdir2, hva, hvb]
  omega

theorem insert_unique_mem (l : List ℕ) (x y : ℕ) :
    y ∈ insert_unique l x ↔ y ∈ l ∨ y = x := by
  unfold insert_unique
  by_cases h : l.contains x
  · simp only [h, if_true]
    constructor
    · exact Or.inl
    · rintro (hy | rfl)
      · exact hy
      · exact List.mem_of_elem_eq_true h
  · simp only [h, Bool.false_eq_true, if_false, List.mem_append, List.mem_singleton]

theorem gf_inner_count (col : List ℕ) (i : ℕ) (row : List ℕ) :
    ∀ cs : ℕ × List ℕ,
    (gf_inner col i row cs).1 =
      cs.1 + row.countP (fun j => col.getD j 0 == col.getD i 0) := by
  induction row with
  | nil =>
    intro cs
    simp [gf_inner]
  | cons j rest ih =>
    intro cs
    rw [List.countP_cons]
    by_cases h : col.getD i 0 = col.getD j 0
    · rw [gf_inner, if_pos h, ih]
      have hb : (col.getD j 0 == col.getD i 0) = true := beq_iff_eq.mpr h.symm
      rw [hb]
      simp only [if_true]
      omega
    · rw [gf_inner, if_neg h, ih]
      have hb : (col.getD j 0 == col.getD i 0) = false :=
        beq_eq_false_iff_ne.mpr (fun hc => h hc.symm)
      rw [hb]
      simp only [Bool.false_eq_true, if_false]
      omega

theorem gf_inner_sub (col : List ℕ) (i : ℕ) (row : List ℕ) :
    ∀ cs : ℕ × List ℕ, ∀ y ∈ (gf_inner col i row cs).2,
      y ∈ cs.2 ∨ y = i ∨ y ∈ row := by
  induction row with
  | nil =>
    intro cs y hy
    exact Or.inl hy
  | cons j rest ih =>
    intro cs y hy
    by_cases h : col.getD i 0 = col.getD j 0
    · rw [gf_inner, if_pos h] at hy
      rcases ih _ y hy with hmem | hi | hrest
      · rcases (insert_unique_mem _ j y).mp hmem with hmem2 | hj
        · rcases (insert_unique_mem _ i y).mp hmem2 with hmem3 | hi
          · exact Or.inl hmem3
          · exact Or.inr (Or.inl hi)
        · exact Or.inr (Or.inr (hj ▸ List.mem_cons_self j rest))
      · exact Or.inr (Or.inl hi)
      · exact Or.inr (Or.inr (List.mem_cons_of_mem j hrest))
    · rw [gf_inner, if_neg h] at hy
      rcases ih _ y hy with hmem | hi | hrest
      · exact Or.inl hmem
      · exact Or.inr (Or.inl hi)
      · exact Or.inr (Or.inr (List.mem_cons_of_mem j hrest))

theorem gf_outer_count (col : List ℕ) (rows : List (List ℕ)) :
    ∀ (k : ℕ) (cs : ℕ × List ℕ),
    (gf_outer col (enum_from k rows) cs).1 =
      cs.1 + ∑ i ∈ Finset.range rows.length,
        (rows.getD i []).countP (fun j => col.getD j 0 == col.getD (k + i) 0) := by
  induction rows with
  | nil =>
    intro k cs
    simp [enum_from, gf_outer]
  | cons r rest ih =>
    intro k cs
    rw [enum_from, gf_outer, ih (k + 1), gf_inner_count]
    rw [List.length_cons, Finset.sum_range_succ']
    have h0 : (r :: rest).getD 0 [] = r := rfl
    have hk0 : k + 0 = k := rfl
    have hstep : ∀ i, (r :: rest).getD (i + 1) [] = rest.getD i [] := fun i => rfl
    have hidx : ∀ i, k + (i + 1) = (k + 1) + i := fun i => by omega
    have hsum : ∑ i ∈ Finset.range rest.length,
        ((r :: rest).getD (i + 1) []).countP
          (fun j => col.getD j 0 == col.getD (k + (i + 1)) 0) =
        ∑ i ∈ Finset.range rest.length,
        (rest.getD i []).countP (fun j => col.getD j 0 == col.getD ((k + 1) + i) 0) := by
      refine Finset.sum_congr rfl ?_
      intro i _
      rw [hstep i, hidx i]
    rw [hsum, h0, hk0]
    omega

theorem gf_outer_sub (col : List ℕ) (pairs : List (ℕ × List ℕ)) :
    ∀ cs : ℕ × List ℕ, ∀ y ∈ (gf_outer col pairs cs).2,
      y ∈ cs.2 ∨ ∃ p ∈ pairs, y = p.1 ∨ y ∈ p.2 := by
  induction pairs with
  | nil =>
    intro cs y hy
    exact Or.inl hy
  | cons p rest ih =>
    intro cs y hy
    rw [gf_outer] at hy
    rcases ih _ y hy with hmem | ⟨q, hq, hyq⟩
    · rcases gf_inner_sub col p.1 p.2 cs y hmem with hcs | hi | hrow
      · exact Or.inl hcs
      · exact Or.inr ⟨p, List.mem_cons_self p rest, Or.inl hi⟩
      · exact Or.inr ⟨p, List.mem_cons_self p rest, Or.inr hrow⟩
    · exact Or.inr ⟨q, List.mem_cons_of_mem p hq, hyq⟩

theorem gf_spec (g : AdjList) (cl : List (List ℕ)) (col : List ℕ)
    (hcol : get_coloring_from_class_list g.num_vertices cl = .ok col) :
    get_forbidden_vertices g cl = .ok (dir_conflicts g col / 2,
      (gf_outer col (enum_from 0 g.adj_list) (0, [])).2) := by
  unfold get_forbidden_vertices
  rw [hcol]
  have hcount := gf_outer_count col g.adj_list 0 (0, [])
  simp only [Nat.zero_add] at hcount
  have hdir : dir_conflicts g col = (gf_outer col (enum_from 0 g.adj_list) (0, [])).1 := by
    rw [hcount]
    unfold dir_conflicts
    refine Finset.sum_congr rfl ?_
    intro i _
    rw [cfpv_eq_countP]
  show Res.ok _ = _
  rw [← hdir]

theorem gf_ok_parts {g : AdjList} {cl : List (List ℕ)} {fc : ℕ} {fvs : List ℕ}
    (hgf : get_forbidden_vertices g cl = .ok (fc, fvs)) :
    ∃ col, get_coloring_from_class_list g.num_vertices cl = .ok col ∧
      fc = dir_conflicts g col / 2 ∧
      fvs = (gf_outer col (enum_from 0 g.adj_list) (0, [])).2 := by
  have hb := hgf
  unfold get_forbidden_vertices at hb
  obtain ⟨col, hcol, _⟩ := res_bind_ok hb
  have hspec := gf_spec g cl col hcol
  rw [hgf] at hspec
  injection hspec with h2
  refine ⟨col, hcol, ?_, ?_⟩
  · exact (congrArg Prod.fst h2)
  · exact (congrArg Prod.snd h2)

theorem gf_fvs_bound {g : AdjList} {cl : List (List ℕ)} {fc : ℕ} {fvs : List ℕ}
    (hwb : g.wb = true) (hgf : get_forbidden_vertices g cl = .ok (fc, fvs)) :
    ∀ y ∈ fvs, y < g.num_vertices := by
  obtain ⟨hlen, hent, _, _⟩ := wb_adj_parts hwb
  obtain ⟨col, hcol, hfc, hfvs⟩ := gf_ok_parts hgf
  intro y hy
  rw [hfvs] at hy
  rcases gf_outer_sub col _ _ y hy with hnil | ⟨p, hp, hyp⟩
  · simp at hnil
  · obtain ⟨j, hget, hfst⟩ := enum_from_mem hp
    have hjl : j < g.adj_list.length := (List.get?_eq_some.mp hget).1
    rcases hyp with rfl | hyrow
    · omega
    · have hrow : g.adj_list.getD p.1 [] = p.2 := by
        rw [List.getD_eq_getElem?_getD, ← List.get?_eq_getElem?, hfst, Nat.zero_add, hget]
        rfl
      exact hent p.1 y (hrow ▸ hyrow)

theorem rchoose_mem {α : Type} {l : List α} {r : ℕ} {a : α}
    (h : rchoose l r = some a) : a ∈ l := by
  unfold rchoose at h
  exact List.get?_mem h

theorem ls_best_le (graph : AdjList) (col : List ℕ) (v : ℕ) (l : List ℕ) :
    ∀ bb : ℕ × ℕ, (ls_best graph col v l bb).1 ≤ bb.1 := by
  induction l with
  | nil =>
    intro bb
    exact Nat.le_refl _
  | cons i rest ih =>
    intro bb
    rw [ls_best]
    split
    · exact Nat.le_of_lt (Nat.lt_of_le_of_lt (ih _) (by assumption))
    · exact ih bb

theorem ls_best_cases (graph : AdjList) (col : List ℕ) (v : ℕ) (l : List ℕ) :
    ∀ bb : ℕ × ℕ,
    ls_best graph col v l bb = bb ∨
    ∃ i ∈ l, (ls_best graph col v l bb).1 =
        count_forbidden_per_vertex graph (col.set v i) v ∧
      (ls_best graph col v l bb).2 = i := by
  induction l with
  | nil =>
    intro bb
    exact Or.inl rfl
  | cons i rest ih =>
    intro bb
    rw [ls_best]
    split
    · rcases ih (count_forbidden_per_vertex graph (col.set v i) v, i) with heq | ⟨i2, hi2, h1, h2⟩
      · exact Or.inr ⟨i, List.mem_cons_self i rest, by rw [heq], by rw [heq]⟩
      · exact Or.inr ⟨i2, List.mem_cons_of_mem i hi2, h1, h2⟩
    · rcases ih bb with heq | ⟨i2, hi2, h1, h2⟩
      · exact Or.inl heq
      · exact Or.inr ⟨i2, List.mem_cons_of_mem i hi2, h1, h2⟩

theorem ls_loop_invariant (graph : AdjList) (rng : ℕ → ℕ) (hwb : graph.wb = true) :
    ∀ (fuel fc : ℕ) (fvs : List ℕ) (cl : List (List ℕ)) (ceil ni k : ℕ)
      (r : ℕ × List (List ℕ) × ℕ),
      class_partition cl graph.num_vertices →
      get_forbidden_vertices graph cl = .ok (fc, fvs) →
      ls_loop graph rng fuel fc fvs cl ceil ni k = .ok r →
      r.1 ≤ fc ∧ r.2.1.length = cl.length ∧ class_partition r.2.1 graph.num_vertices := by
  intro fuel
  induction fuel with
  | zero =>
    intro fc fvs cl ceil ni k r hpart hgf h
    simp [ls_loop] at h
  | succ fuel ih =>
    intro fc fvs cl ceil ni k r hpart hgf h
    by_cases hcond : fc > 0 ∧ ni < ceil
    · simp only [ls_loop, if_pos hcond] at h
      cases hch : rchoose fvs (rng k) with
      | none => simp [hch] at h
      | some v =>
        simp only [hch] at h
        obtain ⟨col, hcol, hclen, hval, hcov⟩ := get_coloring_partition_spec hpart
        simp only [hcol, Res.bind] at h
        set orig := count_forbidden_per_vertex graph col v with horig
        set bb := ls_best graph col v (List.range' 1 cl.length) (orig, col.getD v 0) with hbb
        by_cases himp : bb.1 < orig
        · rw [if_pos himp] at h
          have hvn : v < graph.num_vertices := gf_fvs_bound hwb hgf v (rchoose_mem hch)
          rcases ls_best_cases graph col v (List.range' 1 cl.length) (orig, col.getD v 0)
            with heq | ⟨i, hi, h1, h2⟩
          · rw [← hbb] at heq
            rw [heq] at himp
            exact absurd himp (Nat.lt_irrefl orig)
          · rw [← hbb] at h1 h2
            obtain ⟨hi1, hi2⟩ := List.mem_range'_1.mp hi
            have hbc1 : 1 ≤ bb.2 := by omega
            have hbc2 : bb.2 ≤ cl.length := by omega
            obtain ⟨cl2, hmv, hlen2, hpart2, hcol2, hmemc⟩ :=
              ls_move_spec hpart hcol hvn hbc1 hbc2
            rw [hmv] at h
            simp only [Res.bind] at h
            have hgf2 := gf_spec graph cl2 (col.set v bb.2) hcol2
            rw [hgf2] at h
            simp only [Res.bind] at h
            obtain ⟨hr1, hr2, hr3⟩ := ih _ _ cl2 ceil 0 (k + 1) r hpart2 hgf2 h
            refine ⟨?_, by rw [hr2, hlen2], hr3⟩
            obtain ⟨colx, hcolx, hfc, _⟩ := gf_ok_parts hgf
            rw [hcol] at hcolx
            injection hcolx with hcolx
            subst hcolx
            have hvcl : v < col.length := by omega
            have hvadj : v < graph.adj_list.length := by
              rw [(wb_adj_parts hwb).1]
              exact hvn
            have hex := dir_conflicts_exchange graph col v bb.2 hwb hvcl hvadj
            rw [← h2] at h1
            have hle : dir_conflicts graph (col.set v bb.2) ≤ dir_conflicts graph col := by
              omega
            have hdiv := Nat.div_le_div_right (c := 2) hle
            omega
        · rw [if_neg himp] at h
          exact ih fc fvs cl ceil (ni + 1) (k + 1) r hpart hgf h
    · simp only [ls_loop, if_neg hcond] at h
      injection h with h2
      rw [← h2]
      exact ⟨Nat.le_refl fc, rfl, hpart⟩

/-- C5: across local_search's internal iterations — for every graph,
input class list and random stream — the forbidden-edge count of the
working class list never increases from one iteration to the next (every
iteration of the while loop yields a count at most the one it started
with, and the final count is at most the initial one), and the class
count of local_search's output equals, hence is at most, the class count
of its input. -/
theorem c5_local_search_monotone (graph : AdjList) (rng : ℕ → ℕ)
    (hwb : graph.wb = true) :
    (∀ fuel fc fvs cl ceil ni k r,
      class_partition cl graph.num_vertices →
      get_forbidden_vertices graph cl = .ok (fc, fvs) →
      ls_loop graph rng fuel fc fvs cl ceil ni k = .ok r →
      r.1 ≤ fc ∧ r.2.1.length = cl.length) ∧
    (∀ cl k fuel r, class_partition cl graph.num_vertices →
      local_search graph cl rng k fuel = .ok r → r.2.1.length ≤ cl.length) := by
  constructor
  · intro fuel fc fvs cl ceil ni k r hpart hgf h
    obtain ⟨h1, h2, _⟩ :=
      ls_loop_invariant graph rng hwb fuel fc fvs cl ceil ni k r hpart hgf h
    exact ⟨h1, h2⟩
  · intro cl k fuel r hpart h
    unfold local_search at h
    obtain ⟨fcs, hfcs, h2⟩ := res_bind_ok h
    obtain ⟨_, hlen, _⟩ := ls_loop_invariant graph rng hwb fuel fcs.1 fcs.2 cl
      (2 * fcs.1) 0 k r hpart hfcs h2
    exact Nat.le_of_eq hlen

theorem c5_witness_eval : (2 : ℕ) ≤ 2 :=
  (c5_local_search_monotone k2adj (fun _ => 0) (by decide)).2 [[0], [1]] 0 5
    (0, [[0], [1]], 0) (by unfold class_partition; decide) (by rfl)

theorem ls_loop_total (graph : AdjList) (rng : ℕ → ℕ) (hwb : graph.wb = true) :
    ∀ (m fc : ℕ) (fvs : List ℕ) (cl : List (List ℕ)) (ceil ni k : ℕ),
      fc * (ceil + 1) + (ceil - ni) ≤ m →
      class_partition cl graph.num_vertices →
      get_forbidden_vertices graph cl = .ok (fc, fvs) →
      ∃ f, ls_loop graph rng f fc fvs cl ceil ni k ≠ .out := by
  intro m
  induction m with
  | zero =>
    intro fc fvs cl ceil ni k hm hpart hgf
    have hfc : fc = 0 := by
      have h1 : fc * (ceil + 1) = 0 := by omega
      rcases Nat.mul_eq_zero.mp h1 with h | h
      · exact h
      · omega
    refine ⟨1, ?_⟩
    intro hcontra
    rw [ls_loop, if_neg (by omega : ¬ (fc > 0 ∧ ni < ceil))] at hcontra
    exact Res.noConfusion hcontra
  | succ m ih =>
    intro fc fvs cl ceil ni k hm hpart hgf
    by_cases hcond : fc > 0 ∧ ni < ceil
    · cases hch : rchoose fvs (rng k) with
      | none =>
        refine ⟨1, ?_⟩
        intro hcontra
        simp only [ls_loop, if_pos hcond, hch] at hcontra
        exact Res.noConfusion hcontra
      | some v =>
        obtain ⟨col, hcol, hclen, hval, hcov⟩ := get_coloring_partition_spec hpart
        set orig := count_forbidden_per_vertex graph col v with horig
        set bb := ls_best graph col v (List.range' 1 cl.length) (orig, col.getD v 0) with hbb
        by_cases himp : bb.1 < orig
        · have hvn : v < graph.num_vertices := gf_fvs_bound hwb hgf v (rchoose_mem hch)
          rcases ls_best_cases graph col v (List.range' 1 cl.length) (orig, col.getD v 0)
            with heq | ⟨i, hi, h1, h2⟩
          · rw [← hbb] at heq
            rw [heq] at himp
            exact absurd himp (Nat.lt_irrefl orig)
          · rw [← hbb] at h1 h2
            obtain ⟨hi1, hi2⟩ := List.mem_range'_1.mp hi
            have hbc1 : 1 ≤ bb.2 := by omega
            have hbc2 : bb.2 ≤ cl.length := by omega
            obtain ⟨cl2, hmv, hlen2, hpart2, hcol2, hmemc⟩ :=
              ls_move_spec hpart hcol hvn hbc1 hbc2
            have hgf2 := gf_spec graph cl2 (col.set v bb.2) hcol2
            have hstep : ∀ f, ls_loop graph rng (f + 1) fc fvs cl ceil ni k =
                ls_loop graph rng f (dir_conflicts graph (col.set v bb.2) / 2)
                  ((gf_outer (col.set v bb.2) (enum_from 0 graph.adj_list) (0, [])).2)
                  cl2 ceil 0 (k + 1) := by
              intro f
              simp only [ls_loop, if_pos hcond, hch, hcol, Res.bind]
              rw [if_pos himp, hmv]
              simp only [Res.bind]
              rw [hgf2]
            have hfcle : dir_conflicts graph (col.set v bb.2) / 2 + 1 ≤ fc := by
              obtain ⟨colx, hcolx, hfc, _⟩ := gf_ok_parts hgf
              rw [hcol] at hcolx
              injection hcolx with hcolx
              subst hcolx
              have hvcl : v < col.length := by omega
              have hvadj : v < graph.adj_list.length := by
                rw [(wb_adj_parts hwb).1]
                exact hvn
              have hex := dir_conflicts_exchange graph col v bb.2 hwb hvcl hvadj
              rw [← h2] at h1
              omega
            have hmeas : (dir_conflicts graph (col.set v bb.2) / 2) * (ceil + 1) +
                (ceil - 0) ≤ m := by
              have hmul : (dir_conflicts graph (col.set v bb.2) / 2) * (ceil + 1) ≤
                  (fc - 1) * (ceil + 1) :=
                Nat.mul_le_mul_right (ceil + 1) (by omega)
              rw [Nat.sub_mul] at hmul
              have hfcpos : 1 * (ceil + 1) ≤ fc * (ceil + 1) :=
                Nat.mul_le_mul_right (ceil + 1) (by omega)
              rw [Nat.one_mul] at hfcpos
              omega
            obtain ⟨f2, hf2⟩ := ih (dir_conflicts graph (col.set v bb.2) / 2)
              ((gf_outer (col.set v bb.2) (enum_from 0 graph.adj_list) (0, [])).2)
              cl2 ceil 0 (k + 1) hmeas hpart2 hgf2
            refine ⟨f2 + 1, ?_⟩
            rw [hstep f2]
            exact hf2
        · have hstep : ∀ f, ls_loop graph rng (f + 1) fc fvs cl ceil ni k =
              ls_loop graph rng f fc fvs cl ceil (ni + 1) (k + 1) := by
            intro f
            simp only [ls_loop, if_pos hcond, hch, hcol, Res.bind]
            rw [if_neg himp]
          have hmeas : fc * (ceil + 1) + (ceil - (ni + 1)) ≤ m := by omega
          obtain ⟨f2, hf2⟩ := ih fc fvs cl ceil (ni + 1) (k + 1) hmeas hpart hgf
          refine ⟨f2 + 1, ?_⟩
          rw [hstep f2]
          exact hf2
    · refine ⟨1, ?_⟩
      intro hcontra
      rw [ls_loop, if_neg hcond] at hcontra
      exact Res.noConfusion hcontra

theorem local_search_total (graph : AdjList) (cl : List (List ℕ)) (rng : ℕ → ℕ)
    (k : ℕ) (hwb : graph.wb = true)
    (hpart : class_partition cl graph.num_vertices) :
    ∃ f, local_search graph cl rng k f ≠ .out := by
  obtain ⟨col, hcol, _, _, _⟩ := get_coloring_partition_spec hpart
  have hgf := gf_spec graph cl col hcol
  obtain ⟨f, hf⟩ := ls_loop_total graph rng hwb
    ((dir_conflicts graph col / 2) * (2 * (dir_conflicts graph col / 2) + 1) +
      (2 * (dir_conflicts graph col / 2) - 0))
    (dir_conflicts graph col / 2)
    ((gf_outer col (enum_from 0 graph.adj_list) (0, [])).2) cl
    (2 * (dir_conflicts graph col / 2)) 0 k (Nat.le_refl _) hpart hgf
  refine ⟨f, ?_⟩
  unfold local_search
  rw [hgf]
  simp only [Res.bind]
  exact hf

theorem ls_loop_single (graph : AdjList) (rng : ℕ → ℕ) (hwb : graph.wb = true) :
    ∀ (f fc : ℕ) (fvs : List ℕ) (cl : List (List ℕ)) (ceil ni k : ℕ)
      (r : ℕ × List (List ℕ) × ℕ),
      cl.length = 1 →
      class_partition cl graph.num_vertices →
      get_forbidden_vertices graph cl = .ok (fc, fvs) →
      ls_loop graph rng f fc fvs cl ceil ni k = .ok r →
      r.1 = fc := by
  intro f
  induction f with
  | zero =>
    intro fc fvs cl ceil ni k r hlen1 hpart hgf h
    simp [ls_loop] at h
  | succ f ih =>
    intro fc fvs cl ceil ni k r hlen1 hpart hgf h
    by_cases hcond : fc > 0 ∧ ni < ceil
    · simp only [ls_loop, if_pos hcond] at h
      cases hch : rchoose fvs (rng k) with
      | none => simp [hch] at h
      | some v =>
        simp only [hch] at h
        obtain ⟨col, hcol, hclen, hval, hcov⟩ := get_coloring_partition_spec hpart
        simp only [hcol, Res.bind] at h
        set orig := count_forbidden_per_vertex graph col v with horig
        set bb := ls_best graph col v (List.range' 1 cl.length) (orig, col.getD v 0) with hbb
        by_cases himp : bb.1 < orig
        · exfalso
          have hvn : v < graph.num_vertices := gf_fvs_bound hwb hgf v (rchoose_mem hch)
          have hcv : col.getD v 0 = 1 := by
            have := coloring_range hpart hcol v hvn
            omega
          have hgd : ∀ x, (col.set v 1).getD x 0 = col.getD x 0 := by
            intro x
            rw [getD_set]
            split
            · rename_i hx
              rw [← hx.1, hcv]
            · rfl
          have hsame : count_forbidden_per_vertex graph (col.set v 1) v = orig := by
            rw [horig, cfpv_eq_countP, cfpv_eq_countP]
            refine countP_congr_eq ?_
            intro a _
            rw [hgd a, hgd v]
          rcases ls_best_cases graph col v (List.range' 1 cl.length) (orig, col.getD v 0)
            with heq | ⟨i, hi, h1, h2⟩
          · rw [← hbb] at heq
            rw [heq] at himp
            exact Nat.lt_irrefl orig himp
          · rw [← hbb] at h1 h2
            rw [hlen1] at hi
            have : i = 1 := by
              obtain ⟨ha, hb⟩ := List.mem_range'_1.mp hi
              omega
            subst this
            rw [h1, hsame] at himp
            exact Nat.lt_irrefl orig himp
        · rw [if_neg himp] at h
          exact ih fc fvs cl ceil (ni + 1) (k + 1) r hlen1 hpart hgf h
    · simp only [ls_loop, if_neg hcond] at h
      injection h with h2
      rw [← h2]

theorem gf_single_pos (g : AdjList) (hwb : g.wb = true) {u v : ℕ}
    (hedge : v ∈ g.adj_list.getD u []) {cl : List (List ℕ)} (hlen1 : cl.length = 1)
    (hpart : class_partition cl g.num_vertices) {fc : ℕ} {fvs : List ℕ}
    (hgf : get_forbidden_vertices g cl = .ok (fc, fvs)) : 1 ≤ fc := by
  obtain ⟨hlen, hent, hsym, hloop⟩ := wb_adj_parts hwb
  obtain ⟨col, hcol, hfc, _⟩ := gf_ok_parts hgf
  have hun : u < g.num_vertices := by
    by_contra hc
    have hnil : g.adj_list.getD u [] = [] :=
      List.getD_eq_default g.adj_list [] (by omega)
    rw [hnil] at hedge
    exact List.not_mem_nil v hedge
  have hvn : v < g.num_vertices := hent u v hedge
  have huv : u ≠ v := by
    intro hc
    subst hc
    exact hloop u hedge
  have hcu : col.getD u 0 = 1 := by
    have := coloring_range hpart hcol u hun
    omega
  have hcv : col.getD v 0 = 1 := by
    have := coloring_range hpart hcol v hvn
    omega
  have hcount_u : 1 ≤ (g.adj_list.getD u []).count v := List.one_le_count_iff.mpr hedge
  have hcf_u : 1 ≤ count_forbidden_per_vertex g col u := by
    rw [cfpv_eq_countP, countP_split_at _ v]
    have hb : (col.getD v 0 == col.getD u 0) = true := beq_iff_eq.mpr (by rw [hcu, hcv])
    rw [hb]
    simp only [if_true]
    omega
  have hcf_v : 1 ≤ count_forbidden_per_vertex g col v := by
    rw [cfpv_eq_countP, countP_split_at _ u]
    have hc2 : 1 ≤ (g.adj_list.getD v []).count u := by
      rw [hsym v u]
      exact hcount_u
    have hb : (col.getD u 0 == col.getD v 0) = true := beq_iff_eq.mpr (by rw [hcu, hcv])
    rw [hb]
    simp only [if_true]
    omega
  have hsub : ({u, v} : Finset ℕ) ⊆ Finset.range g.adj_list.length := by
    intro x hx
    rw [Finset.mem_insert, Finset.mem_singleton] at hx
    rw [Finset.mem_range, hlen]
    rcases hx with rfl | rfl
    · exact hun
    · exact hvn
  have hdir : count_forbidden_per_vertex g col u + count_forbidden_per_vertex g col v ≤
      dir_conflicts g col := by
    have hss := Finset.sum_le_sum_of_subset hsub (f := count_forbidden_per_vertex g col)
    rw [Finset.sum_pair huv] at hss
    exact hss
  omega

theorem enum_from_map_fst {α : Type} (l : List α) (k : ℕ) :
    (enum_from k l).map Prod.fst = List.range' k l.length := by
  induction l generalizing k with
  | nil => rfl
  | cons a rest ih => simp [enum_from, ih, List.range']

theorem enum_filter_eq_single (cl : List (List ℕ)) :
    ∀ (k j : ℕ), k ≤ j → j < k + cl.length →
    (enum_from k cl).filter (fun p => p.1 == j) = [(j, cl.getD (j - k) [])] := by
  induction cl with
  | nil =>
    intro k j h1 h2
    simp at h2
    omega
  | cons c rest ih =>
    intro k j h1 h2
    rw [enum_from, List.filter_cons]
    by_cases hkj : k = j
    · subst hkj
      have hhead : (((k, c) : ℕ × List ℕ).1 == k) = true := beq_iff_eq.mpr rfl
      rw [hhead]
      simp only [if_true]
      have hrest : (enum_from (k + 1) rest).filter (fun p => p.1 == k) = [] := by
        refine List.filter_eq_nil_iff.mpr ?_
        intro p hp
        obtain ⟨j2, _, hfst⟩ := enum_from_mem hp
        intro hc
        have := beq_iff_eq.mp hc
        omega
      rw [hrest, Nat.sub_self]
      rfl
    · have hhead : (((k, c) : ℕ × List ℕ).1 == j) = false := beq_eq_false_iff_ne.mpr hkj
      rw [hhead]
      simp only [Bool.false_eq_true, if_false]
      have hrec := ih (k + 1) j (by omega) (by simp at h2 ⊢; omega)
      rw [hrec]
      have : j - k = (j - (k + 1)) + 1 := by omega
      rw [this]
      rfl

theorem filter_or_disjoint_perm {α : Type} (q1 q2 : α → Bool)
    (hdisj : ∀ a, ¬ (q1 a = true ∧ q2 a = true)) :
    ∀ l : List α, (l.filter (fun a => q1 a || q2 a)).Perm (l.filter q1 ++ l.filter q2) := by
  intro l
  induction l with
  | nil => simp
  | cons x rest ih =>
    simp only [List.filter_cons]
    cases h1 : q1 x with
    | true =>
      have h2 : q2 x = false := by
        cases h2 : q2 x
        · rfl
        · exact absurd ⟨h1, h2⟩ (hdisj x)
      rw [h2]
      simp
      exact ih
    | false =>
      cases h2 : q2 x with
      | true =>
        simp
        exact (ih.cons x).trans (List.perm_middle.symm)
      | false =>
        simp
        exact ih

theorem build_new_classes_eq {sl : List ℕ} {s0 s1 : ℕ}
    (hs0 : sl.get? 0 = some s0) (hs1 : sl.get? 1 = some s1) :
    ∀ (pairs : List (ℕ × List ℕ)) (acc : List (List ℕ)),
    build_new_classes sl pairs acc =
      .ok (acc ++ (pairs.filter (fun p =>
        !(p.1 == s0) && !(p.1 == s1) && !(p.2.isEmpty))).map Prod.snd) := by
  intro pairs
  induction pairs with
  | nil =>
    intro acc
    simp [build_new_classes]
  | cons p rest ih =>
    intro acc
    rw [build_new_classes]
    have hsc : smallest_check sl p.1 p.2 =
        .ok ((p.1 == s0) || (p.1 == s1) || p.2.isEmpty) := by
      unfold smallest_check
      rw [hs0]
      dsimp only
      by_cases hx : p.1 = s0
      · rw [if_pos hx]
        have hb : (p.1 == s0) = true := beq_iff_eq.mpr hx
        rw [hb]
        rfl
      · rw [if_neg hx, hs1]
        dsimp only
        have hb : (p.1 == s0) = false := beq_eq_false_iff_ne.mpr hx
        rw [hb, Bool.false_or]
    rw [hsc]
    simp only [Res.bind]
    rw [List.filter_cons]
    by_cases hk : ((p.1 == s0) || (p.1 == s1) || p.2.isEmpty) = true
    · rw [if_pos hk]
      have hp : (!(p.1 == s0) && !(p.1 == s1) && !(p.2.isEmpty)) = false := by
        revert hk
        cases (p.1 == s0) <;> cases (p.1 == s1) <;> cases p.2.isEmpty <;> simp
      rw [hp]
      simp only [Bool.false_eq_true, if_false]
      exact ih acc
    · rw [if_neg hk]
      have hp : (!(p.1 == s0) && !(p.1 == s1) && !(p.2.isEmpty)) = true := by
        revert hk
        cases (p.1 == s0) <;> cases (p.1 == s1) <;> cases p.2.isEmpty <;> simp
      rw [hp]
      simp only [if_true]
      rw [ih (acc ++ [p.2])]
      rw [List.map_cons, ← List.append_cons]

theorem new_classes_flatten_perm (cl : List (List ℕ)) (s0 s1 : ℕ) (hne : s0 ≠ s1)
    (hs0 : s0 < cl.length) (hs1 : s1 < cl.length) :
    (((cl.getD s0 [] ++ cl.getD s1 []) ::
        (((enum_from 0 cl).filter (fun p =>
          !(p.1 == s0) && !(p.1 == s1) && !(p.2.isEmpty))).map Prod.snd)).flatten).Perm
      cl.flatten := by
  have hq1 : (enum_from 0 cl).filter (fun p => p.1 == s0) = [(s0, cl.getD s0 [])] := by
    have := enum_filter_eq_single cl 0 s0 (Nat.zero_le _) (by omega)
    simpa using this
  have hq2 : (enum_from 0 cl).filter (fun p => p.1 == s1) = [(s1, cl.getD s1 [])] := by
    have := enum_filter_eq_single cl 0 s1 (Nat.zero_le _) (by omega)
    simpa using this
  have hdisj : ∀ p : ℕ × List ℕ, ¬ ((p.1 == s0) = true ∧ (p.1 == s1) = true) := by
    rintro p ⟨ha, hb⟩
    exact hne ((beq_iff_eq.mp ha) ▸ (beq_iff_eq.mp hb))
  have hqsplit := filter_or_disjoint_perm (fun p : ℕ × List ℕ => p.1 == s0)
    (fun p : ℕ × List ℕ => p.1 == s1) hdisj (enum_from 0 cl)
  rw [hq1, hq2] at hqsplit
  have hmain := List.filter_append_perm
    (fun p : ℕ × List ℕ => (p.1 == s0) || (p.1 == s1)) (enum_from 0 cl)
  have htot : ((((enum_from 0 cl).filter (fun p : ℕ × List ℕ => (p.1 == s0) || (p.1 == s1)) ++
      (enum_from 0 cl).filter (fun p : ℕ × List ℕ =>
        !((p.1 == s0) || (p.1 == s1)))).map Prod.snd).flatten).Perm cl.flatten := by
    have h2 := (hmain.map Prod.snd).flatten
    rw [enum_from_map_snd] at h2
    exact h2
  rw [List.map_append, List.flatten_append] at htot
  have hqflat : ((((enum_from 0 cl).filter
      (fun p : ℕ × List ℕ => (p.1 == s0) || (p.1 == s1))).map Prod.snd).flatten).Perm
      (cl.getD s0 [] ++ cl.getD s1 []) := by
    have h3 := (hqsplit.map Prod.snd).flatten
    simpa using h3
  have hione := List.filter_append_perm (fun p : ℕ × List ℕ => p.2.isEmpty)
    ((enum_from 0 cl).filter (fun p : ℕ × List ℕ => !((p.1 == s0) || (p.1 == s1))))
  have hemp : (((((enum_from 0 cl).filter (fun p : ℕ × List ℕ =>
      !((p.1 == s0) || (p.1 == s1)))).filter
        (fun p : ℕ × List ℕ => p.2.isEmpty)).map Prod.snd).flatten) = [] := by
    rw [List.flatten_eq_nil_iff]
    intro x hx
    obtain ⟨p, hp, rfl⟩ := List.mem_map.mp hx
    exact List.isEmpty_iff.mp (List.mem_filter.mp hp).2
  have hkept : (((enum_from 0 cl).filter (fun p : ℕ × List ℕ =>
      !((p.1 == s0) || (p.1 == s1)))).filter (fun p : ℕ × List ℕ => !(p.2.isEmpty))) =
      (enum_from 0 cl).filter (fun p =>
        !(p.1 == s0) && !(p.1 == s1) && !(p.2.isEmpty)) := by
    rw [List.filter_filter]
    refine List.filter_congr ?_
    intro p _
    cases (p.1 == s0) <;> cases (p.1 == s1) <;> cases p.2.isEmpty <;> rfl
  have hrflat : ((((enum_from 0 cl).filter (fun p : ℕ × List ℕ =>
      !((p.1 == s0) || (p.1 == s1)))).map Prod.snd).flatten).Perm
      ((((enum_from 0 cl).filter (fun p =>
        !(p.1 == s0) && !(p.1 == s1) && !(p.2.isEmpty))).map Prod.snd).flatten) := by
    have h4 := (hione.symm.map Prod.snd).flatten
    rw [List.map_append, List.flatten_append, hemp, hkept] at h4
    simpa using h4
  refine List.Perm.trans ?_ htot
  rw [List.flatten_cons]
  exact hqflat.symm.append hrflat.symm

theorem smallest_facts (cl : List (List ℕ)) (nc : ℕ) (h2 : 2 ≤ nc) (hle : nc ≤ cl.length) :
    ∃ s0 s1 : ℕ,
      ((((((enum_from 0 cl).map (fun p => (p.1, p.2.length))).take nc).stable_sort
          (fun lhs rhs => rhs.2 ≤ lhs.2)).reverse.take 2).map (fun p => p.1)) = [s0, s1] ∧
      s0 ≠ s1 ∧ s0 < nc ∧ s1 < nc := by
  have hfst : (((enum_from 0 cl).map (fun p : ℕ × List ℕ =>
      (p.1, p.2.length))).take nc).map Prod.fst = List.range nc := by
    rw [List.map_take, List.map_map]
    have hcomp : (Prod.fst ∘ fun p : ℕ × List ℕ => (p.1, p.2.length)) = Prod.fst := rfl
    rw [hcomp, enum_from_map_fst, ← List.range_eq_range', List.take_range]
    rw [Nat.min_eq_left hle]
  have hlen0 : (((enum_from 0 cl).map (fun p : ℕ × List ℕ =>
      (p.1, p.2.length))).take nc).length = nc := by
    rw [List.length_take, List.length_map, enum_from_length]
    omega
  have hperm : (((((enum_from 0 cl).map (fun p : ℕ × List ℕ =>
      (p.1, p.2.length))).take nc).stable_sort
        (fun lhs rhs => rhs.2 ≤ lhs.2)).reverse.map Prod.fst).Perm (List.range nc) := by
    have hp1 := (List.reverse_perm ((((enum_from 0 cl).map (fun p : ℕ × List ℕ =>
      (p.1, p.2.length))).take nc).stable_sort
        (fun lhs rhs => rhs.2 ≤ lhs.2))).trans (List.stable_sort_perm _ _)
    have hp2 := hp1.map Prod.fst
    rw [hfst] at hp2
    exact hp2
  have hnd : (((((enum_from 0 cl).map (fun p : ℕ × List ℕ =>
      (p.1, p.2.length))).take nc).stable_sort
        (fun lhs rhs => rhs.2 ≤ lhs.2)).reverse.map Prod.fst).Nodup :=
    hperm.nodup_iff.mpr (List.nodup_range nc)
  have hrevlen : ((((enum_from 0 cl).map (fun p : ℕ × List ℕ =>
      (p.1, p.2.length))).take nc).stable_sort
        (fun lhs rhs => rhs.2 ≤ lhs.2)).reverse.length = nc := by
    rw [List.length_reverse, List.length_stable_sort]
    exact hlen0
  have htlen : (((((enum_from 0 cl).map (fun p : ℕ × List ℕ =>
      (p.1, p.2.length))).take nc).stable_sort
        (fun lhs rhs => rhs.2 ≤ lhs.2)).reverse.take 2).length = 2 := by
    rw [List.length_take, hrevlen]
    omega
  have hmt : (((((enum_from 0 cl).map (fun p : ℕ × List ℕ =>
      (p.1, p.2.length))).take nc).stable_sort
        (fun lhs rhs => rhs.2 ≤ lhs.2)).reverse.take 2).map Prod.fst =
      (((((enum_from 0 cl).map (fun p : ℕ × List ℕ =>
      (p.1, p.2.length))).take nc).stable_sort
        (fun lhs rhs => rhs.2 ≤ lhs.2)).reverse.map Prod.fst).take 2 :=
    List.map_take _ _ _
  have hndt : (((((enum_from 0 cl).map (fun p : ℕ × List ℕ =>
      (p.1, p.2.length))).take nc).stable_sort
        (fun lhs rhs => rhs.2 ≤ lhs.2)).reverse.take 2).map Prod.fst |>.Nodup := by
    rw [hmt]
    exact List.Nodup.sublist (List.take_sublist _ _) hnd
  have hsubm : ∀ x ∈ (((((enum_from 0 cl).map (fun p : ℕ × List ℕ =>
      (p.1, p.2.length))).take nc).stable_sort
        (fun lhs rhs => rhs.2 ≤ lhs.2)).reverse.take 2).map Prod.fst, x < nc := by
    intro x hx
    rw [hmt] at hx
    have hx2 := (List.take_sublist _ _).mem hx
    have := hperm.mem_iff.mp hx2
    exact List.mem_range.mp this
  have hmlen : ((((((enum_from 0 cl).map (fun p : ℕ × List ℕ =>
      (p.1, p.2.length))).take nc).stable_sort
        (fun lhs rhs => rhs.2 ≤ lhs.2)).reverse.take 2).map Prod.fst).length = 2 := by
    rw [List.length_map, htlen]
  rcases hT : (((((enum_from 0 cl).map (fun p : ℕ × List ℕ =>
      (p.1, p.2.length))).take nc).stable_sort
        (fun lhs rhs => rhs.2 ≤ lhs.2)).reverse.take 2).map Prod.fst with
    _ | ⟨a, _ | ⟨b, rest⟩⟩
  · rw [hT] at hmlen
    simp at hmlen
  · rw [hT] at hmlen
    simp at hmlen
  · have hrest : rest = [] := by
      rw [hT] at hmlen
      simp at hmlen
      exact hmlen
    subst hrest
    refine ⟨a, b, rfl, ?_, ?_, ?_⟩
    · rw [hT] at hndt
      intro hab
      subst hab
      simp at hndt
    · exact hsubm a (by rw [hT]; exact List.mem_cons_self _ _)
    · exact hsubm b (by rw [hT]; exact List.mem_cons_of_mem _ (List.mem_cons_self _ _))

theorem range_filter_not_pair_length (n s0 s1 : ℕ) (hne : s0 ≠ s1)
    (hs0 : s0 < n) (hs1 : s1 < n) :
    ((List.range n).filter (fun y => !(y == s0) && !(y == s1))).length = n - 2 := by
  have hdisj : ∀ y : ℕ, ¬ ((y == s0) = true ∧ (y == s1) = true) := by
    rintro y ⟨ha, hb⟩
    exact hne ((beq_iff_eq.mp ha) ▸ (beq_iff_eq.mp hb))
  have hsplit := List.filter_append_perm
    (fun y : ℕ => (y == s0) || (y == s1)) (List.range n)
  have hor := filter_or_disjoint_perm (fun y : ℕ => y == s0) (fun y : ℕ => y == s1)
    hdisj (List.range n)
  have h0 : (List.range n).filter (fun y : ℕ => y == s0) = [s0] := by
    rw [List.filter_beq,
      List.count_eq_one_of_mem (List.nodup_range n) (List.mem_range.mpr hs0)]
    rfl
  have h1 : (List.range n).filter (fun y : ℕ => y == s1) = [s1] := by
    rw [List.filter_beq,
      List.count_eq_one_of_mem (List.nodup_range n) (List.mem_range.mpr hs1)]
    rfl
  have hlenor : ((List.range n).filter (fun y : ℕ => (y == s0) || (y == s1))).length = 2 := by
    rw [hor.length_eq, List.length_append, h0, h1]
    rfl
  have hcongr : (List.range n).filter (fun y : ℕ => !((y == s0) || (y == s1))) =
      (List.range n).filter (fun y => !(y == s0) && !(y == s1)) := by
    refine List.filter_congr ?_
    intro y _
    cases (y == s0) <;> cases (y == s1) <;> rfl
  have hlen := hsplit.length_eq
  rw [List.length_append, hlenor, List.length_range, hcongr] at hlen
  omega

theorem kept_length_le (cl : List (List ℕ)) (nc s0 s1 : ℕ) (hne : s0 ≠ s1)
    (hs0 : s0 < nc) (hs1 : s1 < nc)
    (hempty : ∀ i, nc ≤ i → cl.getD i [] = []) :
    (((enum_from 0 cl).filter (fun p =>
      !(p.1 == s0) && !(p.1 == s1) && !(p.2.isEmpty))).map Prod.snd).length ≤ nc - 2 := by
  rw [List.length_map]
  have hnodupK : (((enum_from 0 cl).filter (fun p =>
      !(p.1 == s0) && !(p.1 == s1) && !(p.2.isEmpty))).map Prod.fst).Nodup := by
    have hsub := (List.filter_sublist (enum_from 0 cl)
      (p := fun p => !(p.1 == s0) && !(p.1 == s1) && !(p.2.isEmpty))).map Prod.fst
    rw [enum_from_map_fst] at hsub
    exact (List.nodup_range' 0 cl.length).sublist hsub
  have hsubset : ∀ x ∈ (((enum_from 0 cl).filter (fun p =>
      !(p.1 == s0) && !(p.1 == s1) && !(p.2.isEmpty))).map Prod.fst),
      x ∈ (List.range nc).filter (fun y => !(y == s0) && !(y == s1)) := by
    intro x hx
    obtain ⟨p, hp, rfl⟩ := List.mem_map.mp hx
    obtain ⟨hmem, hpred⟩ := List.mem_filter.mp hp
    obtain ⟨j, hget, hfst⟩ := enum_from_mem hmem
    have hrow : cl.getD p.1 [] = p.2 := by
      rw [List.getD_eq_getElem?_getD, ← List.get?_eq_getElem?, hfst, Nat.zero_add, hget]
      rfl
    have hprednotempty : (p.2.isEmpty) = false := by
      rcases h01 : (p.1 == s0) <;> rcases h02 : (p.1 == s1) <;> rcases he : p.2.isEmpty <;>
        rw [h01, h02, he] at hpred <;> first | rfl | exact absurd hpred (by simp)
    have hlt : p.1 < nc := by
      by_contra hc
      have := hempty p.1 (by omega)
      rw [hrow] at this
      rw [this] at hprednotempty
      exact absurd hprednotempty (by simp [List.isEmpty])
    rw [List.mem_filter, List.mem_range]
    refine ⟨hlt, ?_⟩
    rcases h01 : (p.1 == s0) <;> rcases h02 : (p.1 == s1) <;>
      rw [h01, h02] at hpred <;> first | rfl | exact absurd hpred (by simp)
  have hsp := (hnodupK.subperm hsubset).length_le
  rw [List.length_map] at hsp
  rw [range_filter_not_pair_length nc s0 s1 hne hs0 hs1] at hsp
  exact hsp

theorem zero_classes_absurd (g : AdjList) (hwb : g.wb = true) {u0 v0 : ℕ}
    (hedge : v0 ∈ g.adj_list.getD u0 []) (cl : List (List ℕ))
    (hpart : class_partition cl g.num_vertices)
    (hempty : ∀ i, cl.getD i [] = []) : False := by
  have hfl : cl.flatten = [] := by
    rw [List.flatten_eq_nil_iff]
    intro x hx
    obtain ⟨i, hi⟩ := List.mem_iff_get?.mp hx
    have hx2 := hempty i
    rw [getD_eq_of_get? hi] at hx2
    exact hx2
  unfold class_partition at hpart
  rw [hfl] at hpart
  have hr := List.perm_nil.mp hpart.symm
  have hn := List.range_eq_nil.mp hr
  have hnil : g.adj_list.getD u0 [] = [] := by
    refine List.getD_eq_default _ _ ?_
    rw [(wb_adj_parts hwb).1, hn]
    exact Nat.zero_le u0
  rw [hnil] at hedge
  exact List.not_mem_nil v0 hedge

theorem local_search_ok_parts (g : AdjList) (cl : List (List ℕ)) (rng : ℕ → ℕ)
    (k f : ℕ) (hwb : g.wb = true) (hpart : class_partition cl g.num_vertices)
    {r : ℕ × List (List ℕ) × ℕ} (h : local_search g cl rng k f = .ok r) :
    r.2.1.length = cl.length ∧ class_partition r.2.1 g.num_vertices := by
  unfold local_search at h
  obtain ⟨fcs, hfcs, h2⟩ := res_bind_ok h
  obtain ⟨_, hl, hp⟩ := ls_loop_invariant g rng hwb f fcs.1 fcs.2 cl
    (2 * fcs.1) 0 k r hpart hfcs h2
  exact ⟨hl, hp⟩

theorem local_search_single_fc (g : AdjList) (c0 : List ℕ) (rng : ℕ → ℕ)
    (k f : ℕ) (hwb : g.wb = true) (hpart : class_partition [c0] g.num_vertices)
    {r : ℕ × List (List ℕ) × ℕ} (h : local_search g [c0] rng k f = .ok r)
    {u0 v0 : ℕ} (hedge : v0 ∈ g.adj_list.getD u0 []) : r.1 ≠ 0 := by
  unfold local_search at h
  obtain ⟨fcs, hfcs, h2⟩ := res_bind_ok h
  have hfc := ls_loop_single g rng hwb f fcs.1 fcs.2 [c0] (2 * fcs.1) 0 k r
    (show ([c0] : List (List ℕ)).length = 1 from rfl) hpart hfcs h2
  have hpos : 1 ≤ fcs.1 := gf_single_pos g hwb hedge
    (show ([c0] : List (List ℕ)).length = 1 from rfl) hpart hfcs
  omega

theorem improve_loop_step (g : AdjList) (rng : ℕ → ℕ) (f k nc : ℕ)
    (cl : List (List ℕ)) (s0 s1 : ℕ)
    (hsl : ((((((enum_from 0 cl).map (fun p => (p.1, p.2.length))).take nc).stable_sort
        (fun lhs rhs => rhs.2 ≤ lhs.2)).reverse.take 2).map (fun p => p.1)) = [s0, s1]) :
    improve_loop g rng (f + 1) nc cl k =
      Res.bind (local_search g ((([] ++ cl.getD s0 []) ++ cl.getD s1 []) ::
          (((enum_from 0 cl).filter (fun p =>
            !(p.1 == s0) && !(p.1 == s1) && !(p.2.isEmpty))).map Prod.snd)) rng k (f + 1))
        (fun lsr => if lsr.1 = 0 then improve_loop g rng f lsr.2.1.length lsr.2.1 lsr.2.2
          else .ok (nc, cl, lsr.2.2)) := by
  simp only [improve_loop]
  rw [hsl]
  rw [build_new_classes_eq (show ([s0, s1] : List ℕ).get? 0 = some s0 from rfl)
    (show ([s0, s1] : List ℕ).get? 1 = some s1 from rfl) (enum_from 0 cl)]
  simp only [Res.bind, List.foldl_cons, List.foldl_nil]
  rfl

theorem improve_loop_single_single (g : AdjList) (rng : ℕ → ℕ) (hwb : g.wb = true)
    {u0 v0 : ℕ} (hedge : v0 ∈ g.adj_list.getD u0 []) (c0 : List ℕ)
    (hpart : class_partition [c0] g.num_vertices) (k : ℕ) :
    ∃ f, improve_loop g rng f 1 [c0] k ≠ .out := by
  have hstep : ∀ f, improve_loop g rng (f + 1) 1 [c0] k =
      Res.bind (local_search g [c0] rng k (f + 1))
        (fun lsr => if lsr.1 = 0 then improve_loop g rng f lsr.2.1.length lsr.2.1 lsr.2.2
          else .ok (1, [c0], lsr.2.2)) := by
    intro f
    simp only [improve_loop, enum_from, List.map_cons, List.map_nil, List.take_succ_cons,
      List.take_zero, List.stable_sort_singleton, List.reverse_singleton, List.take_cons,
      List.take_nil, List.foldl_cons, List.foldl_nil, List.getD_cons_zero, List.nil_append]
    rw [build_new_classes_skip_first]
    simp only [build_new_classes, Res.bind]
  obtain ⟨fls, hfls⟩ := local_search_total g [c0] rng k hwb hpart
  cases hV : local_search g [c0] rng k fls with
  | out => exact absurd hV hfls
  | panic =>
    refine ⟨fls + 1, ?_⟩
    rw [hstep fls, local_search_mono g [c0] rng k fls (fls + 1) (by omega)
      (by rw [hV]; exact fun hc => Res.noConfusion hc), hV]
    simp only [Res.bind]
    exact fun hc => Res.noConfusion hc
  | ok lsr =>
    have hne0 := local_search_single_fc g c0 rng k fls hwb hpart hV hedge
    refine ⟨fls + 1, ?_⟩
    rw [hstep fls, local_search_mono g [c0] rng k fls (fls + 1) (by omega)
      (by rw [hV]; exact fun hc => Res.noConfusion hc), hV]
    simp only [Res.bind]
    rw [if_neg hne0]
    exact fun hc => Res.noConfusion hc

theorem improve_loop_total (g : AdjList) (rng : ℕ → ℕ) (hwb : g.wb = true)
    {u0 v0 : ℕ} (hedge : v0 ∈ g.adj_list.getD u0 []) :
    ∀ (N nc : ℕ) (cl : List (List ℕ)) (k : ℕ),
      nc ≤ N →
      class_partition cl g.num_vertices →
      nc ≤ cl.length →
      (∀ i, nc ≤ i → cl.getD i [] = []) →
      ∃ f, improve_loop g rng f nc cl k ≠ .out := by
  intro N
  induction N with
  | zero =>
    intro nc cl k hN hpart hle hempty
    exact (zero_classes_absurd g hwb hedge cl hpart
      (fun i => hempty i (by omega))).elim
  | succ N ihN =>
    intro nc cl k hN hpart hle hempty
    rcases Nat.lt_or_ge nc 2 with hsmall | h2
    · rcases Nat.lt_or_ge nc 1 with h0 | h1
      · exact (zero_classes_absurd g hwb hedge cl hpart
          (fun i => hempty i (by omega))).elim
      · have hnc1 : nc = 1 := by omega
        subst hnc1
        rcases Nat.lt_or_ge cl.length 2 with hl1 | hl2
        · have hl : cl.length = 1 := by omega
          obtain ⟨c0, rfl⟩ : ∃ c0, cl = [c0] := by
            match cl, hl with
            | [c0], _ => exact ⟨c0, rfl⟩
          exact improve_loop_single_single g rng hwb hedge c0 hpart k
        · refine ⟨1, ?_⟩
          rw [improve_loop_panic_single g cl hl2 rng k 1 (Nat.le_refl 1)]
          exact fun hc => Res.noConfusion hc
    · obtain ⟨s0, s1, hsl, hne, hs0, hs1⟩ := smallest_facts cl nc h2 hle
      have hpartN : class_partition ((([] ++ cl.getD s0 []) ++ cl.getD s1 []) ::
          (((enum_from 0 cl).filter (fun p =>
            !(p.1 == s0) && !(p.1 == s1) && !(p.2.isEmpty))).map Prod.snd))
          g.num_vertices := by
        unfold class_partition at hpart ⊢
        exact List.Perm.trans
          (new_classes_flatten_perm cl s0 s1 hne (by omega) (by omega)) hpart
      have hlenN : ((([] ++ cl.getD s0 []) ++ cl.getD s1 []) ::
          (((enum_from 0 cl).filter (fun p =>
            !(p.1 == s0) && !(p.1 == s1) && !(p.2.isEmpty))).map Prod.snd)).length ≤
          nc - 1 := by
        rw [List.length_cons]
        have := kept_length_le cl nc s0 s1 hne hs0 hs1 hempty
        omega
      obtain ⟨fls, hfls⟩ := local_search_total g _ rng k hwb hpartN
      cases hV : local_search g ((([] ++ cl.getD s0 []) ++ cl.getD s1 []) ::
          (((enum_from 0 cl).filter (fun p =>
            !(p.1 == s0) && !(p.1 == s1) && !(p.2.isEmpty))).map Prod.snd)) rng k fls with
      | out => exact absurd hV hfls
      | panic =>
        refine ⟨fls + 1, ?_⟩
        rw [improve_loop_step g rng fls k nc cl s0 s1 hsl,
          local_search_mono g _ rng k fls (fls + 1) (by omega)
            (by rw [hV]; exact fun hc => Res.noConfusion hc), hV]
        simp only [Res.bind]
        exact fun hc => Res.noConfusion hc
      | ok lsr =>
        by_cases hz : lsr.1 = 0
        · obtain ⟨hlsr_len, hlsr_part⟩ := local_search_ok_parts g _ rng k fls hwb hpartN hV
          obtain ⟨f2, hf2⟩ := ihN lsr.2.1.length lsr.2.1 lsr.2.2
            (by omega) hlsr_part (Nat.le_refl _)
            (fun i hi => List.getD_eq_default _ _ hi)
          refine ⟨(fls + f2) + 1, ?_⟩
          rw [improve_loop_step g rng (fls + f2) k nc cl s0 s1 hsl,
            local_search_mono g _ rng k fls ((fls + f2) + 1) (by omega)
              (by rw [hV]; exact fun hc => Res.noConfusion hc), hV]
          simp only [Res.bind]
          rw [if_pos hz]
          rw [improve_loop_mono g rng f2 (fls + f2) (by omega)
            lsr.2.1.length lsr.2.1 lsr.2.2 hf2]
          exact hf2
        · refine ⟨fls + 1, ?_⟩
          rw [improve_loop_step g rng fls k nc cl s0 s1 hsl,
            local_search_mono g _ rng k fls (fls + 1) (by omega)
              (by rw [hV]; exact fun hc => Res.noConfusion hc), hV]
          simp only [Res.bind]
          rw [if_neg hz]
          exact fun hc => Res.noConfusion hc

/-- C4 (amended half): for every well-formed graph that has at least one
edge, improve_phase terminates — for every class list that partitions the
vertices with empty classes beyond num_classes, some fuel makes the merge
loop finish (return or panic) rather than run forever. -/
theorem c4_improve_phase_terminates_with_edge (g : AdjList) (hwb : g.wb = true)
    {u0 v0 : ℕ} (hedge : v0 ∈ g.adj_list.getD u0 [])
    (nc : ℕ) (cl : List (List ℕ)) (hpart : class_partition cl g.num_vertices)
    (hle : nc ≤ cl.length) (hempty : ∀ i, nc ≤ i → cl.getD i [] = [])
    (rng : ℕ → ℕ) (k : ℕ) :
    ∃ fuel, improve_phase g nc cl rng k fuel ≠ Res.out := by
  obtain ⟨f, hf⟩ := improve_loop_total g rng hwb hedge nc nc cl k (Nat.le_refl _)
    hpart hle hempty
  refine ⟨f, ?_⟩
  intro hc
  unfold improve_phase at hc
  cases hI : improve_loop g rng f nc cl k with
  | out => exact hf hI
  | panic =>
    rw [hI] at hc
    exact Res.noConfusion hc
  | ok r =>
    rw [hI] at hc
    simp only [Res.bind] at hc
    exact Res.noConfusion hc

theorem c4_witness_eval :
    ∃ fuel, improve_phase k2adj 2 [[0], [1]] (fun _ => 0) 0 fuel ≠ Res.out :=
  c4_improve_phase_terminates_with_edge k2adj (by decide)
    (show (1 : ℕ) ∈ k2adj.adj_list.getD 0 [] by decide) 2 [[0], [1]]
    (by unfold class_partition; decide) (by decide)
    (fun i hi => List.getD_eq_default _ _ (by simpa using hi)) (fun _ => 0) 0

theorem improve_loop_e1_fix (rng : ℕ → ℕ) : ∀ (fuel k : ℕ),
    improve_loop e1adj rng fuel 1 [[0]] k = .out := by
  have hgf : get_forbidden_vertices e1adj [[0]] = .ok (0, []) := rfl
  have hls : ∀ (fl k2 : ℕ), local_search e1adj [[0]] rng k2 (fl + 1) =
      .ok (0, [[0]], k2) := by
    intro fl k2
    unfold local_search
    rw [hgf]
    simp only [Res.bind]
    rw [ls_loop, if_neg (by omega : ¬ ((0 : ℕ) > 0 ∧ (0 : ℕ) < 0))]
  intro fuel
  induction fuel with
  | zero => intro k; rfl
  | succ f ih =>
    intro k
    have hstep : improve_loop e1adj rng (f + 1) 1 [[0]] k =
        Res.bind (local_search e1adj [[0]] rng k (f + 1))
          (fun lsr => if lsr.1 = 0 then
            improve_loop e1adj rng f lsr.2.1.length lsr.2.1 lsr.2.2
          else .ok (1, [[0]], lsr.2.2)) := by
      simp only [improve_loop, enum_from, List.map_cons, List.map_nil, List.take_succ_cons,
        List.take_zero, List.stable_sort_singleton, List.reverse_singleton, List.take_cons,
        List.take_nil, List.foldl_cons, List.foldl_nil, List.getD_cons_zero, List.nil_append]
      rw [build_new_classes_skip_first]
      simp only [build_new_classes, Res.bind]
    rw [hstep, hls f k]
    simp only [Res.bind, if_true]
    exact ih k

/-- C4: counterexample — the claim also asserts termination on graphs with
no edges, but on the one-vertex edgeless graph with construction's class
list [[0]] the merge loop reaches the same state every iteration
(local_search reports zero forbidden edges and the rebuilt class list is
again [[0]]), so improve_phase runs out of any amount of fuel: the Rust
loop never terminates. -/
theorem c4_counterexample_one_vertex_nontermination : ¬ c4_claim := by
  intro hc
  obtain ⟨fuel, hfuel⟩ := hc e1adj (by decide) 1 [[0]]
    (by unfold class_partition; decide)
    (by unfold classes_independent; decide)
    (by
      unfold construction_shape
      refine ⟨by decide, ?_, ?_⟩
      · intro i hi
        have : i = 0 := by omega
        subst this
        decide
      · intro i hi
        exact List.getD_eq_default _ _ (by simpa using hi))
    (fun _ => 0) 0
  apply hfuel
  unfold improve_phase
  rw [improve_loop_e1_fix (fun _ => 0) fuel 0]
  rfl

theorem pr_walk_rev_mixture (g : Graph) (best col : List ℕ) (n : ℕ) (D : List ℕ) :
    ∀ (L : List ℕ) (sol bsol : ℕ × List (List ℕ)) (scol : List ℕ)
      (r : (ℕ × List (List ℕ)) × (ℕ × List (List ℕ))),
      L.Nodup →
      (∀ x ∈ L, x < n) →
      (∀ x ∈ L, x ∈ D) →
      (∀ x ∈ L, 1 ≤ best.getD x 0 ∧ best.getD x 0 ≤ sol.2.length) →
      class_partition sol.2 n →
      get_coloring_from_class_list n sol.2 = .ok scol →
      (∀ x, x < n → x ∈ L → scol.getD x 0 = col.getD x 0) →
      (∀ x, x < n → scol.getD x 0 = col.getD x 0 ∨
        (x ∈ D ∧ scol.getD x 0 = best.getD x 0)) →
      pr_walk_rev g best col L sol bsol = .ok r →
      ∃ fcol, get_coloring_from_class_list n r.1.2 = .ok fcol ∧
        (∀ x, x < n → fcol.getD x 0 = col.getD x 0 ∨
          (x ∈ D ∧ fcol.getD x 0 = best.getD x 0)) := by
  intro L
  induction L with
  | nil =>
    intro sol bsol scol r _ _ _ _ hpart hscol _ hmix h
    rw [pr_walk_rev] at h
    injection h with h2
    rw [← h2]
    exact ⟨scol, hscol, hmix⟩
  | cons v rest ih =>
    intro sol bsol scol r hnd hbound hsubD hbest hpart hscol hkeep hmix h
    have hvrest : v ∉ rest := (List.nodup_cons.mp hnd).1
    have hndr : rest.Nodup := (List.nodup_cons.mp hnd).2
    simp only [pr_walk_rev] at h
    by_cases hc1 : count_forbidden_per_vertex_m g (col.set v (best.getD v 0)) v > 0
    · rw [if_pos hc1] at h
      exact ih sol bsol scol r hndr
        (fun x hx => hbound x (List.mem_cons_of_mem _ hx))
        (fun x hx => hsubD x (List.mem_cons_of_mem _ hx))
        (fun x hx => hbest x (List.mem_cons_of_mem _ hx))
        hpart hscol
        (fun x hx hxr => hkeep x hx (List.mem_cons_of_mem _ hxr)) hmix h
    · rw [if_neg hc1] at h
      by_cases hc2 : count_colors (col.set v (best.getD v 0)) < bsol.1
      · rw [if_pos hc2] at h
        have hvn : v < n := hbound v (List.mem_cons_self _ _)
        have horig : scol.getD v 0 = col.getD v 0 :=
          hkeep v hvn (List.mem_cons_self _ _)
        obtain ⟨hb1, hb2⟩ := hbest v (List.mem_cons_self _ _)
        obtain ⟨cl2, hmv, hlen2, hpart2, hcol2, _⟩ := ls_move_spec hpart hscol hvn hb1 hb2
        rw [horig] at hmv
        rw [hmv] at h
        simp only [Res.bind] at h
        have hslen : scol.length = n := coloring_length hpart hscol
        refine ih (count_colors (col.set v (best.getD v 0)), cl2)
          (count_colors (col.set v (best.getD v 0)), cl2)
          (scol.set v (best.getD v 0)) r hndr
          (fun x hx => hbound x (List.mem_cons_of_mem _ hx))
          (fun x hx => hsubD x (List.mem_cons_of_mem _ hx))
          (fun x hx => ⟨(hbest x (List.mem_cons_of_mem _ hx)).1, ?_⟩)
          hpart2 hcol2 ?_ ?_ h
        · show best.getD x 0 ≤ cl2.length
          rw [hlen2]
          exact (hbest x (List.mem_cons_of_mem _ hx)).2
        · intro x hx hxr
          have hxv : v ≠ x := fun hc => hvrest (hc ▸ hxr)
          rw [getD_set_ne scol v x _ 0 hxv]
          exact hkeep x hx (List.mem_cons_of_mem _ hxr)
        · intro x hx
          by_cases hxv : x = v
          · subst hxv
            rw [getD_set_self scol x _ 0 (by omega)]
            exact Or.inr ⟨hsubD x (List.mem_cons_self _ _), rfl⟩
          · rw [getD_set_ne scol v x _ 0 (fun hc => hxv hc.symm)]
            exact hmix x hx
      · rw [if_neg hc2] at h
        exact ih sol bsol scol r hndr
          (fun x hx => hbound x (List.mem_cons_of_mem _ hx))
          (fun x hx => hsubD x (List.mem_cons_of_mem _ hx))
          (fun x hx => hbest x (List.mem_cons_of_mem _ hx))
          hpart hscol
          (fun x hx hxr => hkeep x hx (List.mem_cons_of_mem _ hxr)) hmix h

/-- C3 (amended): after a guide's difference list is fully consumed, the
walked solution's coloring agrees with the best coloring exactly at
accepted positions and keeps the guide's own original color everywhere
else; in particular it is untouched outside the difference list, and no
equality with the best coloring is established or asserted. -/
theorem c3_walk_final_coloring_mixture (g : Graph) (best col : List ℕ) (n : ℕ)
    (D : List ℕ) (sol bsol : ℕ × List (List ℕ))
    (r : (ℕ × List (List ℕ)) × (ℕ × List (List ℕ)))
    (hnd : D.Nodup) (hbound : ∀ x ∈ D, x < n)
    (hbest : ∀ x ∈ D, 1 ≤ best.getD x 0 ∧ best.getD x 0 ≤ sol.2.length)
    (hpart : class_partition sol.2 n)
    (hscol : get_coloring_from_class_list n sol.2 = .ok col)
    (h : pr_walk g best col D sol bsol = .ok r) :
    ∃ fcol, get_coloring_from_class_list n r.1.2 = .ok fcol ∧
      ∀ x, x < n → fcol.getD x 0 = col.getD x 0 ∨
        (x ∈ D ∧ fcol.getD x 0 = best.getD x 0) := by
  unfold pr_walk at h
  exact pr_walk_rev_mixture g best col n D D.reverse sol bsol col r
    (List.nodup_reverse.mpr hnd)
    (fun x hx => hbound x (List.mem_reverse.mp hx))
    (fun x hx => List.mem_reverse.mp hx)
    (fun x hx => hbest x (List.mem_reverse.mp hx))
    hpart hscol (fun x _ _ => rfl) (fun x _ => Or.inl rfl) h

theorem c3_witness_eval :
    ∃ fcol, get_coloring_from_class_list 2
        (((2, [[0], [1]]), (2, [[0], [1]])) :
          (ℕ × List (List ℕ)) × (ℕ × List (List ℕ))).1.2 = .ok fcol ∧
      ∀ x, x < 2 → fcol.getD x 0 = ([1, 2] : List ℕ).getD x 0 ∨
        (x ∈ [0, 1] ∧ fcol.getD x 0 = ([2, 1] : List ℕ).getD x 0) :=
  c3_walk_final_coloring_mixture k2mat [2, 1] [1, 2] 2 [0, 1] (2, [[0], [1]])
    (2, [[0], [1]]) ((2, [[0], [1]]), (2, [[0], [1]]))
    (by decide) (by decide) (by decide)
    (by unfold class_partition; decide) (by rfl) (by rfl)

theorem range_countP_classes (cl : List (List ℕ)) :
    (List.range cl.length).countP (fun i => !(cl.getD i []).isEmpty) =
      cl.countP (fun c => !c.isEmpty) := by
  induction cl with
  | nil => rfl
  | cons c rest ih =>
    rw [List.length_cons, List.range_succ_eq_map, List.countP_cons, List.countP_map,
      List.countP_cons]
    have hcongr : (List.range rest.length).countP
        ((fun i => !((c :: rest).getD i []).isEmpty) ∘ Nat.succ) =
        (List.range rest.length).countP (fun i => !(rest.getD i []).isEmpty) :=
      List.countP_congr (fun a _ => Iff.rfl)
    rw [hcongr, ih]
    rfl

theorem nonempty_classes_coloring_values {cl : List (List ℕ)} {n : ℕ} {colv : List ℕ}
    (hpart : class_partition cl n)
    (hcol : get_coloring_from_class_list n cl = .ok colv) :
    colv.toFinset = (((List.range cl.length).filter
      (fun i => !(cl.getD i []).isEmpty)).map (fun i => i + 1)).toFinset := by
  obtain ⟨col2, hrun, hlen, hval, hcov⟩ := get_coloring_partition_spec hpart
  rw [hcol] at hrun
  injection hrun with hrun
  subst hrun
  obtain ⟨_, hbnd, _⟩ := class_partition_parts hpart
  ext a
  rw [List.mem_toFinset, List.mem_toFinset, List.mem_map]
  constructor
  · intro ha
    obtain ⟨v, hv⟩ := List.mem_iff_get?.mp ha
    have hvlen : v < colv.length := (List.get?_eq_some.mp hv).1
    have hgd : colv.getD v 0 = a := by
      rw [List.getD_eq_getElem?_getD, ← List.get?_eq_getElem?, hv]
      rfl
    obtain ⟨i, hi, hvi⟩ := hcov v (by omega)
    refine ⟨i, ?_, ?_⟩
    · rw [List.mem_filter, List.mem_range]
      refine ⟨hi, ?_⟩
      cases hcl : cl.getD i [] with
      | nil =>
        rw [hcl] at hvi
        exact absurd hvi (List.not_mem_nil v)
      | cons y ys => rfl
    · rw [← hgd, hval i hi v hvi]
  · rintro ⟨i, hi, rfl⟩
    rw [List.mem_filter, List.mem_range] at hi
    obtain ⟨hilen, hne⟩ := hi
    have hnenil : cl.getD i [] ≠ [] := by
      intro hc
      rw [hc] at hne
      exact absurd hne (by simp)
    obtain ⟨v, hvmem⟩ := List.exists_mem_of_ne_nil _ hnenil
    have hvn : v < n := hbnd _ (getD_mem cl i [] hilen) v hvmem
    have hgd : colv.getD v 0 = i + 1 := hval i hilen v hvmem
    rw [← hgd]
    exact getD_mem colv v 0 (by omega)

/-- C9 (amended): count_colors counts the distinct values occurring in a
coloring, the reserved id 0 included when present; for colorings with no
0 entry it equals the number of distinct positive ids, it is invariant
under injective relabelings of the used ids, and for a coloring obtained
from a partition class list it equals the number of non-empty classes. -/
theorem c9_count_colors_characterization :
    (∀ l : List ℕ, 0 ∉ l → count_colors l = distinct_positive_ids l) ∧
    (∀ (l : List ℕ) (f : ℕ → ℕ), (∀ a ∈ l, ∀ b ∈ l, f a = f b → a = b) →
      count_colors (l.map f) = count_colors l) ∧
    (∀ (cl : List (List ℕ)) (n : ℕ) (colv : List ℕ), class_partition cl n →
      get_coloring_from_class_list n cl = .ok colv →
      count_colors colv = (cl.filter (fun c => !c.isEmpty)).length) := by
  refine ⟨?_, ?_, ?_⟩
  · intro l h0
    unfold count_colors distinct_positive_ids
    have : l.filter (fun x => !(x == 0)) = l := by
      refine List.filter_eq_self.mpr ?_
      intro a ha
      have : a ≠ 0 := fun hc => h0 (hc ▸ ha)
      simp [this]
    rw [this]
  · intro l f hinj
    unfold count_colors
    rw [← List.card_toFinset, ← List.card_toFinset]
    have himg : (l.map f).toFinset = l.toFinset.image f := by
      ext a
      simp [List.mem_toFinset, Finset.mem_image, List.mem_map]
    rw [himg]
    refine Finset.card_image_of_injOn ?_
    intro a ha b hb hab
    rw [Finset.mem_coe, List.mem_toFinset] at ha hb
    exact hinj a ha b hb hab
  · intro cl n colv hpart hcol
    unfold count_colors
    rw [← List.card_toFinset, nonempty_classes_coloring_values hpart hcol]
    have hnd : (((List.range cl.length).filter
        (fun i => !(cl.getD i []).isEmpty)).map (fun i => i + 1)).Nodup := by
      refine List.Nodup.map_on ?_ ?_
      · intro a _ b _ hab
        omega
      · exact ((List.nodup_range _).filter _)
    rw [List.toFinset_card_of_nodup hnd, List.length_map,
      ← List.countP_eq_length_filter, ← List.countP_eq_length_filter,
      range_countP_classes]

theorem c9_witness_eval :
    count_colors [1, 2, 2, 3] = distinct_positive_ids [1, 2, 2, 3] ∧
    count_colors ([1, 2, 2, 3].map (fun a => a * 2)) = count_colors [1, 2, 2, 3] ∧
    count_colors [1, 2, 2] = ([[0], [1, 2], [], []].filter (fun c => !c.isEmpty)).length :=
  ⟨c9_count_colors_characterization.1 [1, 2, 2, 3] (by decide),
   c9_count_colors_characterization.2.1 [1, 2, 2, 3] (fun a => a * 2) (by decide),
   c9_count_colors_characterization.2.2 [[0], [1, 2], [], []] 3 [1, 2, 2]
     (by unfold class_partition; decide) (by rfl)⟩

theorem conflict_pair_dir (g : AdjList) (hwb : g.wb = true) {u v : ℕ} {col : List ℕ}
    (hedge : v ∈ g.adj_list.getD u []) (heq : col.getD u 0 = col.getD v 0) :
    2 ≤ dir_conflicts g col := by
  obtain ⟨hlen, hent, hsym, hloop⟩ := wb_adj_parts hwb
  have hun : u < g.num_vertices := by
    by_contra hc
    have hnil : g.adj_list.getD u [] = [] :=
      List.getD_eq_default g.adj_list [] (by omega)
    rw [hnil] at hedge
    exact List.not_mem_nil v hedge
  have hvn : v < g.num_vertices := hent u v hedge
  have huv : u ≠ v := by
    intro hc
    subst hc
    exact hloop u hedge
  have hcount_u : 1 ≤ (g.adj_list.getD u []).count v := List.one_le_count_iff.mpr hedge
  have hcf_u : 1 ≤ count_forbidden_per_vertex g col u := by
    rw [cfpv_eq_countP, countP_split_at _ v]
    have hb : (col.getD v 0 == col.getD u 0) = true := beq_iff_eq.mpr heq.symm
    rw [hb]
    simp only [if_true]
    omega
  have hcf_v : 1 ≤ count_forbidden_per_vertex g col v := by
    rw [cfpv_eq_countP, countP_split_at _ u]
    have hc2 : 1 ≤ (g.adj_list.getD v []).count u := by
      rw [hsym v u]
      exact hcount_u
    have hb : (col.getD u 0 == col.getD v 0) = true := beq_iff_eq.mpr heq
    rw [hb]
    simp only [if_true]
    omega
  have hsub : ({u, v} : Finset ℕ) ⊆ Finset.range g.adj_list.length := by
    intro x hx
    rw [Finset.mem_insert, Finset.mem_singleton] at hx
    rw [Finset.mem_range, hlen]
    rcases hx with rfl | rfl
    · exact hun
    · exact hvn
  have hss := Finset.sum_le_sum_of_subset hsub (f := count_forbidden_per_vertex g col)
  rw [Finset.sum_pair huv] at hss
  unfold dir_conflicts
  omega

theorem gf_zero_valid (g : AdjList) (hwb : g.wb = true) {cl : List (List ℕ)}
    {fvs : List ℕ} (hgf : get_forbidden_vertices g cl = .ok (0, fvs)) :
    ∃ col, get_coloring_from_class_list g.num_vertices cl = .ok col ∧
      is_coloring_valid g col = true := by
  obtain ⟨col, hcol, hfc, _⟩ := gf_ok_parts hgf
  refine ⟨col, hcol, ?_⟩
  unfold is_coloring_valid
  rw [List.all_eq_true]
  intro x hx
  simp only [is_valid_color_assignment, Bool.not_eq_true', List.any_eq_false]
  intro y hy
  intro hc
  have heqc := beq_iff_eq.mp hc
  have := conflict_pair_dir g hwb hy heqc
  omega

theorem dir_zero_valid (g : AdjList) (hwb : g.wb = true) {col : List ℕ}
    (hdir : dir_conflicts g col = 0) : is_coloring_valid g col = true := by
  unfold is_coloring_valid
  rw [List.all_eq_true]
  intro x hx
  simp only [is_valid_color_assignment, Bool.not_eq_true', List.any_eq_false]
  intro y hy
  intro hc
  have heqc := beq_iff_eq.mp hc
  have := conflict_pair_dir g hwb hy heqc
  omega

theorem ls_move_len {cl : List (List ℕ)} {v oc bc : ℕ} {cl2 : List (List ℕ)}
    (h : ls_move cl v oc bc = .ok cl2) : cl2.length = cl.length := by
  unfold ls_move at h
  obtain ⟨oc_class, hg1, h⟩ := res_bind_ok h
  obtain ⟨idx, hg2, h⟩ := res_bind_ok h
  obtain ⟨cl1, hg3, h⟩ := res_bind_ok h
  obtain ⟨bc_class, hg4, h⟩ := res_bind_ok h
  obtain ⟨h3a, h3b⟩ := vec_set_eq_ok hg3
  obtain ⟨ha, hb⟩ := vec_set_eq_ok h
  rw [hb, List.length_set, h3b, List.length_set]

theorem ls_loop_exit_gf (graph : AdjList) (rng : ℕ → ℕ) :
    ∀ (f fc : ℕ) (fvs : List ℕ) (cl : List (List ℕ)) (ceil ni k : ℕ)
      (r : ℕ × List (List ℕ) × ℕ),
      get_forbidden_vertices graph cl = .ok (fc, fvs) →
      ls_loop graph rng f fc fvs cl ceil ni k = .ok r →
      (∃ fvs2, get_forbidden_vertices graph r.2.1 = .ok (r.1, fvs2)) ∧
        r.2.1.length = cl.length := by
  intro f
  induction f with
  | zero =>
    intro fc fvs cl ceil ni k r hgf h
    simp [ls_loop] at h
  | succ f ih =>
    intro fc fvs cl ceil ni k r hgf h
    by_cases hcond : fc > 0 ∧ ni < ceil
    · simp only [ls_loop, if_pos hcond] at h
      cases hch : rchoose fvs (rng k) with
      | none => simp [hch] at h
      | some v =>
        simp only [hch] at h
        cases hgc : get_coloring_from_class_list graph.num_vertices cl with
        | ok coloring =>
          simp only [hgc, Res.bind] at h
          by_cases himp : (ls_best graph coloring v (List.range' 1 cl.length)
              (count_forbidden_per_vertex graph coloring v, coloring.getD v 0)).1 <
              count_forbidden_per_vertex graph coloring v
          · rw [if_pos himp] at h
            cases hmv : ls_move cl v (coloring.getD v 0)
                (ls_best graph coloring v (List.range' 1 cl.length)
                  (count_forbidden_per_vertex graph coloring v, coloring.getD v 0)).2 with
            | ok cl2 =>
              rw [hmv] at h
              simp only [Res.bind] at h
              cases hfv : get_forbidden_vertices graph cl2 with
              | ok fcs =>
                rw [hfv] at h
                simp only [Res.bind] at h
                obtain ⟨hex, hlen⟩ := ih fcs.1 fcs.2 cl2 ceil 0 (k + 1) r hfv h
                exact ⟨hex, by rw [hlen, ls_move_len hmv]⟩
              | panic =>
                rw [hfv] at h
                simp [Res.bind] at h
              | out =>
                rw [hfv] at h
                simp [Res.bind] at h
            | panic =>
              rw [hmv] at h
              simp [Res.bind] at h
            | out =>
              rw [hmv] at h
              simp [Res.bind] at h
          · rw [if_neg himp] at h
            exact ih fc fvs cl ceil (ni + 1) (k + 1) r hgf h
        | panic => simp [hgc, Res.bind] at h
        | out => simp [hgc, Res.bind] at h
    · simp only [ls_loop, if_neg hcond] at h
      injection h with h2
      rw [← h2]
      exact ⟨⟨fvs, hgf⟩, rfl⟩

theorem local_search_exit_gf (graph : AdjList) (cl : List (List ℕ)) (rng : ℕ → ℕ)
    (k f : ℕ) {r : ℕ × List (List ℕ) × ℕ}
    (h : local_search graph cl rng k f = .ok r) :
    (∃ fvs2, get_forbidden_vertices graph r.2.1 = .ok (r.1, fvs2)) ∧
      r.2.1.length = cl.length := by
  unfold local_search at h
  obtain ⟨fcs, hfcs, h2⟩ := res_bind_ok h
  exact ls_loop_exit_gf graph rng f fcs.1 fcs.2 cl (2 * fcs.1) 0 k r hfcs h2

theorem build_nil_sl {pairs : List (ℕ × List ℕ)} {acc out : List (List ℕ)}
    (h : build_new_classes [] pairs acc = .ok out) : pairs = [] ∧ out = acc := by
  cases pairs with
  | nil =>
    unfold build_new_classes at h
    injection h with h2
    exact ⟨rfl, h2.symm⟩
  | cons p rest =>
    have hsc : smallest_check [] p.1 p.2 = .panic := rfl
    rw [build_new_classes, hsc] at h
    simp [Res.bind] at h

theorem build_ok_length (s0 : ℕ) (sl' : List ℕ) :
    ∀ (pairs : List (ℕ × List ℕ)) (acc out : List (List ℕ)),
    build_new_classes (s0 :: sl') pairs acc = .ok out →
    out.length ≤ acc.length + (pairs.filter (fun p => !(p.1 == s0))).length := by
  intro pairs
  induction pairs with
  | nil =>
    intro acc out h
    unfold build_new_classes at h
    injection h with h2
    rw [← h2]
    simp
  | cons p rest ih =>
    intro acc out h
    rw [build_new_classes] at h
    by_cases hs : p.1 = s0
    · have hsc : smallest_check (s0 :: sl') p.1 p.2 = .ok true := by
        unfold smallest_check
        simp only [List.get?_cons_zero]
        rw [if_pos hs]
      rw [hsc] at h
      simp only [Res.bind, if_true] at h
      have hb := ih acc out h
      rw [List.filter_cons]
      have hh : (!(p.1 == s0)) = false := by
        rw [beq_iff_eq.mpr hs]
        rfl
      rw [hh]
      simp only [Bool.false_eq_true, if_false]
      exact hb
    · cases hsl : sl' with
      | nil =>
        have hsc : smallest_check (s0 :: []) p.1 p.2 = .panic := by
          unfold smallest_check
          simp only [List.get?_cons_zero]
          rw [if_neg hs]
          rfl
        rw [hsl, hsc] at h
        simp [Res.bind] at h
      | cons s1 sl'' =>
        have hsc : smallest_check (s0 :: s1 :: sl'') p.1 p.2 =
            .ok ((p.1 == s1) || p.2.isEmpty) := by
          unfold smallest_check
          simp only [List.get?_cons_zero, List.get?_cons_succ]
          rw [if_neg hs]
        rw [hsl] at h ih
        rw [hsc] at h
        simp only [Res.bind] at h
        have hh : (!(p.1 == s0)) = true := by
          rw [beq_eq_false_iff_ne.mpr hs]
          rfl
        by_cases hk : ((p.1 == s1) || p.2.isEmpty) = true
        · rw [if_pos hk] at h
          have hb := ih acc out h
          rw [List.filter_cons, hh]
          simp only [if_true, List.length_cons]
          omega
        · rw [if_neg hk] at h
          have hb := ih (acc ++ [p.2]) out h
          rw [List.length_append] at hb
          rw [List.filter_cons, hh]
          simp only [if_true, List.length_cons]
          simp only [List.length_cons, List.length_nil] at hb
          omega

theorem sl_head_lt (cl : List (List ℕ)) (nc : ℕ) {s0 : ℕ} {sl' : List ℕ}
    (h : ((((((enum_from 0 cl).map (fun p => (p.1, p.2.length))).take nc).stable_sort
        (fun lhs rhs => rhs.2 ≤ lhs.2)).reverse.take 2).map (fun p => p.1)) = s0 :: sl') :
    s0 < cl.length := by
  have hmem : s0 ∈ ((((((enum_from 0 cl).map (fun p => (p.1, p.2.length))).take nc).stable_sort
      (fun lhs rhs => rhs.2 ≤ lhs.2)).reverse.take 2).map (fun p => p.1)) := by
    rw [h]
    exact List.mem_cons_self _ _
  obtain ⟨p, hp, rfl⟩ := List.mem_map.mp hmem
  have hp1 := (List.take_sublist _ _).mem hp
  rw [List.mem_reverse] at hp1
  have hp2 := (List.stable_sort_perm _ _).mem_iff.mp hp1
  have hp3 := (List.take_sublist _ _).mem hp2
  obtain ⟨q, hq, rfl⟩ := List.mem_map.mp hp3
  obtain ⟨j, hget, hfst⟩ := enum_from_mem hq
  have := (List.get?_eq_some.mp hget).1
  omega

theorem enum_filter_ne_length (cl : List (List ℕ)) (s0 : ℕ) (hs0 : s0 < cl.length) :
    ((enum_from 0 cl).filter (fun p => !(p.1 == s0))).length = cl.length - 1 := by
  have hsplit := List.filter_append_perm
    (fun p : ℕ × List ℕ => p.1 == s0) (enum_from 0 cl)
  have hone : (enum_from 0 cl).filter (fun p : ℕ × List ℕ => p.1 == s0) =
      [(s0, cl.getD s0 [])] := by
    have := enum_filter_eq_single cl 0 s0 (Nat.zero_le _) (by omega)
    simpa using this
  have hlen := hsplit.length_eq
  rw [List.length_append, hone, enum_from_length] at hlen
  simp only [List.length_cons, List.length_nil] at hlen
  omega

theorem improve_loop_result (g : AdjList) (rng : ℕ → ℕ) :
    ∀ (f nc : ℕ) (cl : List (List ℕ)) (k : ℕ) (r : ℕ × List (List ℕ) × ℕ),
      improve_loop g rng f nc cl k = .ok r →
      r.2.1 = cl ∨ ((∃ fvs2, get_forbidden_vertices g r.2.1 = .ok (0, fvs2)) ∧
        r.2.1.length ≤ max cl.length 1) := by
  intro f
  induction f with
  | zero =>
    intro nc cl k r h
    simp [improve_loop] at h
  | succ f ih =>
    intro nc cl k r h
    simp only [improve_loop] at h
    obtain ⟨NEW, hbuild, h⟩ := res_bind_ok h
    obtain ⟨lsr, hls, h⟩ := res_bind_ok h
    have hNEWlen : NEW.length ≤ max cl.length 1 := by
      cases hslc : ((((((enum_from 0 cl).map (fun p => (p.1, p.2.length))).take nc).stable_sort
          (fun lhs rhs => rhs.2 ≤ lhs.2)).reverse.take 2).map (fun p => p.1)) with
      | nil =>
        rw [hslc] at hbuild
        obtain ⟨hpairs, hout⟩ := build_nil_sl hbuild
        have : cl.length = 0 := by
          rw [← enum_from_length cl 0, hpairs]
          rfl
        rw [hout]
        simp
      | cons s0 sl' =>
        rw [hslc] at hbuild
        have hb := build_ok_length s0 sl' _ _ _ hbuild
        have hs0 : s0 < cl.length := sl_head_lt cl nc hslc
        rw [enum_filter_ne_length cl s0 hs0] at hb
        simp only [List.length_cons, List.length_nil] at hb
        omega
    by_cases hz : lsr.1 = 0
    · rw [if_pos hz] at h
      obtain ⟨hgfN, hlenN⟩ := local_search_exit_gf g NEW rng k (f + 1) hls
      rcases ih lsr.2.1.length lsr.2.1 lsr.2.2 r h with heq | ⟨hex, hlen⟩
      · refine Or.inr ⟨?_, ?_⟩
        · rw [heq, ← hz]
          exact hgfN
        · rw [heq, hlenN]
          omega
      · refine Or.inr ⟨hex, ?_⟩
        rw [hlenN] at hlen
        rcases Nat.le_total NEW.length 1 with h1 | h1 <;> omega
    · rw [if_neg hz] at h
      injection h with h2
      rw [← h2]
      exact Or.inl rfl

theorem enum_from_append {α : Type} (a : List α) :
    ∀ (b : List α) (k : ℕ),
    enum_from k (a ++ b) = enum_from k a ++ enum_from (k + a.length) b := by
  induction a with
  | nil =>
    intro b k
    simp [enum_from]
  | cons x rest ih =>
    intro b k
    have hidx : k + 1 + rest.length = k + (rest.length + 1) := by omega
    show (k, x) :: enum_from (k + 1) (rest ++ b) =
      (k, x) :: enum_from (k + 1) rest ++ enum_from (k + (rest.length + 1)) b
    rw [ih b (k + 1), hidx]
    rfl

theorem set_class_vertices_ne_out (i : ℕ) :
    ∀ (c c0 : List ℕ), set_class_vertices i c c0 ≠ .out := by
  intro c
  induction c with
  | nil =>
    intro c0 h
    exact Res.noConfusion h
  | cons v vs ih =>
    intro c0 h
    simp only [set_class_vertices] at h
    by_cases hv : v < c0.length
    · rw [if_pos hv] at h
      by_cases hz : c0.getD v 0 = 0
      · rw [if_pos hz] at h
        exact ih _ h
      · rw [if_neg hz] at h
        exact Res.noConfusion h
    · rw [if_neg hv] at h
      exact Res.noConfusion h

theorem gcfcl_go_ne_out : ∀ (pairs : List (ℕ × List ℕ)) (c0 : List ℕ),
    gcfcl_go pairs c0 ≠ .out := by
  intro pairs
  induction pairs with
  | nil =>
    intro c0 h
    exact Res.noConfusion h
  | cons p rest ih =>
    intro c0 h
    obtain ⟨i, c⟩ := p
    simp only [gcfcl_go] at h
    cases hset : set_class_vertices i c c0 with
    | ok c1 =>
      rw [hset] at h
      simp only [Res.bind] at h
      exact ih c1 h
    | panic =>
      rw [hset] at h
      exact Res.noConfusion h
    | out => exact set_class_vertices_ne_out i c c0 hset

theorem gcfcl_go_empties : ∀ (pairs : List (ℕ × List ℕ)) (col : List ℕ),
    (∀ p ∈ pairs, p.2 = []) → gcfcl_go pairs col = .ok col := by
  intro pairs
  induction pairs with
  | nil =>
    intro col _
    rfl
  | cons p rest ih =>
    intro col hall
    have hp : p.2 = [] := hall p (List.mem_cons_self _ _)
    obtain ⟨i, c⟩ := p
    simp only at hp
    subst hp
    show Res.bind (set_class_vertices i [] col) (gcfcl_go rest) = .ok col
    rw [show set_class_vertices i [] col = .ok col from rfl]
    simp only [Res.bind]
    exact ih col (fun q hq => hall q (List.mem_cons_of_mem _ hq))

theorem gcfcl_go_append_empties :
    ∀ (pairs1 pairs2 : List (ℕ × List ℕ)) (c0 : List ℕ),
    (∀ p ∈ pairs2, p.2 = []) →
    gcfcl_go (pairs1 ++ pairs2) c0 = gcfcl_go pairs1 c0 := by
  intro pairs1
  induction pairs1 with
  | nil =>
    intro pairs2 c0 h2
    rw [List.nil_append]
    show gcfcl_go pairs2 c0 = .ok c0
    exact gcfcl_go_empties pairs2 c0 h2
  | cons p rest ih =>
    intro pairs2 c0 h2
    obtain ⟨i, c⟩ := p
    rw [List.cons_append]
    show Res.bind (set_class_vertices i c c0) (gcfcl_go (rest ++ pairs2)) =
      Res.bind (set_class_vertices i c c0) (gcfcl_go rest)
    cases hset : set_class_vertices i c c0 with
    | ok c1 =>
      simp only [Res.bind]
      exact ih pairs2 c1 h2
    | panic => rfl
    | out => rfl

theorem get_coloring_pad (n : ℕ) (cl : List (List ℕ)) (m : ℕ) :
    get_coloring_from_class_list n (cl ++ List.replicate m []) =
      get_coloring_from_class_list n cl := by
  unfold get_coloring_from_class_list
  rw [enum_from_append]
  refine gcfcl_go_append_empties _ _ _ ?_
  intro p hp
  obtain ⟨j, hget, hfst⟩ := enum_from_mem hp
  have := List.get?_mem hget
  exact List.eq_of_mem_replicate this

theorem get_coloring_resize (n : ℕ) (cl : List (List ℕ)) (hle : cl.length ≤ n) :
    get_coloring_from_class_list n (list_resize cl n []) =
      get_coloring_from_class_list n cl := by
  unfold list_resize
  rw [List.take_of_length_le hle]
  exact get_coloring_pad n cl (n - cl.length)

theorem acl_loop_prop (g : AdjList) (hwb : g.wb = true) (cls : ℕ) (rng : ℕ → ℕ)
    (vs0 : List ℕ) :
    ∀ (fuel : ℕ) (adm inadm cc : List ℕ) (k : ℕ) (r : List ℕ × ℕ),
      (∀ x ∈ adm, x ∈ vs0) →
      (∀ x ∈ cc, x ∈ vs0) →
      cc.Nodup →
      (∀ u ∈ cc, ∀ w ∈ adm, w ≠ u ∧ w ∉ g.adj_list.getD u []) →
      (∀ u ∈ cc, ∀ v ∈ cc, ¬ (g.adj_list.getD u []).contains v) →
      acl_loop g cls rng fuel adm inadm cc k = .ok r →
      (∀ x ∈ r.1, x ∈ vs0) ∧ r.1.Nodup ∧
        (∀ u ∈ r.1, ∀ v ∈ r.1, ¬ (g.adj_list.getD u []).contains v) := by
  obtain ⟨_, _, hsym, hloop⟩ := wb_adj_parts hwb
  intro fuel
  induction fuel with
  | zero =>
    intro adm inadm cc k r _ _ _ _ _ h
    simp [acl_loop] at h
  | succ fuel ih =>
    intro adm inadm cc k r hadm hcc hnd hP1 hind h
    simp only [acl_loop] at h
    by_cases hemp : adm.isEmpty
    · rw [if_pos hemp] at h
      injection h with h2
      rw [← h2]
      exact ⟨hcc, hnd, hind⟩
    · rw [if_neg hemp] at h
      have hcont : ∀ CAND : List ℕ, (∀ x ∈ CAND, x ∈ adm) →
          (match rchoose CAND (rng k) with
            | none => Res.panic
            | some vertex =>
              acl_loop g cls rng fuel
                (adm.filter (fun node => !(node == vertex) &&
                  !((g.adj_list.getD vertex []).contains node)))
                (inadm ++ g.adj_list.getD vertex [])
                (cc ++ [vertex]) (k + 1)) = .ok r →
          (∀ x ∈ r.1, x ∈ vs0) ∧ r.1.Nodup ∧
            (∀ u ∈ r.1, ∀ v ∈ r.1, ¬ (g.adj_list.getD u []).contains v) := by
        intro CAND hsub hm
        cases hch : rchoose CAND (rng k) with
        | none =>
          rw [hch] at hm
          exact absurd hm (by simp)
        | some vertex =>
          rw [hch] at hm
          have hvadm : vertex ∈ adm := hsub vertex (rchoose_mem hch)
          have hvcc : vertex ∉ cc := fun hc => (hP1 vertex hc vertex hvadm).1 rfl
          have hwfacts : ∀ w, w ∈ adm.filter (fun node => !(node == vertex) &&
              !((g.adj_list.getD vertex []).contains node)) →
              w ∈ adm ∧ w ≠ vertex ∧ w ∉ g.adj_list.getD vertex [] := by
            intro w hw
            obtain ⟨hw1, hw2⟩ := List.mem_filter.mp hw
            rw [Bool.and_eq_true] at hw2
            obtain ⟨hw3, hw4⟩ := hw2
            refine ⟨hw1, ?_, ?_⟩
            · rw [Bool.not_eq_true'] at hw3
              exact beq_eq_false_iff_ne.mp hw3
            · rw [Bool.not_eq_true'] at hw4
              intro hc
              have hcc2 : (g.adj_list.getD vertex []).contains w = true :=
                List.elem_eq_true_of_mem hc
              rw [hw4] at hcc2
              exact Bool.noConfusion hcc2
          refine ih _ _ _ _ _ ?_ ?_ ?_ ?_ ?_ hm
          · intro x hx
            exact hadm x (hwfacts x hx).1
          · intro x hx
            rcases List.mem_append.mp hx with hx1 | hx1
            · exact hcc x hx1
            · rw [List.mem_singleton] at hx1
              subst hx1
              exact hadm x hvadm
          · rw [(List.perm_append_singleton vertex cc).nodup_iff]
            exact List.nodup_cons.mpr ⟨hvcc, hnd⟩
          · intro u hu w hw
            obtain ⟨hw1, hw2, hw3⟩ := hwfacts w hw
            rcases List.mem_append.mp hu with hu1 | hu1
            · exact hP1 u hu1 w hw1
            · rw [List.mem_singleton] at hu1
              subst hu1
              exact ⟨hw2, hw3⟩
          · intro u hu v hv
            rcases List.mem_append.mp hu with hu1 | hu1 <;>
              rcases List.mem_append.mp hv with hv1 | hv1
            · exact hind u hu1 v hv1
            · rw [List.mem_singleton] at hv1
              subst hv1
              have := (hP1 u hu1 v hvadm).2
              intro hc
              exact this (List.mem_of_elem_eq_true hc)
            · rw [List.mem_singleton] at hu1
              subst hu1
              have hvn : v ∉ g.adj_list.getD u [] := by
                have hcnt : (g.adj_list.getD v []).count u = 0 :=
                  List.count_eq_zero.mpr (hP1 v hv1 u hvadm).2
                rw [hsym v u] at hcnt
                exact List.count_eq_zero.mp hcnt
              intro hc
              exact hvn (List.mem_of_elem_eq_true hc)
            · rw [List.mem_singleton] at hu1 hv1
              subst hu1
              subst hv1
              intro hc
              exact hloop v (List.mem_of_elem_eq_true hc)
      by_cases hin : inadm.isEmpty
      · rw [if_pos hin] at h
        exact hcont _ (get_n_largest_degree_subset cls g adm none) h
      · rw [if_neg hin] at h
        exact hcont _ (get_n_largest_degree_subset cls g adm (some inadm)) h

theorem flatten_eq_take (cl : List (List ℕ)) (nc : ℕ)
    (hemp : ∀ i, nc ≤ i → cl.getD i [] = []) :
    cl.flatten = (cl.take nc).flatten := by
  conv_lhs => rw [← List.take_append_drop nc cl]
  rw [List.flatten_append]
  have hdrop : (cl.drop nc).flatten = [] := by
    rw [List.flatten_eq_nil_iff]
    intro x hx
    obtain ⟨j, hj⟩ := List.mem_iff_get?.mp hx
    rw [List.get?_drop] at hj
    have := hemp (nc + j) (by omega)
    rw [getD_eq_of_get? hj] at this
    exact this
  rw [hdrop, List.append_nil]

theorem take_eq_of_getD (cl CL : List (List ℕ)) (nc : ℕ)
    (hlen : CL.length = cl.length)
    (h : ∀ j, j ≠ nc → CL.getD j [] = cl.getD j []) (hnc : nc ≤ CL.length) :
    CL.take nc = cl.take nc := by
  refine List.ext_get? ?_
  intro j
  by_cases hj : j < nc
  · rw [List.get?_take hj, List.get?_take hj]
    have hjlen : j < CL.length := by omega
    have hjlen2 : j < cl.length := by omega
    rw [get?_of_lt hjlen, get?_of_lt hjlen2, h j (by omega)]
  · have h1 : (CL.take nc).get? j = none := by
      rw [List.get?_eq_none, List.length_take]
      omega
    have h2 : (cl.take nc).get? j = none := by
      rw [List.get?_eq_none, List.length_take]
      omega
    rw [h1, h2]

theorem assign_color_prop (g : AdjList) (hwb : g.wb = true) (vs : List ℕ)
    (cls mn : ℕ) (cl : List (List ℕ)) (nc : ℕ) (rng : ℕ → ℕ) (k fuel : ℕ)
    {st : ℕ × List (List ℕ) × ℕ}
    (h : assign_color vs cls g mn cl nc rng k fuel = .ok st) :
    st.2.1 = cl ∨ (nc - 1 < cl.length ∧ ∃ cc, st.2.1 = cl.set (nc - 1) cc ∧
      (∀ x ∈ cc, x ∈ vs) ∧ cc.Nodup ∧
      (∀ u ∈ cc, ∀ v ∈ cc, ¬ (g.adj_list.getD u []).contains v)) := by
  unfold assign_color at h
  obtain ⟨cc, hacl, h⟩ := res_bind_ok h
  have hprop := acl_loop_prop g hwb cls rng vs fuel vs [] [] k cc
    (fun x hx => hx) (fun x hx => absurd hx (List.not_mem_nil x))
    List.nodup_nil
    (fun u hu => absurd hu (List.not_mem_nil u))
    (fun u hu => absurd hu (List.not_mem_nil u)) hacl
  simp only at h
  by_cases himp : count_remaining_edges g
      (vs.filter (fun vertex => !(cc.1.contains vertex))) < mn
  · rw [if_pos himp] at h
    obtain ⟨cl2, hset, h⟩ := res_bind_ok h
    obtain ⟨hidx, hcl2⟩ := vec_set_eq_ok hset
    injection h with h2
    rw [← h2]
    exact Or.inr ⟨hidx, cc.1, hcl2, hprop⟩
  · rw [if_neg himp] at h
    injection h with h2
    rw [← h2]
    exact Or.inl rfl

theorem color_iters_prop (g : AdjList) (hwb : g.wb = true) (vs : List ℕ)
    (cls nc : ℕ) (rng : ℕ → ℕ) (fuel : ℕ) (cl : List (List ℕ)) :
    ∀ (it : ℕ) (st r : ℕ × List (List ℕ) × ℕ),
      (st.2.1.length = cl.length ∧
        (∀ j, j ≠ nc - 1 → st.2.1.getD j [] = cl.getD j []) ∧
        (st.2.1.getD (nc - 1) [] = cl.getD (nc - 1) [] ∨
          ((∀ x ∈ st.2.1.getD (nc - 1) [], x ∈ vs) ∧ (st.2.1.getD (nc - 1) []).Nodup ∧
            (∀ u ∈ st.2.1.getD (nc - 1) [], ∀ v ∈ st.2.1.getD (nc - 1) [],
              ¬ (g.adj_list.getD u []).contains v)))) →
      color_iters g cls rng vs nc fuel it st = .ok r →
      (r.2.1.length = cl.length ∧
        (∀ j, j ≠ nc - 1 → r.2.1.getD j [] = cl.getD j []) ∧
        (r.2.1.getD (nc - 1) [] = cl.getD (nc - 1) [] ∨
          ((∀ x ∈ r.2.1.getD (nc - 1) [], x ∈ vs) ∧ (r.2.1.getD (nc - 1) []).Nodup ∧
            (∀ u ∈ r.2.1.getD (nc - 1) [], ∀ v ∈ r.2.1.getD (nc - 1) [],
              ¬ (g.adj_list.getD u []).contains v)))) := by
  intro it
  induction it with
  | zero =>
    intro st r hgood h
    injection h with h2
    rw [← h2]
    exact hgood
  | succ it ih =>
    intro st r hgood h
    rw [color_iters] at h
    obtain ⟨st1, hac, h⟩ := res_bind_ok h
    refine ih st1 r ?_ h
    obtain ⟨hlen, hother, hpos⟩ := hgood
    rcases assign_color_prop g hwb vs cls st.1 st.2.1 nc rng st.2.2 fuel hac
      with heq | ⟨hidx, cc, hset, hcc⟩
    · rw [heq]
      exact ⟨hlen, hother, hpos⟩
    · rw [hset]
      refine ⟨by rw [List.length_set]; exact hlen, ?_, ?_⟩
      · intro j hj
        rw [getD_set_ne _ _ _ _ _ (fun hc => hj hc.symm)]
        exact hother j hj
      · rw [getD_set_self _ _ _ _ hidx]
        exact Or.inr hcc

theorem construct_loop_inv (g : AdjList) (hwb : g.wb = true) (ci cls : ℕ)
    (rng : ℕ → ℕ) :
    ∀ (fuel : ℕ) (vs : List ℕ) (cl : List (List ℕ)) (nc k : ℕ)
      (r : ℕ × List (List ℕ) × ℕ),
      cl.length = g.num_vertices →
      (∀ i, nc ≤ i → cl.getD i [] = []) →
      ((cl.take nc).flatten ++ vs).Perm (List.range g.num_vertices) →
      (∀ c ∈ cl, ∀ u ∈ c, ∀ v ∈ c, ¬ (g.adj_list.getD u []).contains v) →
      construct_loop g ci cls rng fuel vs cl nc k = .ok r →
      r.2.1.length = g.num_vertices ∧
      (∀ i, r.1 ≤ i → r.2.1.getD i [] = []) ∧
      class_partition r.2.1 g.num_vertices ∧
      (∀ c ∈ r.2.1, ∀ u ∈ c, ∀ v ∈ c, ¬ (g.adj_list.getD u []).contains v) := by
  intro fuel
  induction fuel with
  | zero =>
    intro vs cl nc k r _ _ _ _ h
    simp [construct_loop] at h
  | succ fuel ih =>
    intro vs cl nc k r hlen hemp hperm hind h
    simp only [construct_loop] at h
    by_cases hvs : vs.isEmpty
    · rw [if_pos hvs] at h
      injection h with h2
      rw [← h2]
      have hvs2 : vs = [] := List.isEmpty_iff.mp hvs
      subst hvs2
      rw [List.append_nil] at hperm
      refine ⟨hlen, hemp, ?_, hind⟩
      unfold class_partition
      rw [flatten_eq_take cl nc hemp]
      exact hperm
    · rw [if_neg hvs] at h
      obtain ⟨st, hci, h⟩ := res_bind_ok h
      obtain ⟨kept, hget, h⟩ := res_bind_ok h
      have hgood := color_iters_prop g hwb vs cls (nc + 1) rng (fuel + 1) cl ci
        (usize_max, cl, k) st ⟨rfl, fun j _ => rfl, Or.inl rfl⟩ hci
      obtain ⟨hlen1, hother, hpos⟩ := hgood
      have hkget := vec_get_ok.mp hget
      have hkidx : (nc + 1) - 1 < st.2.1.length := (List.get?_eq_some.mp hkget).1
      have hkval : st.2.1.getD ((nc + 1) - 1) [] = kept := getD_eq_of_get? hkget
      have hncs : (nc + 1) - 1 = nc := rfl
      rw [hncs] at hkidx hkval hkget
      rw [hncs] at hother hpos
      have hclnc : cl.getD nc [] = [] := hemp nc (Nat.le_refl nc)
      have hkfacts : (∀ x ∈ kept, x ∈ vs) ∧ kept.Nodup ∧
          (∀ u ∈ kept, ∀ v ∈ kept, ¬ (g.adj_list.getD u []).contains v) := by
        rcases hpos with hempk | hprops
        · rw [hclnc] at hempk
          rw [hkval] at hempk
          subst hempk
          exact ⟨fun x hx => absurd hx (List.not_mem_nil x),
            List.nodup_nil, fun u hu => absurd hu (List.not_mem_nil u)⟩
        · rw [hkval] at hprops
          exact hprops
      obtain ⟨hksub, hknd, hkind⟩ := hkfacts
      -- nodup facts from the partition perm
      have hrnodup : ((cl.take nc).flatten ++ vs).Nodup :=
        hperm.nodup_iff.mpr (List.nodup_range _)
      have hvsnd : vs.Nodup := (List.nodup_append.mp hrnodup).2.1
      -- the new prefix flatten
      have htake : st.2.1.take (nc + 1) = cl.take nc ++ [kept] := by
        rw [List.take_succ]
        have ht1 : st.2.1.take nc = cl.take nc :=
          take_eq_of_getD cl st.2.1 nc (by rw [hlen1]) hother (by omega)
        rw [ht1]
        congr 1
        rw [← List.get?_eq_getElem?, hkget]
        rfl
      -- vs splits as kept ++ vs'
      have hsplit := List.filter_append_perm (fun v => kept.contains v) vs
      have hkeq : (vs.filter (fun v => kept.contains v)).Perm kept := by
        have hnd1 : (vs.filter (fun v => kept.contains v)).Nodup :=
          hvsnd.sublist (List.filter_sublist vs)
        rw [List.perm_ext_iff_of_nodup hnd1 hknd]
        intro a
        rw [List.mem_filter]
        constructor
        · rintro ⟨_, ha2⟩
          exact List.mem_of_elem_eq_true ha2
        · intro ha
          exact ⟨hksub a ha, List.elem_eq_true_of_mem ha⟩
      have hvssplit : (kept ++ vs.filter (fun vertex => !(kept.contains vertex))).Perm vs := by
        refine List.Perm.trans ?_ hsplit
        exact hkeq.symm.append (List.Perm.refl _)
      refine ih (vs.filter (fun vertex => !(kept.contains vertex))) st.2.1 (nc + 1)
        st.2.2 r (by rw [hlen1, hlen]) ?_ ?_ ?_ h
      · intro i hi
        rw [hother i (by omega)]
        exact hemp i (by omega)
      · rw [htake, List.flatten_append]
        have hfl : ([kept] : List (List ℕ)).flatten = kept := by simp
        rw [hfl]
        have hassoc : ((cl.take nc).flatten ++ kept) ++
            vs.filter (fun vertex => !(kept.contains vertex)) =
            (cl.take nc).flatten ++ (kept ++
              vs.filter (fun vertex => !(kept.contains vertex))) := by
          rw [List.append_assoc]
        rw [hassoc]
        exact List.Perm.trans (hvssplit.append_left _) hperm
      · intro c hc u hu v hv
        obtain ⟨j, hj⟩ := List.mem_iff_get?.mp hc
        have hjlen : j < st.2.1.length := (List.get?_eq_some.mp hj).1
        have hjval : st.2.1.getD j [] = c := getD_eq_of_get? hj
        by_cases hjnc : j = nc
        · subst hjnc
          rw [hkval] at hjval
          subst hjval
          exact hkind u hu v hv
        · rw [hother j hjnc] at hjval
          have hcmem : c ∈ cl := by
            rw [← hjval]
            refine getD_mem cl j [] ?_
            rw [← hlen1]
            omega
          exact hind c hcmem u hu v hv

theorem independent_partition_valid (g : AdjList) (hwb : g.wb = true)
    {cl : List (List ℕ)} (hpart : class_partition cl g.num_vertices)
    (hind : ∀ c ∈ cl, ∀ u ∈ c, ∀ v ∈ c, ¬ (g.adj_list.getD u []).contains v)
    {col : List ℕ} (hcol : get_coloring_from_class_list g.num_vertices cl = .ok col) :
    is_coloring_valid g col = true := by
  obtain ⟨hlen, hent, hsym, hloop⟩ := wb_adj_parts hwb
  obtain ⟨col2, hrun, hclen, hval, hcov⟩ := get_coloring_partition_spec hpart
  rw [hcol] at hrun
  injection hrun with hrun
  subst hrun
  unfold is_coloring_valid
  rw [List.all_eq_true]
  intro x hx
  rw [List.mem_range] at hx
  simp only [is_valid_color_assignment, Bool.not_eq_true', List.any_eq_false]
  intro y hy hc
  have heqc : col.getD x 0 = col.getD y 0 := beq_iff_eq.mp hc
  have hyn : y < g.num_vertices := hent x y hy
  obtain ⟨i, hi, hxi⟩ := hcov x hx
  obtain ⟨j, hj, hyj⟩ := hcov y hyn
  have hvx := hval i hi x hxi
  have hvy := hval j hj y hyj
  have hij : i = j := by
    rw [hvx, hvy] at heqc
    omega
  subst hij
  have := hind (cl.getD i []) (getD_mem cl i [] hi) x hxi y hyj
  exact this (List.elem_eq_true_of_mem hy)

theorem grasp_attempt_valid (g : AdjList) (hwb : g.wb = true) (ci cls : ℕ)
    (rng : ℕ → ℕ) (fuel : ℕ) {s : ℕ × List ℕ}
    (h : grasp_attempt g ci cls rng fuel = .ok s) :
    is_coloring_valid g s.2 = true := by
  unfold grasp_attempt at h
  simp only at h
  obtain ⟨st, hcon, h⟩ := res_bind_ok h
  obtain ⟨st2, himp, h⟩ := res_bind_ok h
  obtain ⟨coloring, hcol, h⟩ := res_bind_ok h
  injection h with h2
  rw [← h2]
  obtain ⟨hslen, hsemp, hspart, hsind⟩ := construct_loop_inv g hwb ci cls rng fuel
    (List.range g.num_vertices) (List.replicate g.num_vertices []) 0 0 st
    (List.length_replicate _ _)
    (fun i _ => getD_replicate _ i [])
    (by
      rw [List.take_zero]
      exact List.Perm.refl _)
    (fun c hc u hu v hv => by
      rw [List.eq_of_mem_replicate hc] at hu
      exact absurd hu (List.not_mem_nil u))
    hcon
  unfold improve_phase at himp
  obtain ⟨ir, hil, himp2⟩ := res_bind_ok himp
  injection himp2 with himp2
  rw [← himp2] at hcol
  simp only at hcol
  rcases improve_loop_result g rng fuel st.1 st.2.1 st.2.2 ir hil
    with hsame | ⟨⟨fvs2, hgf0⟩, hlen0⟩
  · rw [hsame] at hcol
    rw [get_coloring_resize _ _ (by rw [hslen])] at hcol
    exact independent_partition_valid g hwb hspart hsind hcol
  · by_cases hn0 : g.num_vertices = 0
    · show is_coloring_valid g coloring = true
      unfold is_coloring_valid
      rw [hn0]
      rfl
    · have hle : ir.2.1.length ≤ g.num_vertices := by
        rw [hslen] at hlen0
        rcases Nat.le_total g.num_vertices 1 with h1 | h1 <;> omega
      rw [get_coloring_resize _ _ hle] at hcol
      obtain ⟨col3, hcol3, hvalid⟩ := gf_zero_valid g hwb hgf0
      rw [hcol] at hcol3
      injection hcol3 with hcol3
      rw [hcol3]
      exact hvalid

theorem attempts_map_mem (g : AdjList) (ci cls : ℕ) (rngs : ℕ → ℕ → ℕ) (fuel : ℕ) :
    ∀ (L : List ℕ) (all : List (ℕ × List ℕ)),
      attempts_map g ci cls rngs fuel L = .ok all →
      ∀ s ∈ all, ∃ i, grasp_attempt g ci cls (rngs i) fuel = .ok s := by
  intro L
  induction L with
  | nil =>
    intro all h s hs
    injection h with h2
    rw [← h2] at hs
    exact absurd hs (List.not_mem_nil s)
  | cons i rest ih =>
    intro all h s hs
    rw [attempts_map] at h
    obtain ⟨s0, hs0, h⟩ := res_bind_ok h
    obtain ⟨l, hl, h⟩ := res_bind_ok h
    injection h with h2
    rw [← h2] at hs
    rcases List.mem_cons.mp hs with rfl | hmem
    · exact ⟨i, hs0⟩
    · exact ih l hl s hmem

theorem heap_peek_mem {l : List (ℕ × List ℕ)} {m : ℕ × List ℕ}
    (h : heap_peek l = some m) : m ∈ l := by
  cases l with
  | nil => exact absurd h (by simp [heap_peek])
  | cons a rest =>
    obtain ⟨m2, hp, hmem, _⟩ := heap_peek_spec (a :: rest) (by simp)
    rw [h] at hp
    injection hp with hp
    rw [hp]
    exact hmem

theorem heap_fold_mem (ns : ℕ) :
    ∀ (inp acc out : List (ℕ × List ℕ)), heap_fold ns inp acc = .ok out →
      ∀ x ∈ out, x ∈ inp ∨ x ∈ acc := by
  intro inp
  induction inp with
  | nil =>
    intro acc out h x hx
    injection h with h2
    rw [← h2] at hx
    exact Or.inr hx
  | cons s rest ih =>
    intro acc out h x hx
    rw [heap_fold] at h
    by_cases hlt : acc.length < ns
    · rw [if_pos hlt] at h
      rcases ih (s :: acc) out h x hx with hr | hr
      · exact Or.inl (List.mem_cons_of_mem _ hr)
      · rcases List.mem_cons.mp hr with rfl | hr2
        · exact Or.inl (List.mem_cons_self _ _)
        · exact Or.inr hr2
    · rw [if_neg hlt] at h
      cases hp : heap_peek acc with
      | none =>
        rw [hp] at h
        exact absurd h (by simp)
      | some m =>
        rw [hp] at h
        dsimp only at h
        by_cases hc : s.1 < m.1
        · rw [if_pos hc] at h
          rcases ih (s :: heap_remove acc m) out h x hx with hr | hr
          · exact Or.inl (List.mem_cons_of_mem _ hr)
          · rcases List.mem_cons.mp hr with rfl | hr2
            · exact Or.inl (List.mem_cons_self _ _)
            · exact Or.inr ((heap_remove_sublist acc m).mem hr2)
        · rw [if_neg hc] at h
          rcases ih acc out h x hx with hr | hr
          · exact Or.inl (List.mem_cons_of_mem _ hr)
          · exact Or.inr hr

theorem grasp_wrapper_valid (g : AdjList) (hwb : g.wb = true)
    (gi ci cls : ℕ) (rngs : ℕ → ℕ → ℕ) (fuel : ℕ) {s : ℕ × List ℕ}
    (h : grasp_wrapper g gi ci cls rngs fuel = .ok s) :
    is_coloring_valid g s.2 = true := by
  unfold grasp_wrapper grasp at h
  obtain ⟨sols, hsols, h⟩ := res_bind_ok h
  obtain ⟨all, hall, hfold⟩ := res_bind_ok hsols
  cases hp : heap_peek sols with
  | none =>
    rw [hp] at h
    exact absurd h (by simp)
  | some m =>
    rw [hp] at h
    injection h with h2
    rw [← h2]
    have hmem := heap_peek_mem hp
    rcases heap_fold_mem 1 all [] sols hfold m hmem with hin | hin
    · obtain ⟨i, hatt⟩ := attempts_map_mem g ci cls rngs fuel _ all hall m hin
      exact grasp_attempt_valid g hwb ci cls (rngs i) fuel hatt
    · exact absurd hin (List.not_mem_nil m)

theorem valid_step_preserves (g : Graph) (hwb : g.wb = true)
    {off off1 : List ℕ} {i : ℕ}
    (hdiff : ∀ j, j ≠ i → off1.getD j 0 = off.getD j 0)
    (hvi : valid_color_assignment g off1 i = true) :
    ∀ j, valid_color_assignment g off j = true →
      valid_color_assignment g off1 j = true := by
  intro j hj
  by_cases hij : j = i
  · subst hij
    exact hvi
  · simp only [valid_color_assignment, Bool.not_eq_true', List.any_eq_false] at hj hvi ⊢
    intro x hx
    by_cases hxi : x = i
    · subst hxi
      have hji : j ∈ g.get_neighbors x := wb_neighbors_symm hwb hx
      have hthis := hvi j hji
      intro hc
      exact hthis (beq_iff_eq.mpr (beq_iff_eq.mp hc).symm)
    · have h1 := hdiff j hij
      have h2 := hdiff x hxi
      intro hc
      rw [h1, h2] at hc
      exact hj x hx hc

theorem reroll_spec (g : Graph) (ub i : ℕ) (rng : ℕ → ℕ) :
    ∀ (fuel : ℕ) (ind : List ℕ) (k : ℕ) (r : List ℕ × ℕ),
      reroll g ub i rng fuel ind k = .ok r →
      valid_color_assignment g r.1 i = true ∧
      (∀ j, j ≠ i → r.1.getD j 0 = ind.getD j 0) := by
  intro fuel
  induction fuel with
  | zero =>
    intro ind k r h
    simp [reroll] at h
  | succ fuel ih =>
    intro ind k r h
    rw [reroll] at h
    by_cases hv : valid_color_assignment g ind i
    · rw [if_pos hv] at h
      injection h with h2
      rw [← h2]
      exact ⟨hv, fun j _ => rfl⟩
    · rw [if_neg hv] at h
      obtain ⟨hval, hdiff⟩ := ih _ _ _ h
      refine ⟨hval, ?_⟩
      intro j hj
      rw [hdiff j hj, getD_set_ne _ _ _ _ _ (fun hc => hj hc.symm)]

theorem repair_loop_spec (g : Graph) (i : ℕ) :
    ∀ (fuel : ℕ) (off : List ℕ) (sc : ℕ) (off2 : List ℕ),
      repair_loop g i fuel off sc = .ok off2 →
      valid_color_assignment g off2 i = true ∧
      (∀ j, j ≠ i → off2.getD j 0 = off.getD j 0) := by
  intro fuel
  induction fuel with
  | zero =>
    intro off sc off2 h
    simp [repair_loop] at h
  | succ fuel ih =>
    intro off sc off2 h
    rw [repair_loop] at h
    by_cases hv : valid_color_assignment g off i
    · rw [if_pos hv] at h
      injection h with h2
      rw [← h2]
      exact ⟨hv, fun j _ => rfl⟩
    · rw [if_neg hv] at h
      obtain ⟨hval, hdiff⟩ := ih _ _ _ h
      refine ⟨hval, ?_⟩
      intro j hj
      rw [hdiff j hj, getD_set_ne _ _ _ _ _ (fun hc => hj hc.symm)]

theorem crossover_repair_valid (g : Graph) (hwb : g.wb = true) (fuel : ℕ) :
    ∀ (L : List ℕ) (off off2 : List ℕ),
      crossover_repair g fuel L off = .ok off2 →
      (∀ j, valid_color_assignment g off j = true →
        valid_color_assignment g off2 j = true) ∧
      (∀ i ∈ L, valid_color_assignment g off2 i = true) := by
  intro L
  induction L with
  | nil =>
    intro off off2 h
    injection h with h2
    rw [← h2]
    exact ⟨fun j hj => hj, fun i hi => absurd hi (List.not_mem_nil i)⟩
  | cons i rest ih =>
    intro off off2 h
    rw [crossover_repair] at h
    obtain ⟨off1, hrep, h⟩ := res_bind_ok h
    obtain ⟨hval1, hdiff1⟩ := repair_loop_spec g i fuel off 1 off1 hrep
    obtain ⟨hpres, hcover⟩ := ih off1 off2 h
    have hstep := valid_step_preserves g hwb hdiff1 hval1
    refine ⟨fun j hj => hpres j (hstep j hj), ?_⟩
    intro x hx
    rcases List.mem_cons.mp hx with rfl | hx2
    · exact hpres x hval1
    · exact hcover x hx2

theorem gen_loop_valid (g : Graph) (hwb : g.wb = true) (ub : ℕ) (rng : ℕ → ℕ)
    (fuel : ℕ) :
    ∀ (L : List ℕ) (ind : List ℕ) (k : ℕ) (r : List ℕ × ℕ),
      gen_loop g ub rng fuel L ind k = .ok r →
      (∀ i ∈ L, valid_color_assignment g r.1 i = true) := by
  intro L
  induction L with
  | nil =>
    intro ind k r _ i hi
    exact absurd hi (List.not_mem_nil i)
  | cons i rest ih =>
    intro ind k r h
    rw [gen_loop] at h
    by_cases hub : ub = 0
    · rw [if_pos hub] at h
      exact absurd h (by simp)
    · rw [if_neg hub] at h
      obtain ⟨p, hre, h9⟩ := res_bind_ok h
      obtain ⟨hval1, hdiff1⟩ := reroll_spec g ub i rng fuel _ _ p hre
      have hdiffc : ∀ j, j ≠ i → p.1.getD j 0 = ind.getD j 0 := by
        intro j hj
        rw [hdiff1 j hj, getD_set_ne _ _ _ _ _ (fun hc => hj hc.symm)]
      -- preservation for the rest of the loop
      have hrest := ih p.1 p.2 r h9
      -- show i stays valid through the remaining sweep
      have hpres : ∀ (L2 : List ℕ) (ind2 : List ℕ) (k2 : ℕ) (r2 : List ℕ × ℕ),
          gen_loop g ub rng fuel L2 ind2 k2 = .ok r2 →
          ∀ j, valid_color_assignment g ind2 j = true →
            valid_color_assignment g r2.1 j = true := by
        intro L2
        induction L2 with
        | nil =>
          intro ind2 k2 r2 h2 j hj
          injection h2 with h3
          rw [← h3]
          exact hj
        | cons i2 rest2 ih2 =>
          intro ind2 k2 r2 h2 j hj
          rw [gen_loop] at h2
          rw [if_neg hub] at h2
          obtain ⟨p2, hre2, h2⟩ := res_bind_ok h2
          obtain ⟨hval2, hdiff2⟩ := reroll_spec g ub i2 rng fuel _ _ p2 hre2
          have hdiffc2 : ∀ j2, j2 ≠ i2 → p2.1.getD j2 0 = ind2.getD j2 0 := by
            intro j2 hj2
            rw [hdiff2 j2 hj2, getD_set_ne _ _ _ _ _ (fun hc => hj2 hc.symm)]
          exact ih2 p2.1 p2.2 r2 h2 j (valid_step_preserves g hwb hdiffc2 hval2 j hj)
      intro x hx
      rcases List.mem_cons.mp hx with rfl | hx2
      · exact hpres rest p.1 p.2 r h9 x hval1
      · exact hrest x hx2

theorem mutate_loop_valid (g : Graph) (hwb : g.wb = true) (ub : ℕ)
    (mt : ℕ → Bool) (rng : ℕ → ℕ) (fuel : ℕ) :
    ∀ (L : List ℕ) (ind : List ℕ) (k : ℕ) (r : List ℕ × ℕ),
      mutate_loop g ub mt rng fuel L ind k = .ok r →
      ∀ j, valid_color_assignment g ind j = true →
        valid_color_assignment g r.1 j = true := by
  intro L
  induction L with
  | nil =>
    intro ind k r h j hj
    injection h with h2
    rw [← h2]
    exact hj
  | cons i rest ih =>
    intro ind k r h j hj
    rw [mutate_loop] at h
    by_cases htr : mt (rng k)
    · rw [if_pos htr] at h
      by_cases hub : ub = 0
      · rw [if_pos hub] at h
        exact absurd h (by simp)
      · rw [if_neg hub] at h
        obtain ⟨p, hre, h⟩ := res_bind_ok h
        obtain ⟨hval1, hdiff1⟩ := reroll_spec g ub i rng fuel _ _ p hre
        have hdiffc : ∀ j2, j2 ≠ i → p.1.getD j2 0 = ind.getD j2 0 := by
          intro j2 hj2
          rw [hdiff1 j2 hj2, getD_set_ne _ _ _ _ _ (fun hc => hj2 hc.symm)]
        exact ih p.1 p.2 r h j (valid_step_preserves g hwb hdiffc hval1 j hj)
    · rw [if_neg htr] at h
      exact ih ind (k + 1) r h j hj

theorem gcv_all {g : Graph} {col : List ℕ} :
    genetic_coloring_valid g col = true ↔
      ∀ i, i < g.num_vertices → valid_color_assignment g col i = true := by
  unfold genetic_coloring_valid
  rw [List.all_eq_true]
  constructor
  · intro h i hi
    exact h i (List.mem_range.mpr hi)
  · intro h i hi
    exact h i (List.mem_range.mp hi)

theorem crossover_valid (g : Graph) (hwb : g.wb = true) (p1 p2 : List ℕ)
    (rng : ℕ → ℕ) (k fuel : ℕ) {oc : List ℕ × ℕ}
    (h : crossover g p1 p2 rng k fuel = .ok oc) :
    genetic_coloring_valid g oc.1 = true := by
  unfold crossover at h
  by_cases hn : g.num_vertices = 0
  · rw [if_pos hn] at h
    exact absurd h (by simp)
  · rw [if_neg hn] at h
    simp only at h
    by_cases hck : rng k % g.num_vertices + 1 ≤ p1.length ∧ p2.length = g.num_vertices
    · rw [if_pos hck] at h
      obtain ⟨off, hrep, h⟩ := res_bind_ok h
      obtain ⟨_, hcover⟩ := crossover_repair_valid g hwb fuel (List.range g.num_vertices)
        _ off hrep
      injection h with h2
      rw [← h2]
      exact gcv_all.mpr (fun i hi => hcover i (List.mem_range.mpr hi))
    · rw [if_neg hck] at h
      exact absurd h (by simp)

theorem mutate_valid (g : Graph) (hwb : g.wb = true) (ind : List ℕ) (ub : ℕ)
    (mt : ℕ → Bool) (rng : ℕ → ℕ) (k fuel : ℕ) {om : List ℕ × ℕ}
    (h : mutate g ind ub mt rng k fuel = .ok om)
    (hv : genetic_coloring_valid g ind = true) :
    genetic_coloring_valid g om.1 = true := by
  unfold mutate at h
  refine gcv_all.mpr (fun i hi => ?_)
  exact mutate_loop_valid g hwb ub mt rng fuel _ _ _ _ h i (gcv_all.mp hv i hi)

theorem generate_individual_valid (g : Graph) (hwb : g.wb = true) (ub : ℕ)
    (rng : ℕ → ℕ) (fuel k : ℕ) {p : List ℕ × ℕ}
    (h : generate_individual g ub rng fuel k = .ok p) :
    genetic_coloring_valid g p.1 = true := by
  unfold generate_individual at h
  refine gcv_all.mpr (fun i hi => ?_)
  exact gen_loop_valid g hwb ub rng fuel _ _ _ _ h i (List.mem_range.mpr hi)

theorem init_population_valid (g : Graph) (hwb : g.wb = true) (ub : ℕ)
    (rng : ℕ → ℕ) (fuel : ℕ) :
    ∀ (cnt : ℕ) (pop : List (ℕ × List ℕ)) (k : ℕ) (r : List (ℕ × List ℕ) × ℕ),
      (∀ q ∈ pop, genetic_coloring_valid g q.2 = true) →
      init_population g ub rng fuel cnt pop k = .ok r →
      ∀ q ∈ r.1, genetic_coloring_valid g q.2 = true := by
  intro cnt
  induction cnt with
  | zero =>
    intro pop k r hpop h
    injection h with h2
    rw [← h2]
    exact hpop
  | succ cnt ih =>
    intro pop k r hpop h
    rw [init_population] at h
    obtain ⟨p, hgen, h⟩ := res_bind_ok h
    refine ih _ _ r ?_ h
    intro q hq
    rcases List.mem_append.mp hq with hq1 | hq1
    · exact hpop q hq1
    · rw [List.mem_singleton] at hq1
      subst hq1
      exact generate_individual_valid g hwb ub rng fuel k hgen

theorem offspring_loop_valid (g : Graph) (hwb : g.wb = true) (ub : ℕ)
    (mt : ℕ → Bool) (limit : ℕ) (rng : ℕ → ℕ) (fuel : ℕ) :
    ∀ (cnt : ℕ) (pop : List (ℕ × List ℕ)) (k : ℕ) (r : List (ℕ × List ℕ) × ℕ),
      (∀ q ∈ pop, genetic_coloring_valid g q.2 = true) →
      offspring_loop g ub mt limit rng fuel cnt pop k = .ok r →
      ∀ q ∈ r.1, genetic_coloring_valid g q.2 = true := by
  intro cnt
  induction cnt with
  | zero =>
    intro pop k r hpop h
    injection h with h2
    rw [← h2]
    exact hpop
  | succ cnt ih =>
    intro pop k r hpop h
    rw [offspring_loop] at h
    obtain ⟨pp, hsel, h⟩ := res_bind_ok h
    obtain ⟨oc, hcr, h⟩ := res_bind_ok h
    obtain ⟨om, hmu, h⟩ := res_bind_ok h
    refine ih _ _ r ?_ h
    intro q hq
    rcases List.mem_append.mp hq with hq1 | hq1
    · exact hpop q hq1
    · rw [List.mem_singleton] at hq1
      subst hq1
      exact mutate_valid g hwb oc.1 ub mt rng oc.2 fuel hmu
        (crossover_valid g hwb pp.1.1 pp.1.2 rng pp.2 fuel hcr)

theorem generation_loop_valid (g : Graph) (hwb : g.wb = true) (ub : ℕ)
    (mt : ℕ → Bool) (limit opg ps : ℕ) (rng : ℕ → ℕ) (fuel : ℕ) :
    ∀ (gens : ℕ) (pop : List (ℕ × List ℕ)) (best : ℕ × List ℕ) (k : ℕ)
      (r : (ℕ × List ℕ) × ℕ),
      (∀ q ∈ pop, genetic_coloring_valid g q.2 = true) →
      genetic_coloring_valid g best.2 = true →
      generation_loop g ub mt limit opg ps rng fuel gens pop best k = .ok r →
      genetic_coloring_valid g r.1.2 = true := by
  intro gens
  induction gens with
  | zero =>
    intro pop best k r hpop hbest h
    injection h with h2
    rw [← h2]
    exact hbest
  | succ gens ih =>
    intro pop best k r hpop hbest h
    rw [generation_loop] at h
    obtain ⟨po, hoff, h⟩ := res_bind_ok h
    simp only at h
    obtain ⟨cb, hget, h⟩ := res_bind_ok h
    have hpo := offspring_loop_valid g hwb ub mt limit rng fuel opg pop k po hpop hoff
    have htrunc : ∀ q ∈ replace (po.1.stable_sort sol_le) ps,
        genetic_coloring_valid g q.2 = true := by
      intro q hq
      unfold replace at hq
      have hq2 := (List.take_sublist _ _).mem hq
      exact hpo q ((List.stable_sort_perm _ _).mem_iff.mp hq2)
    have hcb : genetic_coloring_valid g cb.2 = true := by
      have := vec_get_ok.mp hget
      exact htrunc cb (List.get?_mem this)
    refine ih _ _ _ r htrunc ?_ h
    by_cases hlt : cb.1 < best.1
    · rw [if_pos hlt]
      exact hcb
    · rw [if_neg hlt]
      exact hbest

theorem initial_identity_valid (g : Graph) (hwb : g.wb = true) :
    genetic_coloring_valid g (List.range' 1 g.num_vertices) = true := by
  refine gcv_all.mpr (fun i hi => ?_)
  simp only [valid_color_assignment, Bool.not_eq_true', List.any_eq_false]
  intro x hx hc
  obtain ⟨_, hxn, _⟩ := (wb_mem_get_neighbors hwb i x).mp hx
  have hxi : x ≠ i := by
    intro hcx
    subst hcx
    exact wb_not_self_neighbor hwb x hx
  have h1 : (List.range' 1 g.num_vertices).getD i 0 = 1 + i := by
    rw [List.getD_eq_getElem?_getD, List.getElem?_range' _ _ hi]
    simp
  have h2 : (List.range' 1 g.num_vertices).getD x 0 = 1 + x := by
    rw [List.getD_eq_getElem?_getD, List.getElem?_range' _ _ hxn]
    simp
  rw [h1, h2] at hc
  have := beq_iff_eq.mp hc
  omega

theorem genetic_valid (g : Graph) (hwb : g.wb = true)
    (gens ps opg : ℕ) (mt : ℕ → Bool) (limit : ℕ) (rng : ℕ → ℕ) (fuel : ℕ)
    {s : ℕ × List ℕ} (h : genetic g gens ps opg mt limit rng fuel = .ok s) :
    genetic_coloring_valid g s.2 = true := by
  unfold genetic at h
  simp only at h
  obtain ⟨ip, hinit, h⟩ := res_bind_ok h
  obtain ⟨r, hgen, h⟩ := res_bind_ok h
  injection h with h2
  rw [← h2]
  have hip := init_population_valid g hwb (coloring_upper_bound g) rng fuel ps [] 0 ip
    (fun q hq => absurd hq (List.not_mem_nil q)) hinit
  have hsorted : ∀ q ∈ ip.1.stable_sort sol_le, genetic_coloring_valid g q.2 = true :=
    fun q hq => hip q ((List.stable_sort_perm _ _).mem_iff.mp hq)
  exact generation_loop_valid g hwb (coloring_upper_bound g) mt limit opg ps rng fuel
    gens _ _ ip.2 r hsorted (initial_identity_valid g hwb) hgen

/-- C1: for every well-formed graph and every random stream, whenever
grasp_wrapper or genetic returns a pair (num_colors, coloring), the
returned coloring is valid: no edge joins two vertices of the same
color (is_coloring_valid for the adjacency-list solver,
valid_color_assignment at every vertex for the matrix solver). -/
theorem c1_solver_outputs_are_valid_colorings :
    (∀ (g : AdjList), g.wb = true →
      ∀ (gi ci cls : ℕ) (rngs : ℕ → ℕ → ℕ) (fuel : ℕ) (s : ℕ × List ℕ),
        grasp_wrapper g gi ci cls rngs fuel = .ok s →
        is_coloring_valid g s.2 = true) ∧
    (∀ (g : Graph), g.wb = true →
      ∀ (gens ps opg : ℕ) (mt : ℕ → Bool) (limit : ℕ) (rng : ℕ → ℕ) (fuel : ℕ)
        (s : ℕ × List ℕ),
        genetic g gens ps opg mt limit rng fuel = .ok s →
        genetic_coloring_valid g s.2 = true) :=
  ⟨fun g hwb gi ci cls rngs fuel s h => grasp_wrapper_valid g hwb gi ci cls rngs fuel h,
   fun g hwb gens ps opg mt limit rng fuel s h =>
     genetic_valid g hwb gens ps opg mt limit rng fuel h⟩

theorem c1_witness_eval :
    is_coloring_valid k2adj ((2, [1, 2]) : ℕ × List ℕ).2 = true ∧
    genetic_coloring_valid k2mat ((2, [1, 2]) : ℕ × List ℕ).2 = true :=
  ⟨c1_solver_outputs_are_valid_colorings.1 k2adj (by decide) 1 1 1 (fun _ _ => 0) 30
      (2, [1, 2]) (by rfl),
   c1_solver_outputs_are_valid_colorings.2 k2mat (by decide) 0 0 0 (fun _ => false) 0
      (fun _ => 0) 1 (2, [1, 2]) (by rfl)⟩
